import Mathlib

/-!
# Filesystem simulation: a shallow embedding of `ldisk.h` and `file_system.h`

The logical disk is an array of 64 blocks, every block a `std::bitset<512>`.
A bitset is held as a natural number below `2 ^ 512` whose bit `j` is bit `j`
of the set.  Characters are natural numbers below 256.  Functions that can
run into undefined behaviour in the C++ source (an index outside an array or
a bitset, a missing return value that is used, a null pointer that is
dereferenced) return `none` there.
-/

set_option maxRecDepth 100000

/-! ## base.h -/

/-- The test `isInteger(std::string(1, c))` of `base.h` on a one-character
string: the first character has to be a digit or a sign, and `strtol` has to
consume the whole string, which a lone sign does not allow. -/
def isInteger (c : Nat) : Bool := Nat.ble 48 c && Nat.ble c 57

/-! ## ldisk.h : bitsets -/

/-- The value `set[j]` of one bit of a `std::bitset`, 0 or 1. -/
def bit (set : Nat) (j : Nat) : Nat := (set >>> j) % 2

/-- The assignment `set[j] = v` of one bit of a `std::bitset`, `v` being 0 or 1:
the bit is flipped when it differs from `v`. -/
def assign_bit (set : Nat) (j : Nat) (v : Nat) : Nat :=
  set ^^^ (if bit set j = v then 0 else 2 ^ j)

/-- The operator `set << pos` of `std::bitset<512>`; the count is a `size_t`, so
a negative `int` count is at least 512 and clears the set. -/
def shl512 (set : Nat) (pos : Int) : Nat :=
  if 0 ≤ pos ∧ pos < 512 then (set <<< pos.toNat) % 2 ^ 512 else 0

/-- The operator `set >> pos` of `std::bitset<512>`. -/
def shr512 (set : Nat) (pos : Int) : Nat :=
  if 0 ≤ pos ∧ pos < 512 then set >>> pos.toNat else 0

/-- The template `subset<512>(set, min, max)` of `ldisk.h`. -/
def subset (set : Nat) (min max : Int) : Nat :=
  let ignore_hi : Int := 512 - max
  let range : Nat := shr512 (shl512 (2 ^ 512 - 1) ignore_hi) ignore_hi
  shr512 (set &&& range) min

/-- The string `std::bitset<8>(c).to_string()`: eight binary digits, the most
significant bit first.  A character of the string is held as its digit value
(the character minus the character 0). -/
def to_string8 (c : Nat) : List Nat :=
  [bit c 7, bit c 6, bit c 5, bit c 4, bit c 3, bit c 2, bit c 1, bit c 0]

/-- The value `bits.to_ulong()` of a `std::bitset<8>` read from a stream of
eight binary digits, the first digit being the most significant bit. -/
def from_string8 (bits : List Nat) : Nat :=
  bits.foldl (fun acc b => 2 * acc + b) 0

/-- The loop `for (j = 0; j < BLOCK_SIZE; j++) block[j] = bit_string[j] - '0'`
over a whole bitset: every bit of the set is assigned, so the result is the
bitset whose bit `j` is character `j` of the string. -/
def of_bit_string (bit_string : List Nat) : Nat :=
  bit_string.foldr (fun b acc => b + 2 * acc) 0

/-! ## ldisk.h : the disk -/

/-- The data members of `class Ldisk`: the 64 physical blocks, the 7 cached
blocks (bitmap and descriptors) and the index of the directory descriptor. -/
structure Ldisk where
  ldisk : List Nat
  cache : List Nat
  directory_descriptor : Int
deriving DecidableEq, Repr

namespace Ldisk

/-- The method `Ldisk::read_int`: `subset(block, start, start + 31)`, then
`to_ulong()`. -/
def read_int (block : Nat) (start : Int) : Nat :=
  subset block start (start + (32 - 1))

/-- The method `Ldisk::write_int`: the 32 bits of `insert_int` are stored at
`start`, least significant bit first.  Indexing the bitset outside `0..511` is
undefined. -/
def write_int (block : Nat) (start : Int) (insert_int : Nat) : Option Nat :=
  if 0 ≤ start ∧ start + 32 ≤ 512 then
    some ((List.range 32).foldl
      (fun b i => assign_bit b (start.toNat + i) (bit insert_int i)) block)
  else none

/-- The method `Ldisk::get_desc_location`: cache block and bit offset of a descriptor. -/
def get_desc_location (desc_index : Int) : Nat × Int :=
  let first : Nat :=
    if desc_index < 4 then 1
    else if desc_index < 8 then 1 + 1
    else if desc_index < 12 then 1 + 2
    else if desc_index < 16 then 1 + 3
    else if desc_index < 20 then 1 + 4
    else 1 + 5
  (first, (desc_index - ((first : Int) - 1) * 4) * (32 * 4))

/-- The method `Ldisk::get_descriptor`: the four integers of a descriptor. -/
def get_descriptor (ld : Ldisk) (desc_index : Int) : List Nat :=
  let loc := get_desc_location desc_index
  let block := ld.cache.getD loc.1 0
  [read_int block loc.2, read_int block (loc.2 + 32),
   read_int block (loc.2 + 64), read_int block (loc.2 + 96)]

/-- The loops of `Ldisk::init_descriptor` over the descriptor slots that are
still to be examined (cache block, bit offset), `desc_index` counting along. -/
def init_descriptor_scan (ld : Ldisk) (new_block : Nat) :
    List (Nat × Nat) → Int → Option (Ldisk × Int)
  | [], _ => some (ld, -1)
  | (i, j) :: slots, desc_index =>
    if read_int (ld.cache.getD i 0) j = 0 then
      match write_int (ld.cache.getD i 0) j 1 with
      | none => none
      | some b1 =>
        match write_int b1 ((j : Int) + 32) new_block with
        | none => none
        | some b2 => some ({ ld with cache := ld.cache.set i b2 }, desc_index)
    else init_descriptor_scan ld new_block slots (desc_index + 1)

/-- The slots visited by `Ldisk::init_descriptor`: cache blocks 1 to 6, four
descriptors of 128 bits in each. -/
def descriptor_slots : List (Nat × Nat) :=
  [1, 2, 3, 4, 5, 6].flatMap (fun i => [0, 128, 256, 384].map (fun j => (i, j)))

/-- The method `Ldisk::init_descriptor`: take the first descriptor whose size
reads 0, set its size to 1 and its first block to `new_block`; -1 when there
is none. -/
def init_descriptor (ld : Ldisk) (new_block : Nat) : Option (Ldisk × Int) :=
  init_descriptor_scan ld new_block descriptor_slots 0

/-- The method `Ldisk::destroy_descriptor`: zero the four integers. -/
def destroy_descriptor (ld : Ldisk) (desc_index : Int) : Option Ldisk :=
  let loc := get_desc_location desc_index
  match write_int (ld.cache.getD loc.1 0) loc.2 0 with
  | none => none
  | some b0 =>
    match write_int b0 (loc.2 + 32) 0 with
    | none => none
    | some b1 =>
      match write_int b1 (loc.2 + 64) 0 with
      | none => none
      | some b2 =>
        match write_int b2 (loc.2 + 96) 0 with
        | none => none
        | some b3 => some { ld with cache := ld.cache.set loc.1 b3 }

/-- The loop of `Ldisk::update_descriptor_blocks` over the block slots that are
still to be examined, `second` being the bit offset of the next one. -/
def update_descriptor_blocks_scan (ld : Ldisk) (first : Nat) (new_block : Nat) :
    Nat → Int → Option Ldisk
  | 0, _ => some ld
  | n + 1, second =>
    if read_int (ld.cache.getD first 0) second = 0 then
      match write_int (ld.cache.getD first 0) second new_block with
      | none => none
      | some b => some { ld with cache := ld.cache.set first b }
    else update_descriptor_blocks_scan ld first new_block n (second + 32)

/-- The method `Ldisk::update_descriptor_blocks`: store `new_block` in the first
of the three block slots that reads 0. -/
def update_descriptor_blocks (ld : Ldisk) (desc_index : Int) (new_block : Nat) :
    Option Ldisk :=
  let loc := get_desc_location desc_index
  update_descriptor_blocks_scan ld loc.1 new_block 3 (loc.2 + 32)

/-- The method `Ldisk::update_descriptor_size`. -/
def update_descriptor_size (ld : Ldisk) (desc_index : Int) (new_size : Nat) :
    Option Ldisk :=
  let loc := get_desc_location desc_index
  match write_int (ld.cache.getD loc.1 0) loc.2 new_size with
  | none => none
  | some b => some { ld with cache := ld.cache.set loc.1 b }

/-- The method `Ldisk::read_cache`: blocks 0..6 are copied into the cache. -/
def read_cache (ld : Ldisk) : Ldisk :=
  { ld with cache := (List.range 7).map (fun i => ld.ldisk.getD i 0) }

/-- The method `Ldisk::write_cache`: the cache is copied to blocks 0..6. -/
def write_cache (ld : Ldisk) : Ldisk :=
  let disk := (List.range 7).foldl (fun disk i => disk.set i (ld.cache.getD i 0)) ld.ldisk
  { ld with ldisk := disk }

/-- The method `Ldisk::clear_disk`. -/
def clear_disk (ld : Ldisk) : Ldisk :=
  { ld with ldisk := List.replicate 64 0 }

/-- The loop of `Ldisk::find_free_block` from bit `i` on, `n` bits being left
up to `NUM_BLOCKS`.  When no bit is clear the function ends without a return
statement, and its callers use the value: there is no result. -/
def find_free_block_scan (ld : Ldisk) : Nat → Nat → Option (Ldisk × Nat)
  | 0, _ => none
  | n + 1, i =>
    if bit (ld.cache.getD 0 0) i = 0 then
      some ({ ld with cache := ld.cache.set 0 (assign_bit (ld.cache.getD 0 0) i 1) }, i)
    else find_free_block_scan ld n (i + 1)

/-- The method `Ldisk::find_free_block`: the first clear bit among 7..63 of the
cached bitmap is set and returned. -/
def find_free_block (ld : Ldisk) : Option (Ldisk × Nat) :=
  find_free_block_scan ld (64 - 7) 7

/-- The method `Ldisk::release_block`: `cache[0][block_num] = 0`. -/
def release_block (ld : Ldisk) (block_num : Nat) : Option Ldisk :=
  if block_num < 512 then
    some { ld with cache := ld.cache.set 0 (assign_bit (ld.cache.getD 0 0) block_num 0) }
  else none

/-- The eight characters that the `c`-th extraction `sstream >> bits` takes from
the reversed `to_string()` of a block: character `n` of that string is bit
`n` of the block. -/
def bit_string8 (block : Nat) (c : Nat) : List Nat :=
  [bit block (8 * c), bit block (8 * c + 1), bit block (8 * c + 2), bit block (8 * c + 3),
   bit block (8 * c + 4), bit block (8 * c + 5), bit block (8 * c + 6), bit block (8 * c + 7)]

/-- The method `Ldisk::read_block`: the 512 bits of block `i`, eight at a time,
each group read as a `std::bitset<8>`. -/
def read_block (ld : Ldisk) (i : Nat) : Option (List Nat) :=
  if i < 64 then
    some ((List.range 64).map (fun c => from_string8 (bit_string8 (ld.ldisk.getD i 0) c)))
  else none

/-- The method `Ldisk::write_block`: the 64 characters of `p` as a string of
512 binary digits, stored bit by bit in block `i`. -/
def write_block (ld : Ldisk) (i : Nat) (p : List Nat) : Option Ldisk :=
  if i < 64 then
    some { ld with ldisk := ld.ldisk.set i (of_bit_string ((p.take 64).flatMap to_string8)) }
  else none

/-- The method `Ldisk::init_disk()`: an empty disk whose directory descriptor
holds the first three free blocks. -/
def init_disk (ld : Ldisk) : Option Ldisk :=
  let ld0 := read_cache (clear_disk ld)
  match find_free_block ld0 with
  | none => none
  | some (ld1, b1) =>
    match init_descriptor ld1 b1 with
    | none => none
    | some (ld2, d) =>
      let ld3 := { ld2 with directory_descriptor := d }
      match find_free_block ld3 with
      | none => none
      | some (ld4, b2) =>
        match update_descriptor_blocks ld4 ld4.directory_descriptor b2 with
        | none => none
        | some ld5 =>
          match find_free_block ld5 with
          | none => none
          | some (ld6, b3) => update_descriptor_blocks ld6 ld6.directory_descriptor b3

end Ldisk

/-! ## file_system.h -/

/-- One entry of the open file table (`struct FILE_TABLE`): the buffer, the
descriptor index (-1 when the entry is free), the position in the buffer and
the number of the block held in the buffer. -/
structure FILE_TABLE where
  r_w : List Nat
  index : Int
  buffer_index : Int
  buffer_block : Nat
deriving DecidableEq, Repr

/-- The data members of `class FileSystem`: the disk and the four entries of
the open file table. -/
structure FileSystem where
  ldisk : Ldisk
  open_file_table : List FILE_TABLE
deriving DecidableEq, Repr

namespace FileSystem

/-- The entry `open_file_table[i]`. -/
def oft (fs : FileSystem) (i : Nat) : FILE_TABLE :=
  fs.open_file_table.getD i ⟨[], -1, 0, 0⟩

/-- The assignment to the fields of `open_file_table[i]`. -/
def set_oft (fs : FileSystem) (i : Nat) (e : FILE_TABLE) : FileSystem :=
  { fs with open_file_table := fs.open_file_table.set i e }

/-- The method `FileSystem::init_directory`: entry 0 of the table is bound to
the directory descriptor and its first block is read in. -/
def init_directory (fs : FileSystem) : Option FileSystem := do
  let index := fs.ldisk.directory_descriptor
  let directory_descriptor := fs.ldisk.get_descriptor index
  let r_w ← fs.ldisk.read_block (directory_descriptor.getD 1 0)
  some (fs.set_oft 0 ⟨r_w, index, 0, directory_descriptor.getD 1 0⟩)

/-- The method `FileSystem::init_fs`: the directory entry, then entries 1..3
are marked free with an empty buffer. -/
def init_fs (fs : FileSystem) : Option FileSystem := do
  let fs0 ← init_directory fs
  some ([1, 2, 3].foldl (fun f i => f.set_oft i ⟨List.replicate 64 0, -1, 0, 0⟩) fs0)

/-- The inner loop of `FileSystem::directory` over the characters of one block. -/
def directory_scan : List Nat → List (List Nat) → List Nat → List (List Nat) × List Nat
  | [], file_names, file_name => (file_names, file_name)
  | c :: r_w, file_names, file_name =>
    if c ≠ 0 then
      if isInteger c then directory_scan r_w (file_names ++ [file_name]) []
      else directory_scan r_w file_names (file_name ++ [c])
    else directory_scan r_w file_names file_name

/-- The outer loop of `FileSystem::directory` over the block slots of the
directory descriptor that are still to be read. -/
def directory_blocks (dir_descriptor : List Nat) :
    List Nat → FileSystem → List (List Nat) → List Nat →
      Option (FileSystem × List (List Nat) × List Nat)
  | [], fs, file_names, file_name => some (fs, file_names, file_name)
  | dir_block :: rest, fs, file_names, file_name => do
    let r_w ← fs.ldisk.read_block (dir_descriptor.getD dir_block 0)
    let fs1 := fs.set_oft 0
      { fs.oft 0 with r_w := r_w, buffer_block := dir_descriptor.getD dir_block 0 }
    let res := directory_scan (r_w.take 64) file_names file_name
    directory_blocks dir_descriptor rest fs1 res.1 res.2

/-- The method `FileSystem::directory`: the names found in the three directory
blocks; a digit ends a name. -/
def directory (fs : FileSystem) : Option (FileSystem × List (List Nat)) := do
  let dir_descriptor := fs.ldisk.get_descriptor (fs.oft 0).index
  let res ← directory_blocks dir_descriptor [1, 2, 3] fs [] []
  some (res.1, res.2.1)

/-- The inner loop of `FileSystem::find_directory_entry` over the characters of
one block from index `j` on: either the location that is returned
(`j - search_string.length()`), or the search string at the end of the block. -/
def find_entry_scan (file_name : List Nat) : List Nat → Int → List Nat → Int ⊕ List Nat
  | [], _, search_string => Sum.inr search_string
  | c :: r_w, j, search_string =>
    if c ≠ 0 then
      if isInteger c then
        if search_string = file_name then Sum.inl (j - search_string.length)
        else find_entry_scan file_name r_w (j + 1) []
      else find_entry_scan file_name r_w (j + 1) (search_string ++ [c])
    else find_entry_scan file_name r_w (j + 1) search_string

/-- The outer loop of `FileSystem::find_directory_entry`. -/
def find_entry_blocks (file_name : List Nat) (dir_descriptor : List Nat) :
    List Nat → FileSystem → List Nat → Option (FileSystem × Int)
  | [], fs, _ => some (fs, -1)
  | dir_block :: rest, fs, search_string => do
    let r_w ← fs.ldisk.read_block (dir_descriptor.getD dir_block 0)
    let fs1 := fs.set_oft 0
      { fs.oft 0 with r_w := r_w, buffer_block := dir_descriptor.getD dir_block 0 }
    match find_entry_scan file_name (r_w.take 64) 0 search_string with
    | Sum.inl location => some (fs1, location)
    | Sum.inr search_string1 => find_entry_blocks file_name dir_descriptor rest fs1 search_string1

/-- The method `FileSystem::find_directory_entry`: the index in the directory
buffer where the entry of `file_name` starts, -1 when there is none. -/
def find_directory_entry (fs : FileSystem) (file_name : List Nat) :
    Option (FileSystem × Int) :=
  find_entry_blocks file_name (fs.ldisk.get_descriptor (fs.oft 0).index) [1, 2, 3] fs []

/-- The extraction `ss >> desc_index` from a stream that holds the given
characters: the value of the leading decimal digits (0 is stored when there
is no digit to extract). -/
def extract_int (ss : List Nat) : Int :=
  ((ss.takeWhile (fun c => isInteger c)).foldl (fun acc c => 10 * acc + (c - 48)) 0 : Nat)

/-- The method `FileSystem::get_desc_index`.  The character after the first
digit goes into the stream before the first digit does. -/
def get_desc_index (fs : FileSystem) (file_name : List Nat) : Option (FileSystem × Int) := do
  let res ← find_directory_entry fs file_name
  let fs1 := res.1
  let dir_location := res.2
  if dir_location ≠ -1 then
    let r_w := (fs1.oft 0).r_w
    let at0 : Int := dir_location + file_name.length
    let at1 : Int := dir_location + file_name.length + 1
    if 0 ≤ at0 ∧ at1 < 64 then
      let ss1 := if isInteger (r_w.getD at1.toNat 0) then [r_w.getD at1.toNat 0] else []
      let ss := ss1 ++ [r_w.getD at0.toNat 0]
      some (fs1, extract_int ss)
    else none
  else some (fs1, -1)

/-- The decimal digits of `n`, as `ss << n` writes them (`fuel` bounds the
number of digits). -/
def decimal_digits : Nat → Nat → List Nat
  | 0, _ => []
  | fuel + 1, n => if n < 10 then [48 + n] else decimal_digits fuel (n / 10) ++ [48 + n % 10]

/-- The method `FileSystem::insert_into_buffer`.  The buffer is the array `r_w`
of 64 characters and the source has no test of `position`: a store at index
64 or more goes outside the array (into the members that follow `r_w` in
`FILE_TABLE`), and the program goes on.  Such a store is undefined behaviour
and has no result here. -/
def insert_into_buffer : List Nat → List Nat → Nat → Option (List Nat)
  | [], buffer, _ => some buffer
  | c :: data, buffer, position =>
    if position < 64 then insert_into_buffer data (buffer.set position c) (position + 1)
    else none

/-- The search `directory->r_w[j] == NULL` of `FileSystem::create_directory_entry`
from index `j` on. -/
def find_open_entry : List Nat → Nat → Option Nat
  | [], _ => none
  | c :: r_w, j => if c = 0 then some j else find_open_entry r_w (j + 1)

/-- The outer loop of `FileSystem::create_directory_entry`. -/
def create_entry_blocks (entry : List Nat) (dir_descriptor : List Nat) :
    List Nat → FileSystem → Option FileSystem
  | [], fs => some fs
  | dir_block :: rest, fs => do
    let r_w ← fs.ldisk.read_block (dir_descriptor.getD dir_block 0)
    let fs1 := fs.set_oft 0
      { fs.oft 0 with r_w := r_w, buffer_block := dir_descriptor.getD dir_block 0 }
    match find_open_entry (r_w.take 64) 0 with
    | some j => do
      let r_w1 ← insert_into_buffer entry r_w j
      let ld ← fs1.ldisk.write_block (dir_descriptor.getD dir_block 0) r_w1
      some ({ fs1 with ldisk := ld }.set_oft 0 { fs1.oft 0 with r_w := r_w1 })
    | none => create_entry_blocks entry dir_descriptor rest fs1

/-- The method `FileSystem::create_directory_entry`: the name followed by the
decimal descriptor index is written at the first zero character of the
directory. -/
def create_directory_entry (fs : FileSystem) (file_name : List Nat) (descriptor_index : Int) :
    Option FileSystem :=
  let entry := file_name ++ decimal_digits (descriptor_index.toNat + 1) descriptor_index.toNat
  create_entry_blocks entry (fs.ldisk.get_descriptor (fs.oft 0).index) [1, 2, 3] fs

/-- The method `FileSystem::is_oft_entry`. -/
def is_oft_entry (fs : FileSystem) (index : Int) : Bool :=
  if 0 ≤ index ∧ index ≤ 3 then decide ((fs.oft index.toNat).index ≠ -1) else false

/-- The method `FileSystem::find_oft_entry`: the first free entry among 0..3. -/
def find_oft_entry (fs : FileSystem) : Int :=
  if (fs.oft 0).index = -1 then 0
  else if (fs.oft 1).index = -1 then 1
  else if (fs.oft 2).index = -1 then 2
  else if (fs.oft 3).index = -1 then 3
  else -1

/-- The method `FileSystem::close`. -/
def close (fs : FileSystem) (index : Int) : Option (FileSystem × Int) :=
  if is_oft_entry fs index then do
    let close_file := fs.oft index.toNat
    let ld ← fs.ldisk.write_block close_file.buffer_block close_file.r_w
    some ({ fs with ldisk := ld }.set_oft index.toNat
      { close_file with index := -1, buffer_index := 0, buffer_block := 0 }, 0)
  else some (fs, -1)

/-- The method `FileSystem::close_all`. -/
def close_all (fs : FileSystem) : Option FileSystem :=
  [0, 1, 2, 3].foldlM
    (fun (f : FileSystem) (i : Int) =>
      if is_oft_entry f i then (close f i).map Prod.fst else some f) fs

/-- The method `FileSystem::remove_descriptor`: the descriptor is zeroed and
its three block slots are released in the bitmap. -/
def remove_descriptor (fs : FileSystem) (desc_index : Int) : Option FileSystem := do
  let file_descriptor := fs.ldisk.get_descriptor desc_index
  let ld0 ← fs.ldisk.destroy_descriptor desc_index
  let ld1 ← ld0.release_block (file_descriptor.getD 1 0)
  let ld2 ← ld1.release_block (file_descriptor.getD 2 0)
  let ld3 ← ld2.release_block (file_descriptor.getD 3 0)
  some { fs with ldisk := ld3 }

/-- The method `FileSystem::defrag_block`. -/
def defrag_block (block : List Nat) : List Nat :=
  let new_block := List.replicate 64 0
  let new_block1 := (List.range 64).foldl
    (fun nb i => if block.getD i 0 ≠ 0 then nb.set i (block.getD i 0) else nb) new_block
  (List.range 64).foldl (fun b i => b.set i (new_block1.getD i 0)) block

/-- The `while (clear_bytes)` loop of `FileSystem::destroy` at `dir_location`,
`rest` being the directory buffer from that index on: characters are zeroed up
to and including the first digit, whose value is the descriptor that is
removed.  Running off the end of the buffer is undefined. -/
def destroy_clear : List Nat → Nat → FileSystem → Option FileSystem
  | [], _, _ => none
  | c :: rest, dir_location, fs =>
    if isInteger c then do
      let fs1 ← remove_descriptor fs ((c : Int) - 48)
      some (fs1.set_oft 0 { fs1.oft 0 with r_w := (fs1.oft 0).r_w.set dir_location 0 })
    else
      destroy_clear rest (dir_location + 1)
        (fs.set_oft 0 { fs.oft 0 with r_w := (fs.oft 0).r_w.set dir_location 0 })

/-- The method `FileSystem::destroy`.  On success the function ends without a
return statement: the returned value is `none` then, and `some (-1)` on failure. -/
def destroy (fs : FileSystem) (file_name : List Nat) : Option (FileSystem × Option Int) := do
  let res ← find_directory_entry fs file_name
  let dir_location := res.2
  if dir_location ≠ -1 then
    let res1 ← get_desc_index res.1 file_name
    let desc_index := res1.2
    let fs1 := res1.1
    let fs2 ←
      (if (fs1.oft 1).index = desc_index then (close fs1 1).map Prod.fst
       else if (fs1.oft 2).index = desc_index then (close fs1 2).map Prod.fst
       else if (fs1.oft 3).index = desc_index then (close fs1 3).map Prod.fst
       else some fs1)
    if 0 ≤ dir_location then
      let fs3 ← destroy_clear (((fs2.oft 0).r_w.take 64).drop dir_location.toNat)
        dir_location.toNat fs2
      let directory := fs3.oft 0
      let r_w := defrag_block directory.r_w
      let ld ← fs3.ldisk.write_block directory.buffer_block r_w
      some ({ fs3 with ldisk := ld }.set_oft 0 { directory with r_w := r_w }, none)
    else none
  else some (res.1, some (-1))

/-- The method `FileSystem::create`. -/
def create (fs : FileSystem) (file_name : List Nat) : Option (FileSystem × Int) :=
  if file_name.length ≤ 4 then do
    let res ← find_directory_entry fs file_name
    if res.2 = -1 then
      let fb ← res.1.ldisk.find_free_block
      let ds ← fb.1.init_descriptor fb.2
      let fs1 := { res.1 with ldisk := ds.1 }
      if ds.2 ≠ -1 then do
        let fs2 ← create_directory_entry fs1 file_name ds.2
        some (fs2, 0)
      else some (fs1, -1)
    else some (res.1, -1)
  else some (fs, -1)

/-- The method `FileSystem::open`. -/
def «open» (fs : FileSystem) (file_name : List Nat) : Option (FileSystem × Int) := do
  let oft_index := find_oft_entry fs
  let res ← get_desc_index fs file_name
  let fs1 := res.1
  let desc_index := res.2
  let file_desc := fs1.ldisk.get_descriptor desc_index
  if oft_index ≠ -1 ∧ desc_index ≠ -1 then
    if (fs1.oft 1).index = desc_index ∨ (fs1.oft 2).index = desc_index
        ∨ (fs1.oft 3).index = desc_index then
      some (fs1, -1)
    else do
      let r_w ← fs1.ldisk.read_block (file_desc.getD 1 0)
      some (fs1.set_oft oft_index.toNat ⟨r_w, desc_index, 0, file_desc.getD 1 0⟩, oft_index)
  else some (fs1, -1)

/-- The search of `FileSystem::write` and `FileSystem::read` for the slot of
the descriptor that holds `buffer_block`; the last match wins, 0 without one. -/
def find_block_index (file_desc : List Nat) (buffer_block : Nat) : Nat :=
  [1, 2, 3].foldl (fun block_index i => if file_desc.getD i 0 = buffer_block then i else block_index) 0

/-- The inner loop of `FileSystem::write`, `data` being the characters from
index `i` on: characters go into the buffer at `j` while `j < 64` and data
is left.  The result is the buffer, the final `j` (also `buffer_index`), the
data that is left and `bytes_written`.  The source has no test `0 ≤ j`: with a
negative `buffer_index` (which `lseek` stores for a negative position) the
store `r_w[j] = data[i]` goes to memory before the array, and the program goes
on.  Such a store is undefined behaviour and has no result here. -/
def write_bytes : List Nat → List Nat → Int → Nat → Option (List Nat × Int × List Nat × Nat)
  | [], r_w, j, bytes_written => some (r_w, j, [], bytes_written)
  | c :: data, r_w, j, bytes_written =>
    if j < 64 then
      if 0 ≤ j then write_bytes data (r_w.set j.toNat c) (j + 1) (bytes_written + 1)
      else none
    else some (r_w, j, c :: data, bytes_written)

/-- The outer loop of `FileSystem::write`, `data` being the characters from
index `i` on.  An iteration goes on to the next one only with
`block_index < 4` after the increment, so four iterations are enough
(`fuel`). -/
def write_loop (index : Nat) : Nat → FileSystem → List Nat → List Nat → Nat → Nat →
    Option (FileSystem × Nat)
  | 0, _, _, _, _, _ => none
  | fuel + 1, fs, data, file_desc, block_index, bytes_written => do
    let curr_file := fs.oft index
    let res ← write_bytes data curr_file.r_w curr_file.buffer_index bytes_written
    let ld ← fs.ldisk.write_block curr_file.buffer_block res.1
    let fs1 := { fs with ldisk := ld }.set_oft index
      { curr_file with r_w := res.1, buffer_index := res.2.1 }
    let block_index1 := block_index + 1
    if res.2.2.1 ≠ [] ∧ block_index1 < 4 then do
      let alloc ←
        (if file_desc.getD block_index1 0 = 0 then do
          let fb ← fs1.ldisk.find_free_block
          let ld1 ← fb.1.update_descriptor_blocks (fs1.oft index).index fb.2
          some (ld1, file_desc.set block_index1 fb.2)
        else some (fs1.ldisk, file_desc))
      let file_desc1 := alloc.2
      let r_w ← alloc.1.read_block (file_desc1.getD block_index1 0)
      let fs2 := { fs1 with ldisk := alloc.1 }.set_oft index
        { fs1.oft index with r_w := r_w, buffer_block := file_desc1.getD block_index1 0,
                             buffer_index := 0 }
      write_loop index fuel fs2 res.2.2.1 file_desc1 block_index1 res.2.2.2
    else some (fs1, res.2.2.2)

/-- The method `FileSystem::write`. -/
def write (fs : FileSystem) (index : Int) (data : List Nat) : Option (FileSystem × Int) :=
  if is_oft_entry fs index then do
    let curr_file := fs.oft index.toNat
    let file_desc := fs.ldisk.get_descriptor curr_file.index
    let block_index := find_block_index file_desc curr_file.buffer_block
    let res ← (if data ≠ [] then write_loop index.toNat 4 fs data file_desc block_index 0
               else some (fs, 0))
    let bytes_written := res.2
    let new_size := if file_desc.getD 0 0 = 1 then bytes_written
                    else file_desc.getD 0 0 + bytes_written
    let ld ← res.1.ldisk.update_descriptor_size (res.1.oft index.toNat).index new_size
    some ({ res.1 with ldisk := ld }, bytes_written)
  else some (fs, -1)

/-- The inner loop of `FileSystem::read`, `left` being `count - i`: characters
other than 0 are appended to `mem_area` while `j < 64` and `i < count`.  The
result is the final `j` (also `buffer_index`), what is left of the count,
`mem_area` and `bytes_read`.  The source has no test `0 ≤ j`: with a negative
`buffer_index` the character `r_w[j]` is read from memory before the array,
and the program goes on.  Such a read is undefined behaviour and has no result
here. -/
def read_bytes (r_w : List Nat) : Nat → Int → List Nat → Nat → Option (Int × Nat × List Nat × Nat)
  | 0, j, mem_area, bytes_read => some (j, 0, mem_area, bytes_read)
  | left + 1, j, mem_area, bytes_read =>
    if j < 64 then
      if 0 ≤ j then
        read_bytes r_w left (j + 1)
          (if r_w.getD j.toNat 0 ≠ 0 then mem_area ++ [r_w.getD j.toNat 0] else mem_area)
          (bytes_read + 1)
      else none
    else some (j, left + 1, mem_area, bytes_read)

/-- The outer loop of `FileSystem::read`, `left` being `count - i`.  An iteration
goes on to the next one only after `block_index` was incremented and is below
4, so four iterations are enough (`fuel`). -/
def read_loop (index : Nat) (file_desc : List Nat) : Nat → FileSystem → Nat → Nat →
    List Nat → Nat → Option (FileSystem × List Nat × Nat)
  | 0, _, _, _, _, _ => none
  | fuel + 1, fs, left, block_index, mem_area, bytes_read => do
    let curr_file := fs.oft index
    let res ← read_bytes curr_file.r_w left curr_file.buffer_index mem_area bytes_read
    let fs1 := fs.set_oft index { curr_file with buffer_index := res.1 }
    let block_index1 := if 64 ≤ res.1 then block_index + 1 else block_index
    if res.2.1 ≠ 0 ∧ block_index1 < 4 then
      if file_desc.getD block_index1 0 = 0 then some (fs1, res.2.2.1, res.2.2.2)
      else do
        let r_w ← fs1.ldisk.read_block (file_desc.getD block_index1 0)
        let fs2 := fs1.set_oft index
          { fs1.oft index with r_w := r_w, buffer_block := file_desc.getD block_index1 0,
                               buffer_index := 0 }
        read_loop index file_desc fuel fs2 res.2.1 block_index1 res.2.2.1 res.2.2.2
    else some (fs1, res.2.2.1, res.2.2.2)

/-- The method `FileSystem::read`: the new state, `mem_area` and the returned
count. -/
def read (fs : FileSystem) (index : Int) (mem_area : List Nat) (count : Int) :
    Option (FileSystem × List Nat × Int) :=
  if is_oft_entry fs index then do
    let curr_file := fs.oft index.toNat
    let file_desc := fs.ldisk.get_descriptor curr_file.index
    let block_index := find_block_index file_desc curr_file.buffer_block
    let res ← (if 0 < count then
                 read_loop index.toNat file_desc 4 fs count.toNat block_index mem_area 0
               else some (fs, mem_area, 0))
    some (res.1, res.2.1, (res.2.2 : Int))
  else some (fs, mem_area, -1)

/-- The choice of `block_index` in `FileSystem::lseek`: the variable keeps its
initial value 0 when `pos` is 192 or more. -/
def lseek_block_index (pos : Int) : Nat :=
  if pos < 64 then 1
  else if pos ≥ 64 ∧ pos < 128 then 2
  else if pos ≥ 128 ∧ pos < 192 then 3
  else 0

/-- The method `FileSystem::lseek`.  Without an open entry at `index` the
function dereferences a null pointer. -/
def lseek (fs : FileSystem) (index : Int) (pos : Int) : Option (FileSystem × Int) :=
  if is_oft_entry fs index then
    let curr_file := fs.oft index.toNat
    let file_desc := fs.ldisk.get_descriptor curr_file.index
    let old_block := curr_file.buffer_block
    if pos < (file_desc.getD 0 0 : Nat) then
      let block_index := lseek_block_index pos
      if file_desc.getD block_index 0 ≠ 0 then do
        let buffer_index : Int := pos - ((block_index : Int) - 1) * 64
        let buffer_block := file_desc.getD block_index 0
        let r_w ← (if buffer_block ≠ old_block then fs.ldisk.read_block buffer_block
                   else some curr_file.r_w)
        some (fs.set_oft index.toNat ⟨r_w, curr_file.index, buffer_index, buffer_block⟩,
              buffer_index)
      else some (fs, curr_file.buffer_index)
    else some (fs, -1)
  else none

/-- The state of a `FileSystem` object before the command `in`: the bitsets are
empty; the open file table is not initialised (every field is assigned by
`init_fs` before it is read). -/
def blank : FileSystem :=
  ⟨⟨List.replicate 64 0, List.replicate 7 0, 0⟩, List.replicate 4 ⟨List.replicate 64 0, 0, 0, 0⟩⟩

/-- The command `in` without a file name: `ldisk.init_disk()`, then `init_fs()`. -/
def command_in (fs : FileSystem) : Option FileSystem := do
  let ld ← fs.ldisk.init_disk
  init_fs { fs with ldisk := ld }

/-- The freshly initialised disk: the state after the command `in`. -/
def fresh : FileSystem := (command_in blank).getD blank

end FileSystem

/-! ## Sequences of calls -/

/-- One call of a file operation, with its arguments. -/
inductive Op where
  | create (file_name : List Nat)
  | destroy (file_name : List Nat)
  | «open» (file_name : List Nat)
  | close (index : Int)
  | read (index : Int) (count : Int)
  | write (index : Int) (data : List Nat)
  | lseek (index : Int) (pos : Int)
deriving DecidableEq, Repr

/-- The state after one call.  There is no state (`none`) when the call runs
into undefined behaviour, although the compiled program goes on in most of
these cases: an index outside the buffer `r_w` (`insert_into_buffer` at
position 64 or more, `write` and `read` at a negative position,
`get_desc_index` and `destroy` next to the ends of the buffer), a bit outside
a bitset (`write_int` for a descriptor index outside 0..23, `release_block`),
a block outside the disk array, the value of `find_free_block` when no bit
among 7..63 is clear, and `lseek` on a free slot (a null pointer). -/
def step (fs : FileSystem) : Op → Option FileSystem
  | Op.create file_name => (fs.create file_name).map Prod.fst
  | Op.destroy file_name => (fs.destroy file_name).map Prod.fst
  | Op.open file_name => (fs.open file_name).map Prod.fst
  | Op.close index => (fs.close index).map Prod.fst
  | Op.read index count => (fs.read index [] count).map Prod.fst
  | Op.write index data => (fs.write index data).map Prod.fst
  | Op.lseek index pos => (fs.lseek index pos).map Prod.fst

/-- The state after a sequence of calls; there is none as soon as one call of
the sequence has none. -/
def run : List Op → FileSystem → Option FileSystem
  | [], fs => some fs
  | op :: ops, fs => (step fs op).bind (run ops)

/-- The states that a sequence of calls reaches from the freshly initialised
disk without undefined behaviour: every call of the sequence stays inside the
arrays of the program (see `step`).  Sequences in which a call leaves them
are not covered by a statement about `Reachable` states. -/
def Reachable (fs : FileSystem) : Prop := ∃ ops, run ops FileSystem.fresh = some fs

/-- The calls `write(index, data)` for the strings of `datas` in turn: the final
state and the sum of the returned values, added to `total`. -/
def write_each (index : Int) : List (List Nat) → FileSystem → Int → Option (FileSystem × Int)
  | [], fs, total => some (fs, total)
  | data :: datas, fs, total =>
    (fs.write index data).bind fun r => write_each index datas r.1 (total + r.2)

/-- The calls `create` for the one-character names `a`, `b`, ... (`n` of them). -/
def create_letters (n : Nat) : List Op :=
  (List.range n).map (fun i => Op.create [97 + i])


/-! ## Views of the cache used in the statements -/

namespace Ldisk

/-- Field `k` of descriptor `d` as `get_descriptor` returns it: the size for
`k = 0`, a block slot for `k` in 1..3. -/
def field (ld : Ldisk) (d k : Nat) : Nat := (ld.get_descriptor (d : Int)).getD k 0

/-- The disk after `write_int` has stored `v` in field `k` of descriptor `d`. -/
def put (ld : Ldisk) (d k v : Nat) : Ldisk :=
  let block := (List.range 32).foldl
    (fun b i => assign_bit b (d % 4 * 128 + 32 * k + i) (bit v i)) (ld.cache.getD (1 + d / 4) 0)
  { ld with cache := ld.cache.set (1 + d / 4) block }

end Ldisk

namespace Ldisk

/-- The disk after the bitmap assignment `cache[0][b] = v`. -/
def mark (ld : Ldisk) (b v : Nat) : Ldisk :=
  { ld with cache := ld.cache.set 0 (assign_bit (ld.cache.getD 0 0) b v) }

/-- Block uniqueness together with the facts that carry it through the
operations: the cache has its 7 blocks, every non-zero block slot of a
descriptor holds a block number in 7..63 whose bitmap bit is set, and no
non-zero block number occurs in two block slots. -/
def BlockInv (ld : Ldisk) : Prop :=
  ld.cache.length = 7 ∧
  (∀ d k, d < 24 → 1 ≤ k → k ≤ 3 → ld.field d k ≠ 0 →
    7 ≤ ld.field d k ∧ ld.field d k ≤ 63 ∧ bit (ld.cache.getD 0 0) (ld.field d k) = 1) ∧
  (∀ d k d' k', d < 24 → 1 ≤ k → k ≤ 3 → d' < 24 → 1 ≤ k' → k' ≤ 3 →
    ld.field d k ≠ 0 → ld.field d k = ld.field d' k' → d = d' ∧ k = k')

end Ldisk

namespace Ldisk

/-- The disk after `write_block(i, p)`. -/
def store (ld : Ldisk) (i : Nat) (p : List Nat) : Ldisk :=
  { ld with ldisk := ld.ldisk.set i (of_bit_string ((p.take 64).flatMap to_string8)) }

end Ldisk

namespace Ldisk

/-- The number of clear bits among bits 7..63 of the cached bitmap: the blocks
that `find_free_block` can still supply. -/
def free_blocks (ld : Ldisk) : Nat :=
  ((List.range' 7 57).filter (fun b => decide (bit (ld.cache.getD 0 0) b = 0))).length

end Ldisk

/-! ## Predicates of the round trip -/

/-- The sizes of the arrays of the program: 64 physical blocks, 7 cached
blocks, 4 entries of the open file table. -/
structure WellFormed (fs : FileSystem) : Prop where
  ldisk_length : fs.ldisk.ldisk.length = 64
  cache_length : fs.ldisk.cache.length = 7
  oft_length : fs.open_file_table.length = 4

/-- A file that was just created and opened: user slot `s` of the open file
table holds user descriptor `d`, whose size is the sentinel 1 and whose only
block is `b`, allocated in the bitmap; the position in the buffer is 0 and
`buffer_block` is `b`. -/
structure JustOpened (fs : FileSystem) (s d b : Nat) : Prop where
  wf : WellFormed fs
  slot : 1 ≤ s ∧ s ≤ 3
  desc : 1 ≤ d ∧ d < 24
  block : 7 ≤ b ∧ b ≤ 63
  allocated : bit (fs.ldisk.cache.getD 0 0) b = 1
  descriptor : fs.ldisk.get_descriptor d = [1, b, 0, 0]
  index : (fs.oft s).index = d
  buffer_index : (fs.oft s).buffer_index = 0
  buffer_block : (fs.oft s).buffer_block = b
  buffer : (fs.oft s).r_w.length = 64

/-- Slot `s` holds descriptor `d` and has block `bb` in its buffer, at the
start of the block; `bb` is allocated in the bitmap. -/
structure SlotAt (fs : FileSystem) (s d bb : Nat) : Prop where
  wf : WellFormed fs
  slot : 1 ≤ s ∧ s ≤ 3
  desc : d < 24
  index : (fs.oft s).index = d
  buffer_index : (fs.oft s).buffer_index = 0
  buffer_block : (fs.oft s).buffer_block = bb
  buffer : (fs.oft s).r_w.length = 64
  block : 7 ≤ bb ∧ bb ≤ 63
  allocated : bit (fs.ldisk.cache.getD 0 0) bb = 1

/-- What the outer loop of `write` has done when it started in state `fs` at the
start of block slot `bi` (block `bb`) of descriptor `d` and ends in `fs1`:
chunk `t` of the data is in the block of slot `bi + t`. -/
structure Written (fs fs1 : FileSystem) (s d bi bb : Nat) (data : List Nat) : Prop where
  wf : WellFormed fs1
  index : (fs1.oft s).index = d
  buffer : (fs1.oft s).r_w.length = 64
  size : fs1.ldisk.field d 0 = fs.ldisk.field d 0
  before : ∀ i, 1 ≤ i → i ≤ bi → fs1.ldisk.field d i = fs.ldisk.field d i
  after : ∀ i, bi + (data.length - 1) / 64 < i → i ≤ 3 → fs1.ldisk.field d i = fs.ldisk.field d i
  chunk : ∀ t, 64 * t < data.length → ∃ blk,
    7 ≤ fs1.ldisk.field d (bi + t) ∧ fs1.ldisk.field d (bi + t) ≤ 63 ∧
    fs1.ldisk.read_block (fs1.ldisk.field d (bi + t)) = some blk ∧
    blk.take (data.length - 64 * t) = (data.drop (64 * t)).take 64
  fresh : ∀ t, 1 ≤ t → 64 * t < data.length →
    bit (fs.ldisk.cache.getD 0 0) (fs1.ldisk.field d (bi + t)) = 0
  last_block : (fs1.oft s).buffer_block = fs1.ldisk.field d (bi + (data.length - 1) / 64)
  last_buffer : (fs1.oft s).r_w.take (data.length - 64 * ((data.length - 1) / 64))
    = data.drop (64 * ((data.length - 1) / 64))
  frame : ∀ i, i ≠ bb → bit (fs.ldisk.cache.getD 0 0) i = 1 →
    fs1.ldisk.read_block i = fs.ldisk.read_block i
  bits : ∀ i, bit (fs.ldisk.cache.getD 0 0) i = 1 → bit (fs1.ldisk.cache.getD 0 0) i = 1

/-! ## Predicates of the directory listing -/

/-- The calls `create` for the names of a list in turn: the final state and the
returned values. -/
def create_each : List (List Nat) → FileSystem → Option (FileSystem × List Int)
  | [], fs => some (fs, [])
  | file_name :: rest, fs =>
    (fs.create file_name).bind fun r =>
      (create_each rest r.1).map fun q => (q.1, r.2 :: q.2)

/-- A valid file name: 1 to 4 ASCII characters, none of them 0 or a digit. -/
def ValidName (file_name : List Nat) : Prop :=
  1 ≤ file_name.length ∧ file_name.length ≤ 4 ∧
    ∀ c ∈ file_name, 1 ≤ c ∧ c ≤ 127 ∧ isInteger c = false

/-- The characters of the directory entries of `names`, the first of which has
descriptor index `i`: every name is followed by the digit of its index. -/
def dir_bytes : Nat → List (List Nat) → List Nat
  | _, [] => []
  | i, file_name :: rest => file_name ++ (48 + i) :: dir_bytes (i + 1) rest

/-- The open file table entry 0 is bound to descriptor 0, whose block slots are
7, 8 and 9; block 7 holds `blk` and blocks 8 and 9 are empty. -/
structure DirBlocks (fs : FileSystem) (blk : List Nat) : Prop where
  wf : WellFormed fs
  dir_index : (fs.oft 0).index = 0
  dir_desc : ∀ k, 1 ≤ k → k ≤ 3 → fs.ldisk.field 0 k = 6 + k
  length : blk.length = 64
  block1 : fs.ldisk.read_block 7 = some blk
  block2 : fs.ldisk.read_block 8 = some (List.replicate 64 0)
  block3 : fs.ldisk.read_block 9 = some (List.replicate 64 0)

/-- The state after the files `names` were created on the fresh disk, in this
order: the entries are at the start of block 7, descriptors 1 to
`names.length` are in use and the later ones are free, no file is open. -/
structure DirState (fs : FileSystem) (names : List (List Nat)) : Prop where
  inv : fs.ldisk.BlockInv
  blocks : DirBlocks fs
    (dir_bytes 1 names ++ List.replicate (64 - (dir_bytes 1 names).length) 0)
  closed : ∀ j, 1 ≤ j → j ≤ 3 → (fs.oft j).index = -1
  used : ∀ d, d ≤ names.length → fs.ldisk.field d 0 ≠ 0
  unused : ∀ d, names.length < d → d < 24 → fs.ldisk.field d 0 = 0
  free : 54 ≤ fs.ldisk.free_blocks + names.length

/-- The states `fs1` that differ from `fs` in the buffer of entry 0 of the open
file table only. -/
structure SameButDir (fs fs1 : FileSystem) : Prop where
  ldisk : fs1.ldisk = fs.ldisk
  length : fs1.open_file_table.length = fs.open_file_table.length
  dir_index : (fs1.oft 0).index = (fs.oft 0).index
  others : ∀ j, 1 ≤ j → fs1.oft j = fs.oft j

namespace Ldisk

/-- The disk after `remove_descriptor(d)`: the four fields of descriptor `d`
are zero and the bitmap bits of its three block slots are cleared. -/
def removed (ld : Ldisk) (d : Nat) : Ldisk :=
  (((((((ld.put d 0 0).put d 1 0).put d 2 0).put d 3 0).mark (ld.field d 1) 0).mark
    (ld.field d 2) 0).mark (ld.field d 3) 0)

end Ldisk

/-! ## ldisk.h : saving and restoring the disk -/

namespace Ldisk

/-- The line that `Ldisk::save_disk` writes for one block: `block.to_string()`
reversed, so that character `j` of the line is bit `j` of the block, the
character 0 (code 48) or the character 1 (code 49). -/
def block_line (block : Nat) : List Nat :=
  (List.range 512).map (fun j => 48 + bit block j)

/-- The method `Ldisk::save_disk`: the cache is written to blocks 0..6, then
every block is written as one line.  The result is the disk after the call and
the lines of the file. -/
def save_disk (ld : Ldisk) : Ldisk × List (List Nat) :=
  let ld1 := write_cache ld
  (ld1, ld1.ldisk.map block_line)

/-- The loop `ldisk[block_counter][bit_counter] = line[bit_counter] - '0'` of
`Ldisk::init_disk(std::string)` from bit `j` on, `n` bits being left and
`line` being the characters of the line from index `j` on.  The bit is set
when the difference is not 0.  The character at the index `line.size()` is the
null character; an index beyond that is undefined. -/
def read_line : List Nat → Nat → Nat → Nat → Option Nat
  | _, 0, _, block => some block
  | c :: line, n + 1, j, block =>
    read_line line n (j + 1) (assign_bit block j (if c = 48 then 0 else 1))
  | [], n + 1, j, block => if n = 0 then some (assign_bit block j 1) else none

/-- The loop `while (std::getline(inFile, line))` of
`Ldisk::init_disk(std::string)` over the lines that are left. -/
def init_disk_lines (ld : Ldisk) : List (List Nat) → Nat → Option Ldisk
  | [], _ => some ld
  | line :: lines, block_counter =>
    if block_counter < 64 then
      match read_line line 512 0 (ld.ldisk.getD block_counter 0) with
      | none => none
      | some block =>
        init_disk_lines { ld with ldisk := ld.ldisk.set block_counter block } lines
          (block_counter + 1)
    else none

/-- The method `Ldisk::init_disk(std::string)`, `file` being the lines of the
file when it can be opened; without the file the disk is initialised by
`init_disk()`. -/
def init_disk_file (ld : Ldisk) (file : Option (List (List Nat))) : Option Ldisk :=
  match file with
  | some lines =>
    (init_disk_lines ld lines 0).map fun ld1 => { read_cache ld1 with directory_descriptor := 0 }
  | none => init_disk ld

/-- The 64 characters that `read_block` makes of a bitset. -/
def block_bytes (block : Nat) : List Nat :=
  (List.range 64).map (fun c => from_string8 (bit_string8 block c))

/-- The number of descriptors in use: those among 0..23 whose first integer is
not 0, the test of `init_descriptor`. -/
def used (ld : Ldisk) : Nat :=
  (List.range 24).countP (fun d => decide (ld.field d 0 ≠ 0))

end Ldisk

/-! ## Predicates of the open file table -/

/-- The descriptor indices of the occupied entries 1..3 of the open file table
are pairwise distinct. -/
def SlotsDistinct (fs : FileSystem) : Prop :=
  ∀ i j, 1 ≤ i → i ≤ 3 → 1 ≤ j → j ≤ 3 → i ≠ j → (fs.oft i).index ≠ -1 →
    (fs.oft i).index ≠ (fs.oft j).index

/-- Every entry of the open file table of `fs1` has the descriptor index that it
has in `fs`, or is free. -/
def IndexKept (fs fs1 : FileSystem) : Prop :=
  ∀ j, (fs1.oft j).index = (fs.oft j).index ∨ (fs1.oft j).index = -1

/-! ## Predicates of the bitmap -/

namespace Ldisk

/-- Bits 0..6 of the cached bitmap, the bits of the bitmap block and of the six
descriptor blocks, are all clear. -/
def ReservedClear (ld : Ldisk) : Prop := ∀ i, i < 7 → bit (ld.cache.getD 0 0) i = 0

end Ldisk

/-! # Lemmas and theorems -/

/-! ## Bits of a bitset -/

theorem bit_eq_toNat (s j : Nat) : bit s j = (s.testBit j).toNat := by
  unfold bit
  rw [Nat.testBit_to_div_mod, Nat.shiftRight_eq_div_pow]
  rcases Nat.mod_two_eq_zero_or_one (s / 2 ^ j) with h | h <;> simp [h]

theorem bit_lt_two (s j : Nat) : bit s j < 2 := Nat.mod_lt _ (by decide)

theorem bit_eq_one_iff (s j : Nat) : bit s j = 1 ↔ s.testBit j = true := by
  rw [bit_eq_toNat]; cases s.testBit j <;> simp

theorem bit_eq_zero_iff (s j : Nat) : bit s j = 0 ↔ s.testBit j = false := by
  rw [bit_eq_toNat]; cases s.testBit j <;> simp

theorem testBit_assign_bit (s j v k : Nat) (hv : v < 2) :
    (assign_bit s j v).testBit k = if k = j then decide (v = 1) else s.testBit k := by
  unfold assign_bit
  have hb := bit_lt_two s j
  have h1 := bit_eq_one_iff s j
  have h0 := bit_eq_zero_iff s j
  by_cases hkj : k = j
  · subst hkj
    by_cases h : bit s k = v
    · simp only [h, if_true, Nat.xor_zero]
      cases hs : s.testBit k
      · have : bit s k = 0 := h0.2 hs
        simp; omega
      · have : bit s k = 1 := h1.2 hs
        simp; omega
    · simp only [h, if_false, Nat.testBit_xor, Nat.testBit_two_pow_self, if_true]
      cases hs : s.testBit k
      · have : bit s k = 0 := h0.2 hs
        simp; omega
      · have : bit s k = 1 := h1.2 hs
        simp; omega
  · simp only [hkj, if_false]
    by_cases h : bit s j = v
    · simp [h]
    · simp only [h, if_false, Nat.testBit_xor]
      rw [Nat.testBit_two_pow_of_ne (Ne.symm hkj)]; simp

theorem bit_assign_bit (s j v k : Nat) (hv : v < 2) :
    bit (assign_bit s j v) k = if k = j then v else bit s k := by
  rw [bit_eq_toNat, testBit_assign_bit s j v k hv]
  by_cases hkj : k = j
  · simp only [hkj, if_true]
    interval_cases v <;> simp
  · simp only [hkj, if_false, bit_eq_toNat]

theorem testBit_foldl_assign (s v : Nat) (n : Nat) (b k : Nat) :
    ((List.range n).foldl (fun b i => assign_bit b (s + i) (bit v i)) b).testBit k
      = if s ≤ k ∧ k < s + n then v.testBit (k - s) else b.testBit k := by
  induction n with
  | zero =>
    have : ¬ (s ≤ k ∧ k < s) := by omega
    simp [this]
  | succ n ih =>
    rw [List.range_succ, List.foldl_append, List.foldl_cons, List.foldl_nil,
      testBit_assign_bit _ _ _ _ (bit_lt_two v n), ih]
    by_cases h1 : k = s + n
    · subst h1
      have : s ≤ s + n ∧ s + n < s + (n + 1) := by omega
      simp only [this, if_true, and_self]
      have h := bit_eq_one_iff v n
      rw [Nat.add_sub_cancel_left]
      cases hv : v.testBit n
      · have : ¬ bit v n = 1 := fun hc => by rw [h.1 hc] at hv; cases hv
        simp [this]
      · simp [h.2 hv]
    · simp only [h1, if_false]
      by_cases h2 : s ≤ k ∧ k < s + n
      · have : s ≤ k ∧ k < s + (n + 1) := by omega
        simp [h2, this]
      · have : ¬ (s ≤ k ∧ k < s + (n + 1)) := by omega
        simp [h2, this]

theorem testBit_read_int (b s : Nat) (hs : s + 32 ≤ 512) (k : Nat) :
    (Ldisk.read_int b (s : Int)).testBit k = (decide (k < 31) && b.testBit (s + k)) := by
  unfold Ldisk.read_int subset shl512 shr512
  have e1 : (512 : Int) - ((s : Int) + (32 - 1)) = ((481 - s : Nat) : Int) := by omega
  have c1 : (0 : Int) ≤ ((481 - s : Nat) : Int) ∧ ((481 - s : Nat) : Int) < 512 := by omega
  have c2 : (0 : Int) ≤ (s : Int) ∧ (s : Int) < 512 := by omega
  simp only [e1, c1, c2, and_self, if_true, Int.toNat_ofNat]
  simp only [Nat.testBit_shiftRight, Nat.testBit_and, Nat.testBit_mod_two_pow,
    Nat.testBit_shiftLeft, Nat.testBit_two_pow_sub_one]
  by_cases hk : k < 31
  · have a1 : 481 - s + (s + k) < 512 := by omega
    have a2 : 481 - s + (s + k) ≥ 481 - s := by omega
    have a3 : 481 - s + (s + k) - (481 - s) < 512 := by omega
    simp [hk, a1, a2, a3]
    intro _; omega
  · have a1 : ¬ 481 - s + (s + k) < 512 := by omega
    simp [hk, a1]

theorem read_int_lt (b s : Nat) (hs : s + 32 ≤ 512) : Ldisk.read_int b (s : Int) < 2 ^ 31 := by
  apply Nat.lt_pow_two_of_testBit
  intro i hi
  rw [testBit_read_int b s hs]
  have : ¬ i < 31 := by omega
  simp [this]

theorem write_int_some (b s v : Nat) (hs : s + 32 ≤ 512) :
    Ldisk.write_int b (s : Int) v
      = some ((List.range 32).foldl (fun b i => assign_bit b (s + i) (bit v i)) b) := by
  unfold Ldisk.write_int
  have c : (0 : Int) ≤ (s : Int) ∧ (s : Int) + 32 ≤ 512 := by omega
  simp only [c, and_self, if_true, Int.toNat_ofNat]

/-! ## Descriptors in the cache -/

theorem getD_set_nat (l : List Nat) (i j x : Nat) :
    (l.set i x).getD j 0 = if i = j ∧ i < l.length then x else l.getD j 0 := by
  simp only [List.getD_eq_getElem?_getD, List.getElem?_set]
  by_cases h : i = j
  · subst h
    by_cases h2 : i < l.length
    · simp [h2]
    · simp [h2]
      have : l.length ≤ i := by omega
      rw [List.getElem?_eq_none this]; rfl
  · simp [h]

theorem get_desc_location_eq (d : Nat) (hd : d < 24) :
    Ldisk.get_desc_location (d : Int) = (1 + d / 4, ((d % 4 * 128 : Nat) : Int)) := by
  interval_cases d <;> rfl

theorem read_int_foldl_assign_same (b s v : Nat) (hs : s + 32 ≤ 512) :
    Ldisk.read_int ((List.range 32).foldl (fun b i => assign_bit b (s + i) (bit v i)) b) (s : Int)
      = v % 2 ^ 31 := by
  apply Nat.eq_of_testBit_eq
  intro k
  rw [testBit_read_int _ s hs, testBit_foldl_assign, Nat.testBit_mod_two_pow]
  by_cases hk : k < 31
  · have : s ≤ s + k ∧ s + k < s + 32 := by omega
    simp [hk, this]
  · simp [hk]

theorem read_int_foldl_assign_other (b s t v : Nat) (ht : t + 32 ≤ 512)
    (hst : t + 32 ≤ s ∨ s + 32 ≤ t) :
    Ldisk.read_int ((List.range 32).foldl (fun b i => assign_bit b (s + i) (bit v i)) b) (t : Int)
      = Ldisk.read_int b (t : Int) := by
  apply Nat.eq_of_testBit_eq
  intro k
  rw [testBit_read_int _ t ht, testBit_read_int _ t ht, testBit_foldl_assign]
  by_cases hk : k < 31
  · have : ¬ (s ≤ t + k ∧ t + k < s + 32) := by omega
    simp [hk, this]
  · simp [hk]

theorem field_eq (ld : Ldisk) (d k : Nat) (hd : d < 24) (hk : k ≤ 3) :
    ld.field d k = Ldisk.read_int (ld.cache.getD (1 + d / 4) 0) ((d % 4 * 128 + 32 * k : Nat) : Int) := by
  unfold Ldisk.field Ldisk.get_descriptor
  rw [get_desc_location_eq d hd]
  interval_cases k <;> simp

theorem field_put (ld : Ldisk) (hc : ld.cache.length = 7) (d k v d' k' : Nat)
    (hd : d < 24) (hk : k ≤ 3) (hd' : d' < 24) (hk' : k' ≤ 3) :
    (ld.put d k v).field d' k' = if d' = d ∧ k' = k then v % 2 ^ 31 else ld.field d' k' := by
  rw [field_eq _ _ _ hd' hk', field_eq _ _ _ hd' hk']
  unfold Ldisk.put
  simp only []
  rw [getD_set_nat]
  by_cases h1 : d / 4 = d' / 4
  · have hlt : 1 + d / 4 = 1 + d' / 4 ∧ 1 + d / 4 < ld.cache.length := by omega
    rw [if_pos hlt]
    by_cases h2 : d' = d ∧ k' = k
    · obtain ⟨rfl, rfl⟩ := h2
      simp only [and_self, if_true]
      exact read_int_foldl_assign_same _ _ _ (by omega)
    · rw [if_neg h2]
      have e : 1 + d' / 4 = 1 + d / 4 := by omega
      rw [e]
      exact read_int_foldl_assign_other _ _ _ _ (by omega) (by omega)
  · have hlt : ¬ (1 + d / 4 = 1 + d' / 4 ∧ 1 + d / 4 < ld.cache.length) := by omega
    have h2 : ¬ (d' = d ∧ k' = k) := by
      rintro ⟨rfl, _⟩; exact h1 rfl
    rw [if_neg hlt, if_neg h2]

theorem bitmap_put (ld : Ldisk) (d k v : Nat) :
    (ld.put d k v).cache.getD 0 0 = ld.cache.getD 0 0 := by
  unfold Ldisk.put
  simp only []
  rw [getD_set_nat]
  have : ¬ (1 + d / 4 = 0 ∧ 1 + d / 4 < ld.cache.length) := by omega
  rw [if_neg this]

theorem length_put (ld : Ldisk) (d k v : Nat) :
    (ld.put d k v).cache.length = ld.cache.length := by
  simp [Ldisk.put]

theorem ldisk_put (ld : Ldisk) (d k v : Nat) : (ld.put d k v).ldisk = ld.ldisk := rfl

theorem directory_descriptor_put (ld : Ldisk) (d k v : Nat) :
    (ld.put d k v).directory_descriptor = ld.directory_descriptor := rfl

theorem write_int_put (ld : Ldisk) (d k v : Nat) (hd : d < 24) (hk : k ≤ 3) (s : Int)
    (hs : s = ((d % 4 * 128 : Nat) : Int) + 32 * k) :
    (Ldisk.write_int (ld.cache.getD (1 + d / 4) 0) s v).map
        (fun b => { ld with cache := ld.cache.set (1 + d / 4) b })
      = some (ld.put d k v) := by
  have e : s = ((d % 4 * 128 + 32 * k : Nat) : Int) := by rw [hs]; push_cast; ring
  rw [e, write_int_some _ _ _ (by omega)]
  rfl

theorem update_descriptor_size_eq (ld : Ldisk) (d n : Nat) (hd : d < 24) :
    ld.update_descriptor_size (d : Int) n = some (ld.put d 0 n) := by
  have h := write_int_put ld d 0 n hd (by omega) ((d % 4 * 128 : Nat) : Int) (by simp)
  unfold Ldisk.update_descriptor_size
  rw [get_desc_location_eq d hd]
  simp only []
  cases hw : Ldisk.write_int (ld.cache.getD (1 + d / 4) 0) ((d % 4 * 128 : Nat) : Int) n with
  | none => rw [hw] at h; simp at h
  | some b => rw [hw] at h; simpa using h

theorem put_local (ld : Ldisk) (hc : ld.cache.length = 7) (d k v : Nat) (hd : d < 24)
    (x : Nat) :
    (Ldisk.mk ld.ldisk (ld.cache.set (1 + d / 4) x) ld.directory_descriptor).put d k v
      = Ldisk.mk ld.ldisk (ld.cache.set (1 + d / 4)
            ((List.range 32).foldl
              (fun b i => assign_bit b (d % 4 * 128 + 32 * k + i) (bit v i)) x))
          ld.directory_descriptor := by
  unfold Ldisk.put
  simp only []
  rw [getD_set_nat, List.set_set]
  have : 1 + d / 4 = 1 + d / 4 ∧ 1 + d / 4 < ld.cache.length := by omega
  rw [if_pos this]

theorem destroy_descriptor_eq (ld : Ldisk) (hc : ld.cache.length = 7) (d : Nat) (hd : d < 24) :
    ld.destroy_descriptor (d : Int)
      = some ((((ld.put d 0 0).put d 1 0).put d 2 0).put d 3 0) := by
  have p0 : ld.put d 0 0 = Ldisk.mk ld.ldisk (ld.cache.set (1 + d / 4)
      ((List.range 32).foldl (fun b i => assign_bit b (d % 4 * 128 + 32 * 0 + i) (bit 0 i))
        (ld.cache.getD (1 + d / 4) 0))) ld.directory_descriptor := rfl
  rw [p0, put_local ld hc d 1 0 hd, put_local ld hc d 2 0 hd, put_local ld hc d 3 0 hd]
  unfold Ldisk.destroy_descriptor
  rw [get_desc_location_eq d hd]
  simp only []
  have e0 : ((d % 4 * 128 : Nat) : Int) = ((d % 4 * 128 + 32 * 0 : Nat) : Int) := by simp
  have e1 : ((d % 4 * 128 : Nat) : Int) + 32 = ((d % 4 * 128 + 32 * 1 : Nat) : Int) := by
    push_cast; ring
  have e2 : ((d % 4 * 128 : Nat) : Int) + 64 = ((d % 4 * 128 + 32 * 2 : Nat) : Int) := by
    push_cast; ring
  have e3 : ((d % 4 * 128 : Nat) : Int) + 96 = ((d % 4 * 128 + 32 * 3 : Nat) : Int) := by
    push_cast; ring
  rw [e1, e2, e3]
  conv_lhs => rw [e0]
  rw [write_int_some _ _ _ (by omega)]
  simp only []
  rw [write_int_some _ _ _ (by omega)]
  simp only []
  rw [write_int_some _ _ _ (by omega)]
  simp only []
  rw [write_int_some _ _ _ (by omega)]

theorem update_descriptor_blocks_eq (ld : Ldisk) (d nb : Nat) (hd : d < 24) :
    ld.update_descriptor_blocks (d : Int) nb
      = some (if ld.field d 1 = 0 then ld.put d 1 nb
              else if ld.field d 2 = 0 then ld.put d 2 nb
              else if ld.field d 3 = 0 then ld.put d 3 nb
              else ld) := by
  have f1 := field_eq ld d 1 hd (by omega)
  have f2 := field_eq ld d 2 hd (by omega)
  have f3 := field_eq ld d 3 hd (by omega)
  have w1 := write_int_put ld d 1 nb hd (by omega) (((d % 4 * 128 : Nat) : Int) + 32) (by simp)
  have w2 := write_int_put ld d 2 nb hd (by omega)
    (((d % 4 * 128 : Nat) : Int) + 32 + 32) (by ring)
  have w3 := write_int_put ld d 3 nb hd (by omega)
    (((d % 4 * 128 : Nat) : Int) + 32 + 32 + 32) (by ring)
  have e1 : ((d % 4 * 128 + 32 * 1 : Nat) : Int) = ((d % 4 * 128 : Nat) : Int) + 32 := by
    push_cast; ring
  have e2 : ((d % 4 * 128 + 32 * 2 : Nat) : Int) = ((d % 4 * 128 : Nat) : Int) + 32 + 32 := by
    push_cast; ring
  have e3 : ((d % 4 * 128 + 32 * 3 : Nat) : Int)
      = ((d % 4 * 128 : Nat) : Int) + 32 + 32 + 32 := by
    push_cast; ring
  rw [e1] at f1
  rw [e2] at f2
  rw [e3] at f3
  unfold Ldisk.update_descriptor_blocks
  rw [get_desc_location_eq d hd]
  simp only [Ldisk.update_descriptor_blocks_scan]
  rw [← f1, ← f2, ← f3]
  by_cases h1 : ld.field d 1 = 0
  · rw [if_pos h1, if_pos h1]
    cases hw : Ldisk.write_int (ld.cache.getD (1 + d / 4) 0) (((d % 4 * 128 : Nat) : Int) + 32) nb with
    | none => rw [hw] at w1; simp at w1
    | some b => rw [hw] at w1; simpa using w1
  · rw [if_neg h1, if_neg h1]
    by_cases h2 : ld.field d 2 = 0
    · rw [if_pos h2, if_pos h2]
      cases hw : Ldisk.write_int (ld.cache.getD (1 + d / 4) 0)
          (((d % 4 * 128 : Nat) : Int) + 32 + 32) nb with
      | none => rw [hw] at w2; simp at w2
      | some b => rw [hw] at w2; simpa using w2
    · rw [if_neg h2, if_neg h2]
      by_cases h3 : ld.field d 3 = 0
      · rw [if_pos h3, if_pos h3]
        cases hw : Ldisk.write_int (ld.cache.getD (1 + d / 4) 0)
            (((d % 4 * 128 : Nat) : Int) + 32 + 32 + 32) nb with
        | none => rw [hw] at w3; simp at w3
        | some b => rw [hw] at w3; simpa using w3
      · rw [if_neg h3, if_neg h3]

theorem descriptor_slots_eq :
    Ldisk.descriptor_slots = (List.range' 0 24).map (fun d => (1 + d / 4, d % 4 * 128)) := by
  decide

theorem init_descriptor_scan_spec (ld : Ldisk) (hc : ld.cache.length = 7) (nb : Nat) :
    ∀ (n a : Nat), a + n ≤ 24 →
      ∃ r, Ldisk.init_descriptor_scan ld nb
          ((List.range' a n).map (fun d => (1 + d / 4, d % 4 * 128))) (a : Int) = some r ∧
        ((r = (ld, -1) ∧ ∀ d, a ≤ d → d < a + n → ld.field d 0 ≠ 0) ∨
         (∃ d, a ≤ d ∧ d < a + n ∧ ld.field d 0 = 0 ∧ (∀ e, a ≤ e → e < d → ld.field e 0 ≠ 0) ∧
            r = ((ld.put d 0 1).put d 1 nb, (d : Int)))) := by
  intro n
  induction n with
  | zero =>
    intro a _
    refine ⟨(ld, -1), rfl, Or.inl ⟨rfl, ?_⟩⟩
    intro d h1 h2; omega
  | succ n ih =>
    intro a ha
    have hd : a < 24 := by omega
    have f0 := field_eq ld a 0 hd (by omega)
    simp only [Nat.mul_zero, Nat.add_zero] at f0
    rw [List.range'_succ, List.map_cons]
    simp only [Ldisk.init_descriptor_scan]
    rw [← f0]
    by_cases h0 : ld.field a 0 = 0
    · rw [if_pos h0]
      have p0 : ld.put a 0 1 = Ldisk.mk ld.ldisk (ld.cache.set (1 + a / 4)
          ((List.range 32).foldl (fun b i => assign_bit b (a % 4 * 128 + 32 * 0 + i) (bit 1 i))
            (ld.cache.getD (1 + a / 4) 0))) ld.directory_descriptor := rfl
      have e0 : ((a % 4 * 128 : Nat) : Int) = ((a % 4 * 128 + 32 * 0 : Nat) : Int) := by simp
      have e1 : ((a % 4 * 128 : Nat) : Int) + 32 = ((a % 4 * 128 + 32 * 1 : Nat) : Int) := by
        push_cast; ring
      rw [e1, e0]
      rw [write_int_some _ _ _ (by omega)]
      simp only []
      rw [write_int_some _ _ _ (by omega)]
      simp only []
      refine ⟨_, rfl, Or.inr ⟨a, le_refl a, by omega, h0, ?_, ?_⟩⟩
      · intro e h1 h2; omega
      · rw [p0, put_local ld hc a 1 nb hd]
    · rw [if_neg h0]
      obtain ⟨r, hr, hspec⟩ := ih (a + 1) (by omega)
      have ecast : ((a : Int) + 1) = ((a + 1 : Nat) : Int) := by push_cast; rfl
      rw [ecast, hr]
      refine ⟨r, rfl, ?_⟩
      rcases hspec with ⟨h1, h2⟩ | ⟨d, h1, h2, h3, h4, h5⟩
      · left
        refine ⟨h1, ?_⟩
        intro d hd1 hd2
        by_cases hda : d = a
        · subst hda; exact h0
        · exact h2 d (by omega) (by omega)
      · right
        refine ⟨d, by omega, by omega, h3, ?_, h5⟩
        intro e he1 he2
        by_cases hea : e = a
        · subst hea; exact h0
        · exact h4 e (by omega) he2

theorem init_descriptor_spec (ld : Ldisk) (hc : ld.cache.length = 7) (nb : Nat) :
    ∃ r, ld.init_descriptor nb = some r ∧
      ((r = (ld, -1) ∧ ∀ d, d < 24 → ld.field d 0 ≠ 0) ∨
       (∃ d, d < 24 ∧ ld.field d 0 = 0 ∧ (∀ e, e < d → ld.field e 0 ≠ 0) ∧
          r = ((ld.put d 0 1).put d 1 nb, (d : Int)))) := by
  obtain ⟨r, hr, hspec⟩ := init_descriptor_scan_spec ld hc nb 24 0 (by omega)
  refine ⟨r, ?_, ?_⟩
  · unfold Ldisk.init_descriptor
    rw [descriptor_slots_eq]
    exact hr
  · rcases hspec with ⟨h1, h2⟩ | ⟨d, _, h2, h3, h4, h5⟩
    · exact Or.inl ⟨h1, fun d hd => h2 d (by omega) (by omega)⟩
    · exact Or.inr ⟨d, by omega, h3, fun e he => h4 e (by omega) he, h5⟩

theorem field_mark (ld : Ldisk) (b v d k : Nat) (hd : d < 24) (hk : k ≤ 3) :
    (ld.mark b v).field d k = ld.field d k := by
  rw [field_eq _ _ _ hd hk, field_eq _ _ _ hd hk]
  unfold Ldisk.mark
  simp only []
  rw [getD_set_nat]
  have : ¬ (0 = 1 + d / 4 ∧ 0 < ld.cache.length) := by omega
  rw [if_neg this]

theorem bit_mark (ld : Ldisk) (hc : 0 < ld.cache.length) (b v j : Nat) (hv : v < 2) :
    bit ((ld.mark b v).cache.getD 0 0) j = if j = b then v else bit (ld.cache.getD 0 0) j := by
  unfold Ldisk.mark
  simp only []
  rw [getD_set_nat]
  have : 0 = 0 ∧ 0 < ld.cache.length := ⟨rfl, hc⟩
  rw [if_pos this, bit_assign_bit _ _ _ _ hv]

theorem length_mark (ld : Ldisk) (b v : Nat) : (ld.mark b v).cache.length = ld.cache.length := by
  simp [Ldisk.mark]

theorem find_free_block_scan_spec (ld : Ldisk) :
    ∀ (n i : Nat) (r : Ldisk × Nat), Ldisk.find_free_block_scan ld n i = some r →
      i ≤ r.2 ∧ r.2 < i + n ∧ bit (ld.cache.getD 0 0) r.2 = 0 ∧ r.1 = ld.mark r.2 1 := by
  intro n
  induction n with
  | zero => intro i r h; simp [Ldisk.find_free_block_scan] at h
  | succ n ih =>
    intro i r h
    simp only [Ldisk.find_free_block_scan] at h
    by_cases hb : bit (ld.cache.getD 0 0) i = 0
    · rw [if_pos hb] at h
      cases h
      exact ⟨le_refl _, by omega, hb, rfl⟩
    · rw [if_neg hb] at h
      obtain ⟨h1, h2, h3, h4⟩ := ih (i + 1) r h
      exact ⟨by omega, by omega, h3, h4⟩

theorem find_free_block_spec (ld : Ldisk) (r : Ldisk × Nat) (h : ld.find_free_block = some r) :
    7 ≤ r.2 ∧ r.2 ≤ 63 ∧ bit (ld.cache.getD 0 0) r.2 = 0 ∧ r.1 = ld.mark r.2 1 := by
  obtain ⟨h1, h2, h3, h4⟩ := find_free_block_scan_spec ld _ _ r h
  exact ⟨h1, by omega, h3, h4⟩

theorem release_block_eq (ld : Ldisk) (b : Nat) (hb : b < 512) :
    ld.release_block b = some (ld.mark b 0) := by
  unfold Ldisk.release_block
  rw [if_pos hb]; rfl

/-! ## Block uniqueness is kept by the operations on the cache -/

theorem field_congr (ld ld' : Ldisk) (h : ld'.cache = ld.cache) (d k : Nat) :
    ld'.field d k = ld.field d k := by
  unfold Ldisk.field Ldisk.get_descriptor
  rw [h]

theorem BlockInv_congr (ld ld' : Ldisk) (h : ld'.cache = ld.cache) (hi : ld.BlockInv) :
    ld'.BlockInv := by
  obtain ⟨h1, h2, h3⟩ := hi
  refine ⟨by rw [h]; exact h1, ?_, ?_⟩
  · intro d k hd hk1 hk3
    rw [field_congr ld ld' h, h]
    exact h2 d k hd hk1 hk3
  · intro d k d' k' hd hk1 hk3 hd' hk1' hk3'
    rw [field_congr ld ld' h, field_congr ld ld' h]
    exact h3 d k d' k' hd hk1 hk3 hd' hk1' hk3'

theorem BlockInv_put_size (ld : Ldisk) (hi : ld.BlockInv) (d v : Nat) (hd : d < 24) :
    (ld.put d 0 v).BlockInv := by
  obtain ⟨h1, h2, h3⟩ := hi
  have hf : ∀ d' k', d' < 24 → 1 ≤ k' → k' ≤ 3 → (ld.put d 0 v).field d' k' = ld.field d' k' := by
    intro d' k' hd' hk1 hk3
    rw [field_put ld h1 d 0 v d' k' hd (by omega) hd' hk3]
    have : ¬ (d' = d ∧ k' = 0) := by omega
    rw [if_neg this]
  refine ⟨by rw [length_put]; exact h1, ?_, ?_⟩
  · intro d' k' hd' hk1 hk3
    rw [hf d' k' hd' hk1 hk3, bitmap_put]
    exact h2 d' k' hd' hk1 hk3
  · intro d1 k1 d2 k2 hd1 hk1 hk1' hd2 hk2 hk2'
    rw [hf d1 k1 hd1 hk1 hk1', hf d2 k2 hd2 hk2 hk2']
    exact h3 d1 k1 d2 k2 hd1 hk1 hk1' hd2 hk2 hk2'

theorem BlockInv_put_block (ld : Ldisk) (hi : ld.BlockInv) (d k v : Nat) (hd : d < 24)
    (hk1 : 1 ≤ k) (hk3 : k ≤ 3)
    (hv : v = 0 ∨ (7 ≤ v ∧ v ≤ 63 ∧ bit (ld.cache.getD 0 0) v = 1 ∧
      ∀ d' k', d' < 24 → 1 ≤ k' → k' ≤ 3 → ld.field d' k' ≠ v)) :
    (ld.put d k v).BlockInv := by
  obtain ⟨h1, h2, h3⟩ := hi
  have hmod : v % 2 ^ 31 = v := by
    apply Nat.mod_eq_of_lt
    rcases hv with h | ⟨_, h, _⟩
    · rw [h]; decide
    · have : (63 : Nat) < 2 ^ 31 := by decide
      omega
  have hf : ∀ d' k', d' < 24 → 1 ≤ k' → k' ≤ 3 →
      (ld.put d k v).field d' k' = if d' = d ∧ k' = k then v else ld.field d' k' := by
    intro d' k' hd' _ hk3'
    rw [field_put ld h1 d k v d' k' hd hk3 hd' hk3', hmod]
  refine ⟨by rw [length_put]; exact h1, ?_, ?_⟩
  · intro d' k' hd' hk1' hk3'
    rw [hf d' k' hd' hk1' hk3', bitmap_put]
    by_cases hp : d' = d ∧ k' = k
    · rw [if_pos hp]
      intro hne
      rcases hv with h | ⟨a, b, c, _⟩
      · exact absurd h hne
      · exact ⟨a, b, c⟩
    · rw [if_neg hp]
      exact h2 d' k' hd' hk1' hk3'
  · intro d1 k1 d2 k2 hd1 hk1a hk1b hd2 hk2a hk2b
    rw [hf d1 k1 hd1 hk1a hk1b, hf d2 k2 hd2 hk2a hk2b]
    by_cases hp : d1 = d ∧ k1 = k
    · by_cases hq : d2 = d ∧ k2 = k
      · intro _ _
        exact ⟨hp.1.trans hq.1.symm, hp.2.trans hq.2.symm⟩
      · rw [if_pos hp, if_neg hq]
        intro hne heq
        rcases hv with h | ⟨_, _, _, hfresh⟩
        · exact absurd h hne
        · exact absurd heq.symm (hfresh d2 k2 hd2 hk2a hk2b)
    · by_cases hq : d2 = d ∧ k2 = k
      · rw [if_neg hp, if_pos hq]
        intro hne heq
        rcases hv with h | ⟨_, _, _, hfresh⟩
        · rw [h] at heq; exact absurd heq hne
        · exact absurd heq (hfresh d1 k1 hd1 hk1a hk1b)
      · rw [if_neg hp, if_neg hq]
        exact h3 d1 k1 d2 k2 hd1 hk1a hk1b hd2 hk2a hk2b

theorem BlockInv_mark_set (ld : Ldisk) (hi : ld.BlockInv) (b : Nat) : (ld.mark b 1).BlockInv := by
  obtain ⟨h1, h2, h3⟩ := hi
  refine ⟨by rw [length_mark]; exact h1, ?_, ?_⟩
  · intro d k hd hk1 hk3
    rw [field_mark ld b 1 d k hd hk3, bit_mark ld (by omega) b 1 _ (by omega)]
    intro hne
    obtain ⟨a, c, e⟩ := h2 d k hd hk1 hk3 hne
    refine ⟨a, c, ?_⟩
    by_cases hb : ld.field d k = b
    · rw [if_pos hb]
    · rw [if_neg hb]; exact e
  · intro d1 k1 d2 k2 hd1 hk1a hk1b hd2 hk2a hk2b
    rw [field_mark ld b 1 d1 k1 hd1 hk1b, field_mark ld b 1 d2 k2 hd2 hk2b]
    exact h3 d1 k1 d2 k2 hd1 hk1a hk1b hd2 hk2a hk2b

theorem BlockInv_mark_clear (ld : Ldisk) (hi : ld.BlockInv) (b : Nat)
    (hb : ∀ d k, d < 24 → 1 ≤ k → k ≤ 3 → ld.field d k ≠ 0 → ld.field d k ≠ b) :
    (ld.mark b 0).BlockInv := by
  obtain ⟨h1, h2, h3⟩ := hi
  refine ⟨by rw [length_mark]; exact h1, ?_, ?_⟩
  · intro d k hd hk1 hk3
    rw [field_mark ld b 0 d k hd hk3, bit_mark ld (by omega) b 0 _ (by omega)]
    intro hne
    obtain ⟨a, c, e⟩ := h2 d k hd hk1 hk3 hne
    refine ⟨a, c, ?_⟩
    rw [if_neg (hb d k hd hk1 hk3 hne)]; exact e
  · intro d1 k1 d2 k2 hd1 hk1a hk1b hd2 hk2a hk2b
    rw [field_mark ld b 0 d1 k1 hd1 hk1b, field_mark ld b 0 d2 k2 hd2 hk2b]
    exact h3 d1 k1 d2 k2 hd1 hk1a hk1b hd2 hk2a hk2b

theorem find_free_block_fresh (ld : Ldisk) (hi : ld.BlockInv) (r : Ldisk × Nat)
    (h : ld.find_free_block = some r) :
    r.1.BlockInv ∧ 7 ≤ r.2 ∧ r.2 ≤ 63 ∧ bit (r.1.cache.getD 0 0) r.2 = 1 ∧
      (∀ d k, d < 24 → 1 ≤ k → k ≤ 3 → r.1.field d k ≠ r.2) ∧
      r.1.ldisk = ld.ldisk ∧ r.1.directory_descriptor = ld.directory_descriptor := by
  obtain ⟨a, b, c, e⟩ := find_free_block_spec ld r h
  rw [e]
  refine ⟨BlockInv_mark_set ld hi _, a, b, ?_, ?_, rfl, rfl⟩
  · rw [bit_mark ld (by rw [hi.1]; omega) _ _ _ (by omega), if_pos rfl]
  · intro d k hd hk1 hk3 heq
    rw [field_mark ld _ _ d k hd hk3] at heq
    have hne : ld.field d k ≠ 0 := by omega
    have := (hi.2.1 d k hd hk1 hk3 hne).2.2
    rw [heq, c] at this
    cases this

/-! ## What the file operations do to the disk -/

theorem write_block_cache (ld ld' : Ldisk) (i : Nat) (p : List Nat)
    (h : ld.write_block i p = some ld') :
    ld'.cache = ld.cache ∧ ld'.directory_descriptor = ld.directory_descriptor := by
  unfold Ldisk.write_block at h
  split at h
  · cases h; exact ⟨rfl, rfl⟩
  · cases h

theorem find_entry_blocks_ldisk (file_name dir_descriptor : List Nat) :
    ∀ (blocks : List Nat) (fs : FileSystem) (search : List Nat) (r : FileSystem × Int),
      FileSystem.find_entry_blocks file_name dir_descriptor blocks fs search = some r →
      r.1.ldisk = fs.ldisk := by
  intro blocks
  induction blocks with
  | nil =>
    intro fs search r h
    simp only [FileSystem.find_entry_blocks] at h
    cases h; rfl
  | cons b rest ih =>
    intro fs search r h
    simp only [FileSystem.find_entry_blocks, Option.bind_eq_bind, Option.bind_eq_some] at h
    obtain ⟨r_w, _, h⟩ := h
    split at h
    · cases h; rfl
    · have := ih _ _ _ h
      exact this

theorem find_directory_entry_ldisk (fs : FileSystem) (file_name : List Nat)
    (r : FileSystem × Int) (h : fs.find_directory_entry file_name = some r) :
    r.1.ldisk = fs.ldisk :=
  find_entry_blocks_ldisk _ _ _ _ _ _ h

theorem get_desc_index_ldisk (fs : FileSystem) (file_name : List Nat)
    (r : FileSystem × Int) (h : fs.get_desc_index file_name = some r) :
    r.1.ldisk = fs.ldisk := by
  simp only [FileSystem.get_desc_index, Option.bind_eq_bind, Option.bind_eq_some] at h
  obtain ⟨q, hq, h⟩ := h
  have := find_directory_entry_ldisk fs file_name q hq
  split at h
  · split at h
    · cases h; exact this
    · cases h
  · cases h; exact this

theorem create_entry_blocks_cache (entry dir_descriptor : List Nat) :
    ∀ (blocks : List Nat) (fs fs' : FileSystem),
      FileSystem.create_entry_blocks entry dir_descriptor blocks fs = some fs' →
      fs'.ldisk.cache = fs.ldisk.cache := by
  intro blocks
  induction blocks with
  | nil =>
    intro fs fs' h
    simp only [FileSystem.create_entry_blocks] at h
    cases h; rfl
  | cons b rest ih =>
    intro fs fs' h
    simp only [FileSystem.create_entry_blocks, Option.bind_eq_bind, Option.bind_eq_some] at h
    obtain ⟨r_w, _, h⟩ := h
    split at h
    · simp only [Option.bind_eq_bind, Option.bind_eq_some] at h
      obtain ⟨r_w1, _, ld, hld, h⟩ := h
      cases h
      exact (write_block_cache _ _ _ _ hld).1
    · have := ih _ _ h
      exact this

theorem close_cache (fs : FileSystem) (index : Int) (r : FileSystem × Int)
    (h : fs.close index = some r) : r.1.ldisk.cache = fs.ldisk.cache := by
  unfold FileSystem.close at h
  split at h
  · simp only [Option.bind_eq_bind, Option.bind_eq_some] at h
    obtain ⟨ld, hld, h⟩ := h
    cases h
    exact (write_block_cache _ _ _ _ hld).1
  · cases h; rfl

theorem field_destroy (ld : Ldisk) (hc : ld.cache.length = 7) (d d' k' : Nat) (hd : d < 24)
    (hd' : d' < 24) (hk' : k' ≤ 3) :
    ((((ld.put d 0 0).put d 1 0).put d 2 0).put d 3 0).field d' k'
      = if d' = d then 0 else ld.field d' k' := by
  have l1 : (ld.put d 0 0).cache.length = 7 := by rw [length_put]; exact hc
  have l2 : ((ld.put d 0 0).put d 1 0).cache.length = 7 := by rw [length_put]; exact l1
  have l3 : (((ld.put d 0 0).put d 1 0).put d 2 0).cache.length = 7 := by
    rw [length_put]; exact l2
  rw [field_put _ l3 d 3 0 d' k' hd (by omega) hd' hk',
    field_put _ l2 d 2 0 d' k' hd (by omega) hd' hk',
    field_put _ l1 d 1 0 d' k' hd (by omega) hd' hk',
    field_put _ hc d 0 0 d' k' hd (by omega) hd' hk']
  by_cases h : d' = d
  · subst h
    interval_cases k' <;> simp
  · simp [h]

theorem BlockInv_destroy (ld : Ldisk) (hi : ld.BlockInv) (d : Nat) (hd : d < 24) :
    ((((ld.put d 0 0).put d 1 0).put d 2 0).put d 3 0).BlockInv := by
  have i0 := BlockInv_put_size ld hi d 0 hd
  have i1 := BlockInv_put_block _ i0 d 1 0 hd (by omega) (by omega) (Or.inl rfl)
  have i2 := BlockInv_put_block _ i1 d 2 0 hd (by omega) (by omega) (Or.inl rfl)
  exact BlockInv_put_block _ i2 d 3 0 hd (by omega) (by omega) (Or.inl rfl)

theorem remove_descriptor_spec (fs : FileSystem) (hi : fs.ldisk.BlockInv) (d : Nat)
    (hd : d < 24) :
    ∃ fs', fs.remove_descriptor (d : Int) = some fs' ∧ fs'.ldisk.BlockInv ∧
      fs'.open_file_table = fs.open_file_table ∧ fs'.ldisk.ldisk = fs.ldisk.ldisk ∧
      fs'.ldisk.directory_descriptor = fs.ldisk.directory_descriptor := by
  have hc := hi.1
  have hb : ∀ k, 1 ≤ k → k ≤ 3 → fs.ldisk.field d k < 512 := by
    intro k hk1 hk3
    by_cases h0 : fs.ldisk.field d k = 0
    · omega
    · have := (hi.2.1 d k hd hk1 hk3 h0).2.1
      omega
  have hfree : ∀ j, 1 ≤ j → j ≤ 3 → ∀ d' k', d' < 24 → 1 ≤ k' → k' ≤ 3 →
      ((((fs.ldisk.put d 0 0).put d 1 0).put d 2 0).put d 3 0).field d' k' ≠ 0 →
      ((((fs.ldisk.put d 0 0).put d 1 0).put d 2 0).put d 3 0).field d' k'
        ≠ fs.ldisk.field d j := by
    intro j hj1 hj3 d' k' hd' hk1 hk3
    rw [field_destroy _ hc d d' k' hd hd' hk3]
    by_cases hdd : d' = d
    · simp [hdd]
    · rw [if_neg hdd]
      intro hne heq
      exact hdd (hi.2.2 d' k' d j hd' hk1 hk3 hd hj1 hj3 hne heq).1
  have i0 := BlockInv_destroy fs.ldisk hi d hd
  have i1 := BlockInv_mark_clear _ i0 (fs.ldisk.field d 1) (hfree 1 (by omega) (by omega))
  have i2 := BlockInv_mark_clear _ i1 (fs.ldisk.field d 2) (by
    intro d' k' hd' hk1 hk3
    rw [field_mark _ _ _ d' k' hd' hk3]
    exact hfree 2 (by omega) (by omega) d' k' hd' hk1 hk3)
  have i3 := BlockInv_mark_clear _ i2 (fs.ldisk.field d 3) (by
    intro d' k' hd' hk1 hk3
    rw [field_mark _ _ _ d' k' hd' hk3, field_mark _ _ _ d' k' hd' hk3]
    exact hfree 3 (by omega) (by omega) d' k' hd' hk1 hk3)
  refine ⟨FileSystem.mk (((((((fs.ldisk.put d 0 0).put d 1 0).put d 2 0).put d 3 0).mark
    (fs.ldisk.field d 1) 0).mark (fs.ldisk.field d 2) 0).mark (fs.ldisk.field d 3) 0)
    fs.open_file_table, ?_, i3, rfl, rfl, rfl⟩
  unfold FileSystem.remove_descriptor
  simp only [Option.bind_eq_bind]
  rw [destroy_descriptor_eq _ hc d hd]
  simp only [Option.some_bind]
  have e1 : (fs.ldisk.get_descriptor (d : Int)).getD 1 0 = fs.ldisk.field d 1 := rfl
  have e2 : (fs.ldisk.get_descriptor (d : Int)).getD 2 0 = fs.ldisk.field d 2 := rfl
  have e3 : (fs.ldisk.get_descriptor (d : Int)).getD 3 0 = fs.ldisk.field d 3 := rfl
  rw [e1, e2, e3, release_block_eq _ _ (hb 1 (by omega) (by omega))]
  simp only [Option.some_bind]
  rw [release_block_eq _ _ (hb 2 (by omega) (by omega))]
  simp only [Option.some_bind]
  rw [release_block_eq _ _ (hb 3 (by omega) (by omega))]
  simp only [Option.some_bind]

theorem isInteger_iff (c : Nat) : isInteger c = true ↔ 48 ≤ c ∧ c ≤ 57 := by
  unfold isInteger
  simp [Nat.ble_eq]

theorem destroy_clear_BlockInv :
    ∀ (rest : List Nat) (loc : Nat) (fs fs' : FileSystem),
      FileSystem.destroy_clear rest loc fs = some fs' → fs.ldisk.BlockInv →
      fs'.ldisk.BlockInv := by
  intro rest
  induction rest with
  | nil => intro loc fs fs' h; simp [FileSystem.destroy_clear] at h
  | cons c rest ih =>
    intro loc fs fs' h hi
    simp only [FileSystem.destroy_clear] at h
    split at h
    · rename_i hc
      obtain ⟨h48, h57⟩ := (isInteger_iff c).1 hc
      have e : (c : Int) - 48 = ((c - 48 : Nat) : Int) := by omega
      rw [e] at h
      obtain ⟨fs1, h1, i1, _⟩ := remove_descriptor_spec fs hi (c - 48) (by omega)
      rw [h1] at h
      simp only [Option.bind_eq_bind, Option.some_bind] at h
      cases h
      exact i1
    · have := ih _ _ _ h hi
      exact this

theorem write_int_bounds (b : Nat) (s : Int) (v b' : Nat) (h : Ldisk.write_int b s v = some b') :
    0 ≤ s ∧ s + 32 ≤ 512 := by
  unfold Ldisk.write_int at h
  split at h
  · assumption
  · cases h

theorem read_int_out_of_range (b : Nat) (s : Int) (h : s < 0 ∨ 512 ≤ s) :
    Ldisk.read_int b s = 0 := by
  unfold Ldisk.read_int subset
  simp only []
  have : ¬ (0 ≤ s ∧ s < 512) := by omega
  conv_lhs => unfold shr512
  rw [if_neg this]

theorem desc_location_range (i : Int) (h : 0 ≤ (Ldisk.get_desc_location i).2 ∧
    (Ldisk.get_desc_location i).2 + 32 ≤ 512) : 0 ≤ i ∧ i < 24 := by
  unfold Ldisk.get_desc_location at h
  simp only [] at h
  split_ifs at h <;> simp at h <;> omega

theorem desc_location_out (i : Int) (h : ¬ (0 ≤ i ∧ i < 24)) :
    (Ldisk.get_desc_location i).2 + 32 < 0 ∨ 512 ≤ (Ldisk.get_desc_location i).2 + 32 := by
  unfold Ldisk.get_desc_location
  simp only []
  split_ifs <;> simp <;> omega

theorem update_descriptor_size_range (ld ld' : Ldisk) (i : Int) (n : Nat)
    (h : ld.update_descriptor_size i n = some ld') : ∃ d : Nat, d < 24 ∧ i = (d : Int) := by
  unfold Ldisk.update_descriptor_size at h
  simp only [] at h
  split at h
  · cases h
  · rename_i b hb
    have := desc_location_range i (write_int_bounds _ _ _ _ hb)
    exact ⟨i.toNat, by omega, by omega⟩

theorem update_descriptor_blocks_range (ld ld' : Ldisk) (i : Int) (nb : Nat)
    (h : ld.update_descriptor_blocks i nb = some ld') : ∃ d : Nat, d < 24 ∧ i = (d : Int) := by
  by_cases hr : 0 ≤ i ∧ i < 24
  · exact ⟨i.toNat, by omega, by omega⟩
  · exfalso
    have ho := desc_location_out i hr
    unfold Ldisk.update_descriptor_blocks at h
    simp only [Ldisk.update_descriptor_blocks_scan] at h
    rw [read_int_out_of_range _ _ ho, if_pos rfl] at h
    split at h
    · cases h
    · rename_i b hb
      have := write_int_bounds _ _ _ _ hb
      omega

theorem BlockInv_update_blocks (ld ld' : Ldisk) (hi : ld.BlockInv) (i : Int) (nb : Nat)
    (h7 : 7 ≤ nb) (h63 : nb ≤ 63) (hbit : bit (ld.cache.getD 0 0) nb = 1)
    (hfresh : ∀ d k, d < 24 → 1 ≤ k → k ≤ 3 → ld.field d k ≠ nb)
    (h : ld.update_descriptor_blocks i nb = some ld') :
    ld'.BlockInv ∧ ld'.ldisk = ld.ldisk ∧ ld'.directory_descriptor = ld.directory_descriptor := by
  obtain ⟨d, hd, rfl⟩ := update_descriptor_blocks_range ld ld' i nb h
  rw [update_descriptor_blocks_eq ld d nb hd] at h
  have hv : nb = 0 ∨ (7 ≤ nb ∧ nb ≤ 63 ∧ bit (ld.cache.getD 0 0) nb = 1 ∧
      ∀ d' k', d' < 24 → 1 ≤ k' → k' ≤ 3 → ld.field d' k' ≠ nb) :=
    Or.inr ⟨h7, h63, hbit, hfresh⟩
  cases h
  split_ifs
  · exact ⟨BlockInv_put_block ld hi d 1 nb hd (by omega) (by omega) hv, rfl, rfl⟩
  · exact ⟨BlockInv_put_block ld hi d 2 nb hd (by omega) (by omega) hv, rfl, rfl⟩
  · exact ⟨BlockInv_put_block ld hi d 3 nb hd (by omega) (by omega) hv, rfl, rfl⟩
  · exact ⟨hi, rfl, rfl⟩

theorem BlockInv_init_descriptor (ld : Ldisk) (hi : ld.BlockInv) (nb : Nat)
    (h7 : 7 ≤ nb) (h63 : nb ≤ 63) (hbit : bit (ld.cache.getD 0 0) nb = 1)
    (hfresh : ∀ d k, d < 24 → 1 ≤ k → k ≤ 3 → ld.field d k ≠ nb)
    (r : Ldisk × Int) (h : ld.init_descriptor nb = some r) :
    r.1.BlockInv ∧ r.1.ldisk = ld.ldisk := by
  obtain ⟨r', hr', hspec⟩ := init_descriptor_spec ld hi.1 nb
  rw [hr'] at h
  cases h
  rcases hspec with ⟨h1, _⟩ | ⟨d, hd, _, _, h5⟩
  · rw [h1]; exact ⟨hi, rfl⟩
  · rw [h5]
    have i0 := BlockInv_put_size ld hi d 1 hd
    refine ⟨BlockInv_put_block _ i0 d 1 nb hd (by omega) (by omega) (Or.inr ⟨h7, h63, ?_, ?_⟩), rfl⟩
    · rw [bitmap_put]; exact hbit
    · intro d' k' hd' hk1 hk3
      rw [field_put ld hi.1 d 0 1 d' k' hd (by omega) hd' hk3]
      have : ¬ (d' = d ∧ k' = 0) := by omega
      rw [if_neg this]
      exact hfresh d' k' hd' hk1 hk3

theorem create_BlockInv (fs : FileSystem) (file_name : List Nat) (r : FileSystem × Int)
    (h : fs.create file_name = some r) (hi : fs.ldisk.BlockInv) : r.1.ldisk.BlockInv := by
  unfold FileSystem.create at h
  split at h
  · simp only [Option.bind_eq_bind, Option.bind_eq_some] at h
    obtain ⟨q, hq, h⟩ := h
    have e := find_directory_entry_ldisk fs file_name q hq
    split at h
    · simp only [Option.bind_eq_bind, Option.bind_eq_some] at h
      obtain ⟨fb, hfb, ds, hds, h⟩ := h
      rw [e] at hfb
      obtain ⟨i1, h7, h63, hbit, hfresh, _, _⟩ := find_free_block_fresh fs.ldisk hi fb hfb
      obtain ⟨i2, _⟩ := BlockInv_init_descriptor fb.1 i1 fb.2 h7 h63 hbit hfresh ds hds
      split at h
      · simp only [Option.bind_eq_bind, Option.bind_eq_some] at h
        obtain ⟨fs2, h2, h⟩ := h
        cases h
        have := create_entry_blocks_cache _ _ _ _ _ h2
        exact BlockInv_congr _ _ this i2
      · cases h; exact i2
    · cases h; rw [e]; exact hi
  · cases h; exact hi

theorem destroy_BlockInv (fs : FileSystem) (file_name : List Nat)
    (r : FileSystem × Option Int) (h : fs.destroy file_name = some r)
    (hi : fs.ldisk.BlockInv) : r.1.ldisk.BlockInv := by
  unfold FileSystem.destroy at h
  simp only [Option.bind_eq_bind, Option.bind_eq_some] at h
  obtain ⟨q, hq, h⟩ := h
  have e := find_directory_entry_ldisk fs file_name q hq
  split at h
  · simp only [Option.bind_eq_bind, Option.bind_eq_some] at h
    obtain ⟨g, hg, fs2, h2, h⟩ := h
    have eg := get_desc_index_ldisk q.1 file_name g hg
    have i1 : g.1.ldisk.BlockInv := by rw [eg, e]; exact hi
    have i2 : fs2.ldisk.BlockInv := by
      split at h2
      · simp only [Option.map_eq_some'] at h2
        obtain ⟨c, hc, rfl⟩ := h2
        exact BlockInv_congr _ _ (close_cache _ _ _ hc) i1
      · split at h2
        · simp only [Option.map_eq_some'] at h2
          obtain ⟨c, hc, rfl⟩ := h2
          exact BlockInv_congr _ _ (close_cache _ _ _ hc) i1
        · split at h2
          · simp only [Option.map_eq_some'] at h2
            obtain ⟨c, hc, rfl⟩ := h2
            exact BlockInv_congr _ _ (close_cache _ _ _ hc) i1
          · cases h2; exact i1
    split at h
    · simp only [Option.bind_eq_bind, Option.bind_eq_some] at h
      obtain ⟨fs3, h3, ld, hld, h⟩ := h
      cases h
      have i3 := destroy_clear_BlockInv _ _ _ _ h3 i2
      exact BlockInv_congr _ _ (write_block_cache _ _ _ _ hld).1 i3
    · cases h
  · cases h; rw [e]; exact hi

theorem open_ldisk (fs : FileSystem) (file_name : List Nat) (r : FileSystem × Int)
    (h : fs.open file_name = some r) : r.1.ldisk = fs.ldisk := by
  unfold FileSystem.open at h
  simp only [Option.bind_eq_bind, Option.bind_eq_some] at h
  obtain ⟨g, hg, h⟩ := h
  have eg := get_desc_index_ldisk fs file_name g hg
  split at h
  · split at h
    · cases h; exact eg
    · simp only [Option.bind_eq_bind, Option.bind_eq_some] at h
      obtain ⟨r_w, _, h⟩ := h
      cases h; exact eg
  · cases h; exact eg

theorem lseek_ldisk (fs : FileSystem) (index pos : Int) (r : FileSystem × Int)
    (h : fs.lseek index pos = some r) : r.1.ldisk = fs.ldisk := by
  unfold FileSystem.lseek at h
  split at h
  · simp only [] at h
    split at h
    · split at h
      · simp only [Option.bind_eq_bind, Option.bind_eq_some] at h
        obtain ⟨r_w, _, h⟩ := h
        cases h; rfl
      · cases h; rfl
    · cases h; rfl
  · cases h

theorem read_loop_ldisk (index : Nat) (file_desc : List Nat) :
    ∀ (fuel : Nat) (fs : FileSystem) (left block_index : Nat) (mem_area : List Nat)
      (bytes_read : Nat) (r : FileSystem × List Nat × Nat),
      FileSystem.read_loop index file_desc fuel fs left block_index mem_area bytes_read = some r →
      r.1.ldisk = fs.ldisk := by
  intro fuel
  induction fuel with
  | zero => intro fs left bi m br r h; simp [FileSystem.read_loop] at h
  | succ fuel ih =>
    intro fs left bi m br r h
    simp only [FileSystem.read_loop, Option.bind_eq_bind, Option.bind_eq_some] at h
    obtain ⟨res, _, h⟩ := h
    generalize (if 64 ≤ res.1 then bi + 1 else bi) = bi1 at h
    split at h
    · split at h
      · cases h; rfl
      · simp only [Option.bind_eq_bind, Option.bind_eq_some] at h
        obtain ⟨r_w, _, h⟩ := h
        have := ih _ _ _ _ _ _ h
        exact this
    · cases h; rfl

theorem read_ldisk (fs : FileSystem) (index : Int) (mem_area : List Nat) (count : Int)
    (r : FileSystem × List Nat × Int) (h : fs.read index mem_area count = some r) :
    r.1.ldisk = fs.ldisk := by
  unfold FileSystem.read at h
  split at h
  · simp only [Option.bind_eq_bind, Option.bind_eq_some] at h
    obtain ⟨res, hres, h⟩ := h
    cases h
    split at hres
    · exact read_loop_ldisk _ _ _ _ _ _ _ _ _ hres
    · cases hres; rfl
  · cases h; rfl

theorem write_loop_BlockInv (index : Nat) :
    ∀ (fuel : Nat) (fs : FileSystem) (data file_desc : List Nat) (block_index bytes_written : Nat)
      (r : FileSystem × Nat),
      FileSystem.write_loop index fuel fs data file_desc block_index bytes_written = some r →
      fs.ldisk.BlockInv → r.1.ldisk.BlockInv := by
  intro fuel
  induction fuel with
  | zero => intro fs data fd bi bw r h; simp [FileSystem.write_loop] at h
  | succ fuel ih =>
    intro fs data fd bi bw r h hi
    simp only [FileSystem.write_loop, Option.bind_eq_bind, Option.bind_eq_some] at h
    obtain ⟨res, _, ld, hld, h⟩ := h
    have i1 : ld.BlockInv := BlockInv_congr _ _ (write_block_cache _ _ _ _ hld).1 hi
    split at h
    · simp only [Option.bind_eq_bind, Option.bind_eq_some] at h
      obtain ⟨alloc, halloc, r_w, _, h⟩ := h
      have i2 : alloc.1.BlockInv := by
        split at halloc
        · simp only [Option.bind_eq_bind, Option.bind_eq_some] at halloc
          obtain ⟨fb, hfb, ld1, hld1, halloc⟩ := halloc
          cases halloc
          obtain ⟨j1, h7, h63, hbit, hfresh, _, _⟩ := find_free_block_fresh ld i1 fb hfb
          exact (BlockInv_update_blocks fb.1 ld1 j1 _ fb.2 h7 h63 hbit hfresh hld1).1
        · cases halloc; exact i1
      have := ih _ _ _ _ _ _ h i2
      exact this
    · cases h; exact i1

theorem write_BlockInv (fs : FileSystem) (index : Int) (data : List Nat)
    (r : FileSystem × Int) (h : fs.write index data = some r) (hi : fs.ldisk.BlockInv) :
    r.1.ldisk.BlockInv := by
  unfold FileSystem.write at h
  split at h
  · simp only [Option.bind_eq_bind, Option.bind_eq_some] at h
    obtain ⟨res, hres, ld, hld, h⟩ := h
    cases h
    have i1 : res.1.ldisk.BlockInv := by
      split at hres
      · exact write_loop_BlockInv _ _ _ _ _ _ _ _ hres hi
      · cases hres; exact hi
    obtain ⟨d, hd, e⟩ := update_descriptor_size_range _ _ _ _ hld
    rw [e, update_descriptor_size_eq _ d _ hd] at hld
    cases hld
    exact BlockInv_put_size _ i1 d _ hd
  · cases h; exact hi

theorem step_BlockInv (fs fs' : FileSystem) (op : Op) (h : step fs op = some fs')
    (hi : fs.ldisk.BlockInv) : fs'.ldisk.BlockInv := by
  cases op with
  | create n =>
    simp only [step, Option.map_eq_some'] at h
    obtain ⟨r, hr, rfl⟩ := h
    exact create_BlockInv fs n r hr hi
  | destroy n =>
    simp only [step, Option.map_eq_some'] at h
    obtain ⟨r, hr, rfl⟩ := h
    exact destroy_BlockInv fs n r hr hi
  | «open» n =>
    simp only [step, Option.map_eq_some'] at h
    obtain ⟨r, hr, rfl⟩ := h
    rw [open_ldisk fs n r hr]; exact hi
  | close i =>
    simp only [step, Option.map_eq_some'] at h
    obtain ⟨r, hr, rfl⟩ := h
    exact BlockInv_congr _ _ (close_cache fs i r hr) hi
  | read i c =>
    simp only [step, Option.map_eq_some'] at h
    obtain ⟨r, hr, rfl⟩ := h
    rw [read_ldisk fs i [] c r hr]; exact hi
  | write i data =>
    simp only [step, Option.map_eq_some'] at h
    obtain ⟨r, hr, rfl⟩ := h
    exact write_BlockInv fs i data r hr hi
  | lseek i p =>
    simp only [step, Option.map_eq_some'] at h
    obtain ⟨r, hr, rfl⟩ := h
    rw [lseek_ldisk fs i p r hr]; exact hi

theorem run_BlockInv : ∀ (ops : List Op) (fs fs' : FileSystem), run ops fs = some fs' →
    fs.ldisk.BlockInv → fs'.ldisk.BlockInv := by
  intro ops
  induction ops with
  | nil => intro fs fs' h hi; simp only [run] at h; cases h; exact hi
  | cons op ops ih =>
    intro fs fs' h hi
    simp only [run, Option.bind_eq_some] at h
    obtain ⟨fs1, h1, h2⟩ := h
    exact ih fs1 fs' h2 (step_BlockInv fs fs1 op h1 hi)

/-! ## The freshly initialised disk -/

theorem fresh_fields : ∀ d ∈ List.range 24, ∀ k ∈ List.range 4,
    FileSystem.fresh.ldisk.field d k = if d = 0 then [1, 7, 8, 9].getD k 0 else 0 := by
  decide!

theorem fresh_field (d k : Nat) (hd : d < 24) (hk : k ≤ 3) :
    FileSystem.fresh.ldisk.field d k = if d = 0 then [1, 7, 8, 9].getD k 0 else 0 :=
  fresh_fields d (List.mem_range.2 hd) k (List.mem_range.2 (by omega))

theorem fresh_bitmap : FileSystem.fresh.ldisk.cache.getD 0 0 = 896 := by decide!

theorem fresh_cache_length : FileSystem.fresh.ldisk.cache.length = 7 := by decide!

theorem fresh_BlockInv : FileSystem.fresh.ldisk.BlockInv := by
  refine ⟨fresh_cache_length, ?_, ?_⟩
  · intro d k hd hk1 hk3
    rw [fresh_field d k hd hk3, fresh_bitmap]
    by_cases h0 : d = 0
    · rw [if_pos h0]
      interval_cases k <;> decide
    · rw [if_neg h0]; intro h; exact absurd rfl h
  · intro d k d' k' hd hk1 hk3 hd' hk1' hk3'
    rw [fresh_field d k hd hk3, fresh_field d' k' hd' hk3']
    by_cases h0 : d = 0
    · by_cases h0' : d' = 0
      · rw [if_pos h0, if_pos h0']
        subst h0; subst h0'
        interval_cases k <;> interval_cases k' <;> simp
      · rw [if_pos h0, if_neg h0']
        intro hne heq; exact absurd heq hne
    · rw [if_neg h0]; intro h; exact absurd rfl h

theorem reachable_BlockInv (fs : FileSystem) (h : Reachable fs) : fs.ldisk.BlockInv := by
  obtain ⟨ops, hops⟩ := h
  exact run_BlockInv ops _ _ hops fresh_BlockInv

/-! ## Fuel of the outer loops -/

theorem write_loop_fuel (index : Nat) :
    ∀ (fuel : Nat) (fs : FileSystem) (data file_desc : List Nat) (block_index bytes_written : Nat),
      4 ≤ block_index + fuel → 1 ≤ fuel →
      FileSystem.write_loop index (fuel + 1) fs data file_desc block_index bytes_written
        = FileSystem.write_loop index fuel fs data file_desc block_index bytes_written := by
  intro fuel
  induction fuel with
  | zero => intro fs data fd bi bw _ h1; omega
  | succ fuel ih =>
    intro fs data fd bi bw h4 _
    rw [FileSystem.write_loop]
    conv_rhs => rw [FileSystem.write_loop]
    by_cases hb : bi + 1 < 4
    · have e : ∀ (f2 : FileSystem) (d2 fd2 : List Nat) (bw2 : Nat),
          FileSystem.write_loop index (fuel + 1) f2 d2 fd2 (bi + 1) bw2
            = FileSystem.write_loop index fuel f2 d2 fd2 (bi + 1) bw2 :=
        fun f2 d2 fd2 bw2 => ih f2 d2 fd2 (bi + 1) bw2 (by omega) (by omega)
      simp only [e]
    · simp only [hb, and_false, if_false]

theorem read_bytes_left (r_w : List Nat) :
    ∀ (left : Nat) (j : Int) (mem_area : List Nat) (bytes_read : Nat)
      (res : Int × Nat × List Nat × Nat),
      FileSystem.read_bytes r_w left j mem_area bytes_read = some res →
      res.2.1 ≠ 0 → 64 ≤ res.1 := by
  intro left
  induction left with
  | zero =>
    intro j m br res h hne
    simp only [FileSystem.read_bytes] at h
    cases h
    exact absurd rfl hne
  | succ left ih =>
    intro j m br res h hne
    simp only [FileSystem.read_bytes] at h
    split at h
    · split at h
      · exact ih _ _ _ _ h hne
      · cases h
    · cases h
      simp only []
      omega

theorem read_loop_fuel (index : Nat) (file_desc : List Nat) :
    ∀ (fuel : Nat) (fs : FileSystem) (left block_index : Nat) (mem_area : List Nat)
      (bytes_read : Nat),
      4 ≤ block_index + fuel → 1 ≤ fuel →
      FileSystem.read_loop index file_desc (fuel + 1) fs left block_index mem_area bytes_read
        = FileSystem.read_loop index file_desc fuel fs left block_index mem_area bytes_read := by
  intro fuel
  induction fuel with
  | zero => intro fs left bi m br _ h1; omega
  | succ fuel ih =>
    intro fs left bi m br h4 _
    rw [FileSystem.read_loop]
    conv_rhs => rw [FileSystem.read_loop]
    cases hres : FileSystem.read_bytes (fs.oft index).r_w left (fs.oft index).buffer_index m br with
    | none => rfl
    | some res =>
      simp only [Option.bind_eq_bind, Option.some_bind]
      by_cases hl : res.2.1 ≠ 0
      · have h64 := read_bytes_left _ _ _ _ _ _ hres hl
        simp only [h64, if_true]
        by_cases hb : bi + 1 < 4
        · have e : ∀ (f2 : FileSystem) (l2 : Nat) (m2 : List Nat) (br2 : Nat),
              FileSystem.read_loop index file_desc (fuel + 1) f2 l2 (bi + 1) m2 br2
                = FileSystem.read_loop index file_desc fuel f2 l2 (bi + 1) m2 br2 :=
            fun f2 l2 m2 br2 => ih f2 l2 (bi + 1) m2 br2 (by omega) (by omega)
          simp only [e]
        · simp only [hb, and_false, if_false]
      · simp only [hl, false_and, if_false]

/-! ## Block uniqueness on the runs without undefined behaviour -/

/-- Block uniqueness as long as every call stays inside the arrays of the
program.  In every state that a sequence of `create`, `destroy`, `open`,
`close`, `read`, `write` and `lseek` calls reaches from the freshly initialised
disk without undefined behaviour (`run` has no state once a call indexes
outside an array or uses the value of `find_free_block` when all of bits
7..63 are set), no non-zero block number occurs in two descriptor block slots: two block slots (descriptor `d`,
slot `k`) and (descriptor `e`, slot `j`) that hold the same non-zero block
number are the same slot of the same descriptor. -/
theorem block_uniqueness (fs : FileSystem) (h : Reachable fs) (d k e j : Nat)
    (hd : d < 24) (hk : 1 ≤ k ∧ k ≤ 3) (he : e < 24) (hj : 1 ≤ j ∧ j ≤ 3)
    (hne : (fs.ldisk.get_descriptor d).getD k 0 ≠ 0)
    (heq : (fs.ldisk.get_descriptor d).getD k 0 = (fs.ldisk.get_descriptor e).getD j 0) :
    d = e ∧ k = j :=
  (reachable_BlockInv fs h).2.2 d k e j hd hk.1 hk.2 he hj.1 hj.2 hne heq

/-- An instance of block uniqueness: the state after `create("a")`, `open("a")`
and a write of 70 characters is reachable; there slot 2 of descriptor 1 holds
a block. -/
theorem block_uniqueness_witness :
    Reachable ((run [Op.create [97], Op.open [97], Op.write 1 (List.replicate 70 120)]
        FileSystem.fresh).getD FileSystem.fresh) ∧ (1 = 1 ∧ 2 = 2) :=
  have hr : run [Op.create [97], Op.open [97], Op.write 1 (List.replicate 70 120)]
      FileSystem.fresh
      = some ((run [Op.create [97], Op.open [97], Op.write 1 (List.replicate 70 120)]
        FileSystem.fresh).getD FileSystem.fresh) := by decide!
  ⟨⟨_, hr⟩, block_uniqueness _ ⟨_, hr⟩ 1 2 1 2 (by decide) (by decide) (by decide) (by decide)
    (by decide!) rfl⟩

/-! ## Block input and output -/

theorem bit_eq_div (s j : Nat) : bit s j = s / 2 ^ j % 2 := by
  unfold bit; rw [Nat.shiftRight_eq_div_pow]

theorem from_to_string8 (c : Nat) : from_string8 (to_string8 c) = c % 256 := by
  have h0 : bit c 0 = c % 2 := by rw [bit_eq_div]; norm_num
  have h1 : bit c 1 = c / 2 % 2 := by rw [bit_eq_div]; norm_num
  have h2 : bit c 2 = c / 4 % 2 := by rw [bit_eq_div]; norm_num
  have h3 : bit c 3 = c / 8 % 2 := by rw [bit_eq_div]; norm_num
  have h4 : bit c 4 = c / 16 % 2 := by rw [bit_eq_div]; norm_num
  have h5 : bit c 5 = c / 32 % 2 := by rw [bit_eq_div]; norm_num
  have h6 : bit c 6 = c / 64 % 2 := by rw [bit_eq_div]; norm_num
  have h7 : bit c 7 = c / 128 % 2 := by rw [bit_eq_div]; norm_num
  simp only [from_string8, to_string8, List.foldl_cons, List.foldl_nil, h0, h1, h2, h3, h4, h5,
    h6, h7]
  omega

theorem bit_of_bit_string : ∀ (s : List Nat) (t : Nat), (∀ x ∈ s, x < 2) →
    bit (of_bit_string s) t = s.getD t 0 := by
  intro s
  induction s with
  | nil => intro t _; simp [of_bit_string, bit]
  | cons b s ih =>
    intro t hs
    have hb : b < 2 := hs b (List.mem_cons_self _ _)
    have hs' : ∀ x ∈ s, x < 2 := fun x hx => hs x (List.mem_cons_of_mem _ hx)
    have e : of_bit_string (b :: s) = b + 2 * of_bit_string s := rfl
    rw [e]
    cases t with
    | zero =>
      rw [bit_eq_div, List.getD_cons_zero]
      norm_num
      omega
    | succ t =>
      have h2 : (b + 2 * of_bit_string s) / 2 ^ (t + 1) = of_bit_string s / 2 ^ t := by
        have h1 : (b + 2 * of_bit_string s) / 2 = of_bit_string s := by omega
        rw [Nat.pow_succ', ← Nat.div_div_eq_div_mul, h1]
      rw [bit_eq_div, h2, List.getD_cons_succ, ← ih t hs', bit_eq_div]

theorem to_string8_lt (c x : Nat) (h : x ∈ to_string8 c) : x < 2 := by
  simp only [to_string8, List.mem_cons, List.mem_singleton, List.not_mem_nil, or_false] at h
  rcases h with h | h | h | h | h | h | h | h <;> (rw [h]; exact bit_lt_two _ _)

theorem flatMap_to_string8_lt (p : List Nat) : ∀ x ∈ p.flatMap to_string8, x < 2 := by
  intro x hx
  rw [List.mem_flatMap] at hx
  obtain ⟨c, _, hc⟩ := hx
  exact to_string8_lt c x hc

theorem getD_flatMap_to_string8 : ∀ (p : List Nat) (c k : Nat), k < 8 →
    (p.flatMap to_string8).getD (8 * c + k) 0 = (to_string8 (p.getD c 0)).getD k 0 := by
  intro p
  induction p with
  | nil =>
    intro c k hk
    simp only [List.flatMap_nil, List.getD_nil]
    simp only [to_string8, bit, Nat.zero_shiftRight, Nat.zero_mod]
    interval_cases k <;> rfl
  | cons a p ih =>
    intro c k hk
    rw [List.flatMap_cons]
    have hl : (to_string8 a).length = 8 := rfl
    cases c with
    | zero =>
      simp only [Nat.mul_zero, Nat.zero_add, List.getD_cons_zero]
      rw [List.getD_append _ _ _ _ (by omega)]
    | succ c =>
      have e : 8 * (c + 1) + k = (to_string8 a).length + (8 * c + k) := by omega
      rw [e, List.getD_cons_succ, List.getD_append_right _ _ _ _ (by omega)]
      simp only [Nat.add_sub_cancel_left]
      exact ih c k hk

theorem read_group (p : List Nat) (c : Nat) :
    from_string8 (Ldisk.bit_string8 (of_bit_string (p.flatMap to_string8)) c)
      = p.getD c 0 % 256 := by
  have hb := fun t => bit_of_bit_string (p.flatMap to_string8) t (flatMap_to_string8_lt p)
  have hg := getD_flatMap_to_string8 p c
  rw [← from_to_string8]
  congr 1
  simp only [Ldisk.bit_string8, hb]
  rw [show 8 * c = 8 * c + 0 from rfl, hg 0 (by omega), hg 1 (by omega), hg 2 (by omega),
    hg 3 (by omega), hg 4 (by omega), hg 5 (by omega), hg 6 (by omega), hg 7 (by omega)]
  rfl

theorem write_block_eq (ld : Ldisk) (i : Nat) (p : List Nat) (hi : i < 64) :
    ld.write_block i p = some (ld.store i p) := by
  unfold Ldisk.write_block
  rw [if_pos hi]; rfl

theorem store_cache (ld : Ldisk) (i : Nat) (p : List Nat) : (ld.store i p).cache = ld.cache := rfl

theorem store_length (ld : Ldisk) (i : Nat) (p : List Nat) :
    (ld.store i p).ldisk.length = ld.ldisk.length := by
  simp [Ldisk.store]

theorem field_store (ld : Ldisk) (i : Nat) (p : List Nat) (d k : Nat) :
    (ld.store i p).field d k = ld.field d k := rfl

theorem read_block_store_same (ld : Ldisk) (i : Nat) (p : List Nat) (hl : ld.ldisk.length = 64)
    (hi : i < 64) (hp : p.length = 64) :
    (ld.store i p).read_block i = some (p.map (fun c => c % 256)) := by
  unfold Ldisk.read_block
  rw [if_pos hi]
  unfold Ldisk.store
  simp only []
  rw [getD_set_nat, if_pos ⟨rfl, by omega⟩]
  have ht : p.take 64 = p := List.take_of_length_le (by omega)
  rw [ht]
  congr 1
  apply List.ext_getElem
  · simp [hp]
  · intro n h1 h2
    simp only [List.getElem_map, List.getElem_range]
    rw [read_group p n, List.getD_eq_getElem _ _ (by simpa using h2)]

theorem read_block_store_other (ld : Ldisk) (i j : Nat) (p : List Nat) (hij : i ≠ j) :
    (ld.store i p).read_block j = ld.read_block j := by
  unfold Ldisk.read_block Ldisk.store
  simp only []
  rw [getD_set_nat]
  have : ¬ (i = j ∧ i < ld.ldisk.length) := fun h => hij h.1
  rw [if_neg this]

theorem read_block_length (ld : Ldisk) (i : Nat) (r : List Nat) (h : ld.read_block i = some r) :
    r.length = 64 := by
  unfold Ldisk.read_block at h
  split at h
  · cases h; simp
  · cases h

theorem read_block_isSome (ld : Ldisk) (i : Nat) (hi : i < 64) :
    ∃ r, ld.read_block i = some r ∧ r.length = 64 := by
  unfold Ldisk.read_block
  rw [if_pos hi]
  exact ⟨_, rfl, by simp⟩

theorem read_block_mark (ld : Ldisk) (b v i : Nat) :
    (ld.mark b v).read_block i = ld.read_block i := rfl

theorem read_block_put (ld : Ldisk) (d k v i : Nat) :
    (ld.put d k v).read_block i = ld.read_block i := rfl

/-! ## The inner loops of `write` and `read` -/

theorem write_bytes_spec : ∀ (data pre suf : List Nat) (bw : Nat), pre.length + suf.length = 64 →
    FileSystem.write_bytes data (pre ++ suf) (pre.length : Int) bw
      = some (pre ++ data.take suf.length ++ suf.drop data.length,
          ((pre.length + min data.length suf.length : Nat) : Int), data.drop suf.length,
          bw + min data.length suf.length) := by
  intro data
  induction data with
  | nil => intro pre suf bw _; simp [FileSystem.write_bytes]
  | cons c data ih =>
    intro pre suf bw hl
    cases suf with
    | nil =>
      have : ¬ ((pre.length : Int) < 64) := by simp at hl; omega
      simp [FileSystem.write_bytes, this]
    | cons x suf =>
      simp only [List.length_cons] at hl
      have h1 : (pre.length : Int) < 64 := by omega
      have h2 : (0 : Int) ≤ (pre.length : Int) := by omega
      simp only [FileSystem.write_bytes, h1, h2, if_true, Int.toNat_ofNat]
      have e1 : (pre ++ x :: suf).set pre.length c = (pre ++ [c]) ++ suf := by
        rw [List.set_append_right _ _ (le_refl _)]
        simp
      have e2 : (pre.length : Int) + 1 = ((pre ++ [c]).length : Int) := by simp
      rw [e1, e2, ih (pre ++ [c]) suf (bw + 1) (by simp; omega)]
      simp only [List.length_append, List.length_singleton, List.length_cons, List.take_succ_cons,
        List.drop_succ_cons, List.append_assoc, List.singleton_append, Option.some.injEq,
        Prod.mk.injEq, true_and]
      refine ⟨?_, ?_⟩
      · rw [Nat.succ_min_succ]; simp only [List.length_nil]; push_cast; omega
      · rw [Nat.succ_min_succ]; omega

theorem read_bytes_spec : ∀ (left : Nat) (pre suf mem : List Nat) (br : Nat),
    pre.length + suf.length = 64 →
    FileSystem.read_bytes (pre ++ suf) left (pre.length : Int) mem br
      = some (((pre.length + min left suf.length : Nat) : Int), left - suf.length,
          mem ++ (suf.take left).filter (fun c => decide (c ≠ 0)), br + min left suf.length) := by
  intro left
  induction left with
  | zero => intro pre suf mem br _; simp [FileSystem.read_bytes]
  | succ left ih =>
    intro pre suf mem br hl
    cases suf with
    | nil =>
      have : ¬ ((pre.length : Int) < 64) := by simp at hl; omega
      simp [FileSystem.read_bytes, this]
    | cons x suf =>
      simp only [List.length_cons] at hl
      have h1 : (pre.length : Int) < 64 := by omega
      have h2 : (0 : Int) ≤ (pre.length : Int) := by omega
      simp only [FileSystem.read_bytes, h1, h2, if_true, Int.toNat_ofNat]
      have e1 : (pre ++ x :: suf).getD pre.length 0 = x := by
        rw [List.getD_append_right _ _ _ _ (le_refl _)]
        simp
      have e2 : (pre.length : Int) + 1 = ((pre ++ [x]).length : Int) := by simp
      have e3 : pre ++ x :: suf = (pre ++ [x]) ++ suf := by simp
      rw [e1, e2, e3, ih (pre ++ [x]) suf _ (br + 1) (by simp; omega)]
      simp only [List.length_append, List.length_singleton, List.length_cons, List.take_succ_cons,
        Nat.add_sub_add_right, Option.some.injEq, Prod.mk.injEq, true_and]
      refine ⟨?_, ?_, ?_⟩
      · rw [Nat.succ_min_succ]; simp only [List.length_nil]; push_cast; omega
      · by_cases hx : x = 0
        · simp [hx]
        · simp [hx, List.filter_cons]
      · rw [Nat.succ_min_succ]; omega

/-! ## Free blocks -/

theorem find_free_block_scan_total (ld : Ldisk) (hc : 0 < ld.cache.length) :
    ∀ (n i : Nat),
      0 < ((List.range' i n).filter (fun b => decide (bit (ld.cache.getD 0 0) b = 0))).length →
      ∃ b, Ldisk.find_free_block_scan ld n i = some (ld.mark b 1, b) ∧ i ≤ b ∧ b < i + n ∧
        bit (ld.cache.getD 0 0) b = 0 ∧
        ((List.range' i n).filter
            (fun j => decide (bit ((ld.mark b 1).cache.getD 0 0) j = 0))).length + 1
          = ((List.range' i n).filter
            (fun j => decide (bit (ld.cache.getD 0 0) j = 0))).length := by
  intro n
  induction n with
  | zero => intro i h; simp at h
  | succ n ih =>
    intro i h
    rw [List.range'_succ] at h ⊢
    simp only [Ldisk.find_free_block_scan]
    by_cases hb : bit (ld.cache.getD 0 0) i = 0
    · rw [if_pos hb]
      refine ⟨i, rfl, le_refl _, by omega, hb, ?_⟩
      rw [List.filter_cons, List.filter_cons]
      have h1 : ¬ bit ((ld.mark i 1).cache.getD 0 0) i = 0 := by
        rw [bit_mark ld hc i 1 i (by omega), if_pos rfl]; omega
      simp only [h1, hb, decide_True, decide_False, if_true, List.length_cons]
      congr 2
      apply List.filter_congr
      intro j hj
      have hji : j ≠ i := by
        have := (List.mem_range'_1.1 hj).1
        omega
      rw [bit_mark ld hc i 1 j (by omega), if_neg hji]
    · rw [if_neg hb]
      rw [List.filter_cons] at h
      simp only [hb, decide_False] at h
      obtain ⟨b, h1, h2, h3, h4, h5⟩ := ih (i + 1) h
      refine ⟨b, h1, by omega, by omega, h4, ?_⟩
      rw [List.filter_cons, List.filter_cons]
      have hne : i ≠ b := by omega
      have h6 : ¬ bit ((ld.mark b 1).cache.getD 0 0) i = 0 := by
        rw [bit_mark ld hc b 1 i (by omega), if_neg hne]; exact hb
      simp only [h6, hb, decide_False]
      exact h5

theorem find_free_block_total (ld : Ldisk) (hc : 0 < ld.cache.length) (h : 0 < ld.free_blocks) :
    ∃ b, ld.find_free_block = some (ld.mark b 1, b) ∧ 7 ≤ b ∧ b ≤ 63 ∧
      bit (ld.cache.getD 0 0) b = 0 ∧ (ld.mark b 1).free_blocks + 1 = ld.free_blocks := by
  obtain ⟨b, h1, h2, h3, h4, h5⟩ := find_free_block_scan_total ld hc 57 7 h
  exact ⟨b, h1, h2, by omega, h4, h5⟩

theorem free_blocks_put (ld : Ldisk) (d k v : Nat) : (ld.put d k v).free_blocks = ld.free_blocks := by
  unfold Ldisk.free_blocks
  rw [bitmap_put]

theorem free_blocks_store (ld : Ldisk) (i : Nat) (p : List Nat) :
    (ld.store i p).free_blocks = ld.free_blocks := rfl

/-! ## The open file table -/

theorem getD_set_any {α : Type} (l : List α) (i j : Nat) (x y : α) :
    (l.set i x).getD j y = if i = j ∧ i < l.length then x else l.getD j y := by
  simp only [List.getD_eq_getElem?_getD, List.getElem?_set]
  by_cases h : i = j
  · subst h
    by_cases h2 : i < l.length
    · simp [h2]
    · simp [h2]
      have : l.length ≤ i := by omega
      rw [List.getElem?_eq_none this]; rfl
  · simp [h]

theorem oft_set_oft_same (fs : FileSystem) (i : Nat) (e : FILE_TABLE)
    (h : i < fs.open_file_table.length) : (fs.set_oft i e).oft i = e := by
  unfold FileSystem.oft FileSystem.set_oft
  simp only []
  rw [getD_set_any, if_pos ⟨rfl, h⟩]

theorem oft_set_oft_ne (fs : FileSystem) (i j : Nat) (e : FILE_TABLE) (h : i ≠ j) :
    (fs.set_oft i e).oft j = fs.oft j := by
  unfold FileSystem.oft FileSystem.set_oft
  simp only []
  rw [getD_set_any]
  have : ¬ (i = j ∧ i < fs.open_file_table.length) := fun c => h c.1
  rw [if_neg this]

theorem length_set_oft (fs : FileSystem) (i : Nat) (e : FILE_TABLE) :
    (fs.set_oft i e).open_file_table.length = fs.open_file_table.length := by
  simp [FileSystem.set_oft]

/-! ## The outer loop of `write` -/

theorem write_bytes_start (data r_w : List Nat) (bw : Nat) (hr : r_w.length = 64) :
    FileSystem.write_bytes data r_w 0 bw
      = some (data.take 64 ++ r_w.drop data.length, ((min data.length 64 : Nat) : Int),
          data.drop 64, bw + min data.length 64) := by
  have h := write_bytes_spec data [] r_w bw (by simpa using hr)
  simp only [List.nil_append, List.length_nil, Nat.zero_add, hr] at h
  exact h

theorem ldisk_set_oft (fs : FileSystem) (i : Nat) (e : FILE_TABLE) :
    (fs.set_oft i e).ldisk = fs.ldisk := rfl

theorem map_mod_of_lt (l : List Nat) (h : ∀ c ∈ l, c < 256) : l.map (fun c => c % 256) = l := by
  induction l with
  | nil => rfl
  | cons a l ih =>
    rw [List.map_cons, ih (fun c hc => h c (List.mem_cons_of_mem _ hc)),
      Nat.mod_eq_of_lt (h a (List.mem_cons_self _ _))]

theorem write_loop_last (s d : Nat) (fs : FileSystem) (data fd : List Nat)
    (bi bw fuel bb : Nat) (hs : SlotAt fs s d bb) (hfield : fs.ldisk.field d bi = bb)
    (hdata : data ≠ []) (hlen : data.length ≤ 64) (hbytes : ∀ c ∈ data, c < 256) :
    ∃ fs1, FileSystem.write_loop s (fuel + 1) fs data fd bi bw = some (fs1, bw + data.length) ∧
      Written fs fs1 s d bi bb data := by
  have hlen0 : 0 < data.length := List.length_pos.2 hdata
  have hbb : bb < 64 := by have := hs.block; omega
  have hdrop : data.drop 64 = [] := List.drop_eq_nil_of_le hlen
  have htake : data.take 64 = data := List.take_of_length_le hlen
  have hmin : min data.length 64 = data.length := Nat.min_eq_left hlen
  have hslt : s < fs.open_file_table.length := by
    rw [hs.wf.oft_length]; have := hs.slot; omega
  have hzero : (data.length - 1) / 64 = 0 := by omega
  simp only [FileSystem.write_loop, Option.bind_eq_bind]
  rw [hs.buffer_index, write_bytes_start data _ bw hs.buffer, hs.buffer_block]
  simp only [Option.some_bind]
  rw [write_block_eq _ _ _ hbb]
  simp only [Option.some_bind, hdrop, ne_eq, not_true_eq_false, false_and, if_false, htake, hmin]
  refine ⟨_, rfl, ?_⟩
  have hr1 : (data ++ List.drop data.length (fs.oft s).r_w).length = 64 := by
    rw [List.length_append, List.length_drop, hs.buffer]; omega
  constructor
  · exact ⟨by rw [ldisk_set_oft]; simp only []; rw [store_length]; exact hs.wf.ldisk_length,
      hs.wf.cache_length, by rw [length_set_oft]; exact hs.wf.oft_length⟩
  · simp only [oft_set_oft_same, hslt]; exact hs.index
  · simp only [oft_set_oft_same, hslt]; exact hr1
  · rfl
  · intro i _ _; rfl
  · intro i _ _; rfl
  · intro t ht
    have ht0 : t = 0 := by omega
    subst ht0
    refine ⟨(data ++ List.drop data.length (fs.oft s).r_w).map (fun c => c % 256), ?_, ?_, ?_, ?_⟩
    · show 7 ≤ fs.ldisk.field d (bi + 0)
      rw [Nat.add_zero, hfield]; exact hs.block.1
    · show fs.ldisk.field d (bi + 0) ≤ 63
      rw [Nat.add_zero, hfield]; exact hs.block.2
    · show (fs.ldisk.store bb _).read_block (fs.ldisk.field d (bi + 0)) = _
      rw [Nat.add_zero, hfield]
      exact read_block_store_same _ _ _ hs.wf.ldisk_length hbb hr1
    · rw [Nat.mul_zero, Nat.sub_zero, List.drop_zero, htake, ← List.map_take,
        List.take_left' rfl, map_mod_of_lt data hbytes]
  · intro t ht1 ht; omega
  · simp only [oft_set_oft_same, hslt, hzero, Nat.add_zero]
    exact hfield.symm
  · simp only [oft_set_oft_same, hslt, hzero, Nat.mul_zero, Nat.sub_zero, List.drop_zero]
    exact List.take_left' rfl
  · intro i hi _
    exact read_block_store_other _ _ _ _ (Ne.symm hi)
  · intro i hi; exact hi

theorem update_descriptor_blocks_next (ld : Ldisk) (d bi nb : Nat) (hd : d < 24)
    (hbi : 1 ≤ bi ∧ bi ≤ 2) (hnz : ∀ i, 1 ≤ i → i ≤ bi → ld.field d i ≠ 0)
    (hz : ld.field d (bi + 1) = 0) :
    ld.update_descriptor_blocks (d : Int) nb = some (ld.put d (bi + 1) nb) := by
  rw [update_descriptor_blocks_eq ld d nb hd]
  have h1 := hnz 1 (le_refl 1) hbi.1
  rw [if_neg h1]
  obtain ⟨hb1, hb2⟩ := hbi
  interval_cases bi
  · rw [if_pos hz]
  · have h2 := hnz 2 (by omega) (le_refl 2)
    rw [if_neg h2, if_pos hz]

theorem write_loop_spec (s d : Nat) :
    ∀ (m : Nat) (fs : FileSystem) (data fd : List Nat) (bi bw fuel bb : Nat),
      bi + m = 3 → 1 ≤ bi → 4 ≤ bi + fuel → SlotAt fs s d bb →
      fd.length = 4 → fd.getD bi 0 = bb → (∀ i, bi < i → i ≤ 3 → fd.getD i 0 = 0) →
      (∀ i, 1 ≤ i → i ≤ 3 → fs.ldisk.field d i = fd.getD i 0) →
      (∀ i, 1 ≤ i → i ≤ bi → fd.getD i 0 ≠ 0) →
      data ≠ [] → data.length ≤ 64 * (m + 1) → (∀ c ∈ data, c < 256) →
      (data.length - 1) / 64 ≤ fs.ldisk.free_blocks →
      ∃ fs1, FileSystem.write_loop s fuel fs data fd bi bw = some (fs1, bw + data.length) ∧
        Written fs fs1 s d bi bb data := by
  intro m
  induction m with
  | zero =>
    intro fs data fd bi bw fuel bb hbm hbi hfuel hs hfd hfdb hfdz hcache hnz hdata hlen hbytes _
    obtain ⟨fuel, rfl⟩ : ∃ f, fuel = f + 1 := ⟨fuel - 1, by omega⟩
    exact write_loop_last s d fs data fd bi bw fuel bb hs
      (by rw [hcache bi hbi (by omega)]; exact hfdb) hdata (by omega) hbytes
  | succ m ih =>
    intro fs data fd bi bw fuel bb hbm hbi hfuel hs hfd hfdb hfdz hcache hnz hdata hlen hbytes hfree
    obtain ⟨fuel, rfl⟩ : ∃ f, fuel = f + 1 := ⟨fuel - 1, by omega⟩
    by_cases hshort : data.length ≤ 64
    · exact write_loop_last s d fs data fd bi bw fuel bb hs
        (by rw [hcache bi hbi (by omega)]; exact hfdb) hdata hshort hbytes
    · have hlong : 64 < data.length := by omega
      have hbb : bb < 64 := by have := hs.block; omega
      have hslt : s < fs.open_file_table.length := by
        rw [hs.wf.oft_length]; have := hs.slot; omega
      have hmin : min data.length 64 = 64 := by omega
      have hdrop_r : List.drop data.length (fs.oft s).r_w = [] :=
        List.drop_eq_nil_of_le (by rw [hs.buffer]; omega)
      have hdrop : data.drop 64 ≠ [] := by
        intro hc
        have := congrArg List.length hc
        simp at this; omega
      have hr1 : (data.take 64).length = 64 := by simp; omega
      have hbytes1 : ∀ c ∈ data.take 64, c < 256 := fun c hc => hbytes c (List.mem_of_mem_take hc)
      have hbytes2 : ∀ c ∈ data.drop 64, c < 256 := fun c hc => hbytes c (List.mem_of_mem_drop hc)
      -- the free block
      have hfree1 : 0 < (fs.ldisk.store bb (data.take 64)).free_blocks := by
        rw [free_blocks_store]; omega
      obtain ⟨b2, hffb, hb7, hb63, hbit0, hfreecount⟩ :=
        find_free_block_total (fs.ldisk.store bb (data.take 64))
          (by rw [store_cache, hs.wf.cache_length]; omega) hfree1
      rw [store_cache] at hbit0
      have hb2bb : b2 ≠ bb := by
        intro hc; rw [hc, hs.allocated] at hbit0; cases hbit0
      have hfieldL : ∀ i, i ≤ 3 → ((fs.ldisk.store bb (data.take 64)).mark b2 1).field d i
          = fs.ldisk.field d i := by
        intro i hi
        rw [field_mark _ _ _ d i hs.desc hi]; rfl
      have hlenL : ((fs.ldisk.store bb (data.take 64)).mark b2 1).cache.length = 7 := by
        rw [length_mark, store_cache]; exact hs.wf.cache_length
      have hbitL : ∀ j, bit (((fs.ldisk.store bb (data.take 64)).mark b2 1).cache.getD 0 0) j
          = if j = b2 then 1 else bit (fs.ldisk.cache.getD 0 0) j := by
        intro j
        rw [bit_mark _ (by rw [store_cache, hs.wf.cache_length]; omega) b2 1 j (by omega)]
        rfl
      have hub : ((fs.ldisk.store bb (data.take 64)).mark b2 1).update_descriptor_blocks (d : Int) b2
          = some (((fs.ldisk.store bb (data.take 64)).mark b2 1).put d (bi + 1) b2) := by
        apply update_descriptor_blocks_next _ d bi b2 hs.desc ⟨hbi, by omega⟩
        · intro i h1 h2
          rw [hfieldL i (by omega), hcache i h1 (by omega)]
          exact hnz i h1 h2
        · rw [hfieldL (bi + 1) (by omega), hcache (bi + 1) (by omega) (by omega)]
          exact hfdz (bi + 1) (by omega) (by omega)
      obtain ⟨r2, hr2, hr2len⟩ := read_block_isSome fs.ldisk b2 (by omega)
      have hrb2 : (((fs.ldisk.store bb (data.take 64)).mark b2 1).put d (bi + 1) b2).read_block b2
          = some r2 := by
        rw [read_block_put, read_block_mark, read_block_store_other _ _ _ _ (Ne.symm hb2bb)]
        exact hr2
      have hfdset : (fd.set (bi + 1) b2).getD (bi + 1) 0 = b2 := by
        rw [getD_set_nat, if_pos ⟨rfl, by omega⟩]
      have hb2mod : b2 % 2 ^ 31 = b2 := Nat.mod_eq_of_lt (by
        have : (63 : Nat) < 2 ^ 31 := by decide
        omega)
      -- the state at the start of the next block
      obtain ⟨fs2, hfs2⟩ : ∃ x : FileSystem, x = (FileSystem.mk
          (((fs.ldisk.store bb (data.take 64)).mark b2 1).put d (bi + 1) b2)
          ((FileSystem.mk (fs.ldisk.store bb (data.take 64)) fs.open_file_table).set_oft s
            ⟨data.take 64, (fs.oft s).index, ((64 : Nat) : Int), bb⟩).open_file_table).set_oft s
          ⟨r2, (fs.oft s).index, 0, b2⟩ := ⟨_, rfl⟩
      have hlen2 : fs2.open_file_table.length = 4 := by
        rw [hfs2, length_set_oft]
        simp only []
        rw [length_set_oft]
        exact hs.wf.oft_length
      have hoft2 : fs2.oft s = ⟨r2, (fs.oft s).index, 0, b2⟩ := by
        rw [hfs2]
        apply oft_set_oft_same
        simp only []
        rw [length_set_oft]
        exact hslt
      have hld2 : fs2.ldisk = ((fs.ldisk.store bb (data.take 64)).mark b2 1).put d (bi + 1) b2 := by
        rw [hfs2]; rfl
      have hfield2 : ∀ i, i ≤ 3 → fs2.ldisk.field d i
          = if i = bi + 1 then b2 else fs.ldisk.field d i := by
        intro i hi
        rw [hld2, field_put _ hlenL d (bi + 1) b2 d i hs.desc (by omega) hs.desc hi,
          hfieldL i hi, hb2mod]
        simp
      have hbit2 : ∀ j, bit (fs2.ldisk.cache.getD 0 0) j
          = if j = b2 then 1 else bit (fs.ldisk.cache.getD 0 0) j := by
        intro j
        rw [hld2, bitmap_put]; exact hbitL j
      have hrd2 : ∀ j, fs2.ldisk.read_block j = (fs.ldisk.store bb (data.take 64)).read_block j := by
        intro j; rw [hld2]; rfl
      have hs2 : SlotAt fs2 s d b2 := by
        refine ⟨⟨?_, ?_, hlen2⟩, hs.slot, hs.desc, ?_, ?_, ?_, ?_, ⟨hb7, hb63⟩, ?_⟩
        · rw [hld2]
          show (fs.ldisk.store bb (data.take 64)).ldisk.length = 64
          rw [store_length]; exact hs.wf.ldisk_length
        · rw [hld2, length_put]; exact hlenL
        · rw [hoft2]; exact hs.index
        · rw [hoft2]
        · rw [hoft2]
        · rw [hoft2]; exact hr2len
        · rw [hbit2, if_pos rfl]
      have hfree2 : ((data.drop 64).length - 1) / 64 ≤ fs2.ldisk.free_blocks := by
        rw [hld2, free_blocks_put]
        rw [free_blocks_store] at hfreecount
        rw [List.length_drop]
        omega
      obtain ⟨fs3, hloop, hw⟩ := ih fs2 (data.drop 64) (fd.set (bi + 1) b2) (bi + 1) (bw + 64) fuel b2
        (by omega) (by omega) (by omega) hs2 (by rw [List.length_set]; exact hfd) hfdset
        (by
          intro i h1 h2
          rw [getD_set_nat, if_neg (by omega)]
          exact hfdz i (by omega) h2)
        (by
          intro i h1 h2
          rw [hfield2 i h2, getD_set_nat]
          by_cases hi : i = bi + 1
          · rw [if_pos hi, if_pos ⟨hi.symm, by omega⟩]
          · rw [if_neg hi, if_neg (by omega)]
            exact hcache i h1 h2)
        (by
          intro i h1 h2
          rw [getD_set_nat]
          by_cases hi : i = bi + 1
          · rw [if_pos ⟨hi.symm, by omega⟩]; omega
          · rw [if_neg (by omega)]
            exact hnz i h1 (by omega))
        hdrop (by rw [List.length_drop]; omega) hbytes2 hfree2
      refine ⟨fs3, ?_, ?_⟩
      · simp only [FileSystem.write_loop, Option.bind_eq_bind]
        rw [hs.buffer_index, write_bytes_start data _ bw hs.buffer, hs.buffer_block]
        simp only [Option.some_bind]
        rw [write_block_eq _ _ _ hbb]
        simp only [Option.some_bind, hdrop_r, List.append_nil, hmin]
        have hcond : data.drop 64 ≠ [] ∧ bi + 1 < 4 := ⟨hdrop, by omega⟩
        rw [if_pos hcond, if_pos (hfdz (bi + 1) (by omega) (by omega))]
        simp only [ldisk_set_oft]
        rw [hffb]
        simp only [Option.some_bind, oft_set_oft_same, hslt, hs.index]
        rw [hub]
        simp only [Option.some_bind]
        rw [hfdset, hrb2]
        simp only [Option.some_bind]
        rw [← hs.index, ← hfs2, hloop, List.length_drop]
        congr 2
        omega
      · have hq : (data.length - 1) / 64 = ((data.drop 64).length - 1) / 64 + 1 := by
          rw [List.length_drop]; omega
        have hdl : (data.drop 64).length = data.length - 64 := List.length_drop _ _
        have hf3bi : fs3.ldisk.field d bi = bb := by
          rw [hw.before bi hbi (by omega), hfield2 bi (by omega), if_neg (by omega),
            hcache bi hbi (by omega)]
          exact hfdb
        have hf3b2 : fs3.ldisk.field d (bi + 1) = b2 := by
          rw [hw.before (bi + 1) (by omega) (le_refl _), hfield2 (bi + 1) (by omega), if_pos rfl]
        have hbbbit2 : bit (fs2.ldisk.cache.getD 0 0) bb = 1 := by
          rw [hbit2, if_neg (Ne.symm hb2bb)]; exact hs.allocated
        constructor
        · exact hw.wf
        · exact hw.index
        · exact hw.buffer
        · rw [hw.size, hfield2 0 (by omega), if_neg (by omega)]
        · intro i h1 h2
          rw [hw.before i h1 (by omega), hfield2 i (by omega), if_neg (by omega)]
        · intro i h1 h2
          rw [hw.after i (by omega) h2, hfield2 i h2, if_neg (by omega)]
        · intro t ht
          rcases Nat.eq_zero_or_pos t with ht0 | htpos
          · subst ht0
            refine ⟨data.take 64, ?_, ?_, ?_, ?_⟩
            · rw [Nat.add_zero, hf3bi]; exact hs.block.1
            · rw [Nat.add_zero, hf3bi]; exact hs.block.2
            · rw [Nat.add_zero, hf3bi, hw.frame bb (Ne.symm hb2bb) hbbbit2, hrd2,
                read_block_store_same _ _ _ hs.wf.ldisk_length hbb hr1, map_mod_of_lt _ hbytes1]
            · rw [Nat.mul_zero, Nat.sub_zero, List.drop_zero]
              exact List.take_of_length_le (by rw [hr1]; omega)
          · obtain ⟨t, rfl⟩ : ∃ u, t = u + 1 := ⟨t - 1, by omega⟩
            obtain ⟨blk, c1, c2, c3, c4⟩ := hw.chunk t (by rw [hdl]; omega)
            have hidx : bi + 1 + t = bi + (t + 1) := by omega
            rw [hidx] at c1 c2 c3
            refine ⟨blk, c1, c2, c3, ?_⟩
            rw [hdl, List.drop_drop] at c4
            have e1 : data.length - 64 - 64 * t = data.length - 64 * (t + 1) := by omega
            have e2 : 64 + 64 * t = 64 * (t + 1) := by omega
            rw [e1] at c4
            rw [c4]
            rw [e2]
        · intro t ht1 ht
          obtain ⟨t, rfl⟩ : ∃ u, t = u + 1 := ⟨t - 1, by omega⟩
          rcases Nat.eq_zero_or_pos t with ht0 | htpos
          · subst ht0
            rw [Nat.zero_add, hf3b2]; exact hbit0
          · have hfr := hw.fresh t htpos (by rw [hdl]; omega)
            have hidx : bi + 1 + t = bi + (t + 1) := by omega
            rw [hidx, hbit2] at hfr
            by_cases hc : fs3.ldisk.field d (bi + (t + 1)) = b2
            · rw [if_pos hc] at hfr; cases hfr
            · rw [if_neg hc] at hfr; exact hfr
        · rw [hw.last_block]
          congr 1
          omega
        · have hlb := hw.last_buffer
          rw [List.drop_drop, hdl] at hlb
          have e1 : data.length - 64 - 64 * ((data.length - 64 - 1) / 64)
              = data.length - 64 * ((data.length - 1) / 64) := by omega
          have e2 : 64 + 64 * ((data.length - 64 - 1) / 64) = 64 * ((data.length - 1) / 64) := by
            omega
          rw [e1] at hlb
          rw [hlb]
          rw [e2]
        · intro i hi hb
          have hib2 : i ≠ b2 := by
            intro hc; rw [hc, hbit0] at hb; cases hb
          rw [hw.frame i hib2 (by rw [hbit2, if_neg hib2]; exact hb), hrd2]
          exact read_block_store_other _ _ _ _ (Ne.symm hi)
        · intro i hb
          apply hw.bits
          rw [hbit2]
          by_cases hc : i = b2
          · rw [if_pos hc]
          · rw [if_neg hc]; exact hb

/-! ## `write` on a file that was just opened -/

theorem find_block_index_first (fd : List Nat) (b : Nat) (h1 : fd.getD 1 0 = b)
    (h2 : fd.getD 2 0 ≠ b) (h3 : fd.getD 3 0 ≠ b) : FileSystem.find_block_index fd b = 1 := by
  unfold FileSystem.find_block_index
  simp only [List.foldl]
  rw [if_pos h1, if_neg h2, if_neg h3]

theorem is_oft_entry_user (fs : FileSystem) (s d : Nat) (hs : s ≤ 3)
    (hi : (fs.oft s).index = d) : FileSystem.is_oft_entry fs (s : Int) = true := by
  unfold FileSystem.is_oft_entry
  have h : (0 : Int) ≤ (s : Int) ∧ (s : Int) ≤ 3 := ⟨by omega, by omega⟩
  rw [if_pos h, Int.toNat_ofNat, hi]
  simp only [ne_eq, decide_eq_true_eq]
  omega

theorem JustOpened.slotAt {fs : FileSystem} {s d b : Nat} (h : JustOpened fs s d b) :
    SlotAt fs s d b :=
  ⟨h.wf, h.slot, h.desc.2, h.index, h.buffer_index, h.buffer_block, h.buffer, h.block, h.allocated⟩

theorem JustOpened.fields {fs : FileSystem} {s d b : Nat} (h : JustOpened fs s d b) (i : Nat) :
    fs.ldisk.field d i = [1, b, 0, 0].getD i 0 := by
  unfold Ldisk.field
  rw [h.descriptor]

theorem write_just_opened (fs : FileSystem) (s d b : Nat) (h : JustOpened fs s d b)
    (data : List Nat) (hn : 1 ≤ data.length ∧ data.length ≤ 192) (hbytes : ∀ c ∈ data, c < 256)
    (hfree : (data.length - 1) / 64 ≤ fs.ldisk.free_blocks) :
    ∃ fs0, Written fs fs0 s d 1 b data ∧
      fs.write (s : Int) data
        = some (FileSystem.mk (fs0.ldisk.put d 0 data.length) fs0.open_file_table,
            (data.length : Int)) := by
  have hdata : data ≠ [] := by
    intro hc; rw [hc] at hn; simp at hn
  have hb0 : b ≠ 0 := by have := h.block; omega
  obtain ⟨fs0, hloop, hw⟩ := write_loop_spec s d 2 fs data [1, b, 0, 0] 1 0 4 b rfl (le_refl 1)
    (by omega) h.slotAt rfl rfl
    (by
      intro i h1 h2
      interval_cases i <;> rfl)
    (fun i _ _ => h.fields i)
    (by
      intro i h1 h2
      have : i = 1 := by omega
      subst this
      exact hb0)
    hdata (by omega) hbytes hfree
  refine ⟨fs0, hw, ?_⟩
  unfold FileSystem.write
  rw [is_oft_entry_user fs s d (by have := h.slot; omega) h.index]
  simp only [if_true, Int.toNat_ofNat, Option.bind_eq_bind]
  rw [h.index, h.descriptor, h.buffer_block,
    find_block_index_first [1, b, 0, 0] b rfl (fun hc => hb0 hc.symm) (fun hc => hb0 hc.symm),
    if_pos hdata, hloop]
  simp only [Option.some_bind, List.getD_cons_zero, if_true, Nat.zero_add]
  rw [hw.index, update_descriptor_size_eq _ d _ h.desc.2]
  simp only [Option.some_bind]

/-! ## `lseek` to the start and `read` after a write -/

theorem filter_nonzero (l : List Nat) (h : ∀ c ∈ l, c ≠ 0) :
    l.filter (fun c => decide (c ≠ 0)) = l :=
  List.filter_eq_self.2 (fun c hc => decide_eq_true (h c hc))

theorem read_bytes_start (r_w mem : List Nat) (left br : Nat) (hr : r_w.length = 64) :
    FileSystem.read_bytes r_w left 0 mem br
      = some (((min left 64 : Nat) : Int), left - 64,
          mem ++ (r_w.take left).filter (fun c => decide (c ≠ 0)), br + min left 64) := by
  have h := read_bytes_spec left [] r_w mem br (by simpa using hr)
  simp only [List.nil_append, List.length_nil, Nat.zero_add, hr, Nat.cast_zero] at h
  exact h

theorem read_loop_spec (s : Nat) (fd : List Nat) :
    ∀ (m : Nat) (fs : FileSystem) (rem : List Nat) (bi fuel : Nat) (mem : List Nat) (br : Nat),
      bi + m = 3 → 1 ≤ bi → 4 ≤ bi + fuel → s < fs.open_file_table.length →
      (fs.oft s).buffer_index = 0 → (fs.oft s).r_w.length = 64 →
      (fs.oft s).r_w.take rem.length = rem.take 64 →
      rem ≠ [] → rem.length ≤ 64 * (m + 1) → (∀ c ∈ rem, c ≠ 0) →
      (∀ t, 1 ≤ t → 64 * t < rem.length → fd.getD (bi + t) 0 ≠ 0 ∧ ∃ blk,
        fs.ldisk.read_block (fd.getD (bi + t) 0) = some blk ∧
        blk.take (rem.length - 64 * t) = (rem.drop (64 * t)).take 64) →
      ∃ fs1, FileSystem.read_loop s fd fuel fs rem.length bi mem br
        = some (fs1, mem ++ rem, br + rem.length) := by
  intro m
  induction m with
  | zero =>
    intro fs rem bi fuel mem br hbm hbi hfuel hslt hbuf hlen htake hrem hle hnz _
    obtain ⟨fuel, rfl⟩ : ∃ f, fuel = f + 1 := ⟨fuel - 1, by omega⟩
    have hmin : min rem.length 64 = rem.length := by omega
    have hsub : rem.length - 64 = 0 := by omega
    simp only [FileSystem.read_loop, Option.bind_eq_bind]
    rw [hbuf, read_bytes_start _ _ _ _ hlen]
    simp only [Option.some_bind, hsub, ne_eq, not_true_eq_false, false_and, if_false, hmin]
    rw [htake, List.take_of_length_le (by omega), filter_nonzero rem hnz]
    exact ⟨_, rfl⟩
  | succ m ih =>
    intro fs rem bi fuel mem br hbm hbi hfuel hslt hbuf hlen htake hrem hle hnz hchain
    obtain ⟨fuel, rfl⟩ : ∃ f, fuel = f + 1 := ⟨fuel - 1, by omega⟩
    by_cases hshort : rem.length ≤ 64
    · have hmin : min rem.length 64 = rem.length := by omega
      have hsub : rem.length - 64 = 0 := by omega
      simp only [FileSystem.read_loop, Option.bind_eq_bind]
      rw [hbuf, read_bytes_start _ _ _ _ hlen]
      simp only [Option.some_bind, hsub, ne_eq, not_true_eq_false, false_and, if_false, hmin]
      rw [htake, List.take_of_length_le (by omega), filter_nonzero rem hnz]
      exact ⟨_, rfl⟩
    · have hlong : 64 < rem.length := by omega
      have hmin : min rem.length 64 = 64 := by omega
      have hsub : rem.length - 64 ≠ 0 := by omega
      obtain ⟨hnext, blk, hblk, hblk_take⟩ := hchain 1 (le_refl 1) (by omega)
      have hblk_len := read_block_length _ _ _ hblk
      have hdl : (rem.drop 64).length = rem.length - 64 := List.length_drop _ _
      have hslt1 : s < (fs.set_oft s ⟨(fs.oft s).r_w, (fs.oft s).index, (64 : Int),
          (fs.oft s).buffer_block⟩).open_file_table.length := by
        rw [length_set_oft]; exact hslt
      obtain ⟨fs2, hfs2⟩ : ∃ x : FileSystem, x = (fs.set_oft s ⟨(fs.oft s).r_w, (fs.oft s).index,
          (64 : Int), (fs.oft s).buffer_block⟩).set_oft s
          ⟨blk, (fs.oft s).index, 0, fd.getD (bi + 1) 0⟩ := ⟨_, rfl⟩
      have hoft2 : fs2.oft s = ⟨blk, (fs.oft s).index, 0, fd.getD (bi + 1) 0⟩ := by
        rw [hfs2]; exact oft_set_oft_same _ _ _ hslt1
      have hld2 : fs2.ldisk = fs.ldisk := by rw [hfs2]; rfl
      obtain ⟨fs3, hloop⟩ := ih fs2 (rem.drop 64) (bi + 1) fuel
        (mem ++ rem.take 64) (br + 64) (by omega) (by omega) (by omega)
        (by rw [hfs2, length_set_oft]; exact hslt1)
        (by rw [hoft2]) (by rw [hoft2]; exact hblk_len)
        (by
          rw [hoft2, hdl]
          simpa using hblk_take)
        (by
          intro hc
          have := congrArg List.length hc
          rw [hdl] at this
          simp at this; omega)
        (by rw [hdl]; omega)
        (fun c hc => hnz c (List.mem_of_mem_drop hc))
        (by
          intro t ht1 ht
          rw [hdl] at ht
          obtain ⟨c1, blk2, c2, c3⟩ := hchain (t + 1) (by omega) (by omega)
          have hidx : bi + 1 + t = bi + (t + 1) := by omega
          rw [hidx, hld2]
          refine ⟨c1, blk2, c2, ?_⟩
          rw [hdl, List.drop_drop]
          have e1 : rem.length - 64 - 64 * t = rem.length - 64 * (t + 1) := by omega
          have e2 : 64 + 64 * t = 64 * (t + 1) := by omega
          rw [e1, e2]
          exact c3)
      refine ⟨fs3, ?_⟩
      simp only [FileSystem.read_loop, Option.bind_eq_bind]
      rw [hbuf, read_bytes_start _ _ _ _ hlen]
      simp only [Option.some_bind, hmin]
      have hcond : rem.length - 64 ≠ 0 ∧ bi + 1 < 4 := ⟨hsub, by omega⟩
      simp only [Nat.cast_ofNat, le_refl, if_true]
      rw [if_pos hcond, if_neg hnext]
      simp only [ldisk_set_oft]
      rw [hblk]
      simp only [Option.some_bind]
      rw [oft_set_oft_same _ _ _ hslt]
      simp only []
      rw [← hfs2]
      have e : (fs.oft s).r_w.take rem.length = rem.take 64 := htake
      rw [e, filter_nonzero _ (fun c hc => hnz c (List.mem_of_mem_take hc)), ← hdl, hloop]
      have e3 : mem ++ List.take 64 rem ++ List.drop 64 rem = mem ++ rem := by
        rw [List.append_assoc, List.take_append_drop]
      rw [e3, hdl]
      congr 3
      omega

/-! ## The round trip -/

theorem Written.later_block_ne {fs fs0 : FileSystem} {s d b : Nat} {data : List Nat}
    (h : JustOpened fs s d b) (hw : Written fs fs0 s d 1 b data) (i : Nat) (h2 : 2 ≤ i)
    (h3 : i ≤ 3) : fs0.ldisk.field d i ≠ b := by
  have hb0 : b ≠ 0 := by have := h.block; omega
  by_cases hc : 64 * (i - 1) < data.length
  · have hfr := hw.fresh (i - 1) (by omega) hc
    have e : 1 + (i - 1) = i := by omega
    rw [e] at hfr
    intro heq
    rw [heq, h.allocated] at hfr
    cases hfr
  · rw [hw.after i (by omega) h3, h.fields i]
    interval_cases i
    · exact fun hc => hb0 hc.symm
    · exact fun hc => hb0 hc.symm

theorem Written.first_block {fs fs0 : FileSystem} {s d b : Nat} {data : List Nat}
    (h : JustOpened fs s d b) (hw : Written fs fs0 s d 1 b data) : fs0.ldisk.field d 1 = b := by
  rw [hw.before 1 (le_refl 1) (le_refl 1), h.fields 1]; rfl

theorem field_after_write {fs fs0 : FileSystem} {s d b : Nat} {data : List Nat}
    (h : JustOpened fs s d b) (hw : Written fs fs0 s d 1 b data) (hn : data.length ≤ 192)
    (i : Nat) (hi : i ≤ 3) :
    (fs0.ldisk.put d 0 data.length).field d i
      = if i = 0 then data.length else fs0.ldisk.field d i := by
  rw [field_put _ hw.wf.cache_length d 0 _ d i h.desc.2 (by omega) h.desc.2 hi]
  by_cases h0 : i = 0
  · rw [if_pos ⟨rfl, h0⟩, if_pos h0]
    exact Nat.mod_eq_of_lt (by
      have : (192 : Nat) < 2 ^ 31 := by decide
      omega)
  · rw [if_neg (fun hc => h0 hc.2), if_neg h0]

theorem lseek_after_write (fs fs0 : FileSystem) (s d b : Nat) (h : JustOpened fs s d b)
    (data : List Nat) (hn : 1 ≤ data.length ∧ data.length ≤ 192)
    (hw : Written fs fs0 s d 1 b data) :
    ∃ r_w, r_w.length = 64 ∧ r_w.take data.length = data.take 64 ∧
      (FileSystem.mk (fs0.ldisk.put d 0 data.length) fs0.open_file_table).lseek (s : Int) 0
        = some ((FileSystem.mk (fs0.ldisk.put d 0 data.length) fs0.open_file_table).set_oft s
            ⟨r_w, (d : Int), 0, b⟩, 0) := by
  have hb0 : b ≠ 0 := by have := h.block; omega
  obtain ⟨blk, _, _, hblk, hblk_take⟩ := hw.chunk 0 (by omega)
  rw [Nat.add_zero, hw.first_block h] at hblk
  rw [Nat.mul_zero, Nat.sub_zero, List.drop_zero] at hblk_take
  have hoft : (FileSystem.mk (fs0.ldisk.put d 0 data.length) fs0.open_file_table).oft s
      = fs0.oft s := rfl
  have hsize : ((fs0.ldisk.put d 0 data.length).get_descriptor (d : Int)).getD 0 0
      = data.length := by
    have := field_after_write h hw hn.2 0 (by omega)
    rw [if_pos rfl] at this
    exact this
  have hfirst : ((fs0.ldisk.put d 0 data.length).get_descriptor (d : Int)).getD 1 0 = b := by
    have := field_after_write h hw hn.2 1 (by omega)
    rw [if_neg (by omega), hw.first_block h] at this
    exact this
  have hpos : (0 : Int) < ((data.length : Nat) : Int) := by omega
  by_cases hold : b = (fs0.oft s).buffer_block
  · -- the buffer still holds the first block
    have hq : (data.length - 1) / 64 = 0 := by
      by_contra hc
      have hfr := hw.fresh ((data.length - 1) / 64) (by omega) (by omega)
      rw [← hw.last_block, ← hold, h.allocated] at hfr
      cases hfr
    refine ⟨(fs0.oft s).r_w, hw.buffer, ?_, ?_⟩
    · have := hw.last_buffer
      rw [hq, Nat.mul_zero, Nat.sub_zero, List.drop_zero] at this
      rw [this, List.take_of_length_le (by omega)]
    · unfold FileSystem.lseek
      rw [is_oft_entry_user _ s d (by have := h.slot; omega) (by rw [hoft]; exact hw.index)]
      simp only [if_true, Int.toNat_ofNat, Option.bind_eq_bind]
      rw [hoft, hw.index, hsize, if_pos hpos]
      have e1 : FileSystem.lseek_block_index 0 = 1 := rfl
      rw [e1, hfirst, ← hold]
      simp only [ne_eq, hb0, not_false_eq_true, if_true, not_true_eq_false, if_false,
        Option.some_bind]
      simp
  · -- the first block is read in again
    refine ⟨blk, read_block_length _ _ _ hblk, hblk_take, ?_⟩
    unfold FileSystem.lseek
    rw [is_oft_entry_user _ s d (by have := h.slot; omega) (by rw [hoft]; exact hw.index)]
    simp only [if_true, Int.toNat_ofNat, Option.bind_eq_bind]
    rw [hoft, hw.index, hsize, if_pos hpos]
    have e1 : FileSystem.lseek_block_index 0 = 1 := rfl
    rw [e1, hfirst]
    simp only [ne_eq, hb0, not_false_eq_true, if_true, hold, Option.some_bind]
    rw [read_block_put, hblk]
    simp

theorem read_after_seek (fs fs0 : FileSystem) (s d b : Nat) (h : JustOpened fs s d b)
    (data : List Nat) (hn : 1 ≤ data.length ∧ data.length ≤ 192) (hz : ∀ c ∈ data, c ≠ 0)
    (hw : Written fs fs0 s d 1 b data) (r_w : List Nat) (hr : r_w.length = 64)
    (ht : r_w.take data.length = data.take 64) (out : List Nat) :
    ∃ fs3, ((FileSystem.mk (fs0.ldisk.put d 0 data.length) fs0.open_file_table).set_oft s
        ⟨r_w, (d : Int), 0, b⟩).read (s : Int) out (data.length : Int)
      = some (fs3, out ++ data, (data.length : Int)) := by
  have hb0 : b ≠ 0 := by have := h.block; omega
  have hdata : data ≠ [] := by
    intro hc; rw [hc] at hn; simp at hn
  have hslt : s < (FileSystem.mk (fs0.ldisk.put d 0 data.length)
      fs0.open_file_table).open_file_table.length := by
    show s < fs0.open_file_table.length
    rw [hw.wf.oft_length]; have := h.slot; omega
  obtain ⟨fs2, hfs2⟩ : ∃ x : FileSystem, x = (FileSystem.mk (fs0.ldisk.put d 0 data.length)
      fs0.open_file_table).set_oft s ⟨r_w, (d : Int), 0, b⟩ := ⟨_, rfl⟩
  have hoft2 : fs2.oft s = ⟨r_w, (d : Int), 0, b⟩ := by
    rw [hfs2]; exact oft_set_oft_same _ _ _ hslt
  have hld2 : fs2.ldisk = fs0.ldisk.put d 0 data.length := by rw [hfs2]; rfl
  have hfd : ∀ i, 1 ≤ i → i ≤ 3 →
      (fs2.ldisk.get_descriptor (d : Int)).getD i 0 = fs0.ldisk.field d i := by
    intro i h1 h3
    have := field_after_write h hw hn.2 i h3
    rw [if_neg (by omega)] at this
    rw [hld2]
    exact this
  obtain ⟨fs3, hloop⟩ := read_loop_spec s (fs2.ldisk.get_descriptor (d : Int)) 2 fs2 data 1 4
    out 0 rfl (le_refl 1) (by omega) (by rw [hfs2, length_set_oft]; exact hslt)
    (by rw [hoft2]) (by rw [hoft2]; exact hr) (by rw [hoft2]; exact ht) hdata (by omega) hz
    (by
      intro t ht1 ht
      obtain ⟨blk, c1, _, c3, c4⟩ := hw.chunk t ht
      rw [hfd (1 + t) (by omega) (by omega)]
      refine ⟨by omega, blk, ?_, c4⟩
      rw [hld2, read_block_put]
      exact c3)
  refine ⟨fs3, ?_⟩
  rw [← hfs2]
  unfold FileSystem.read
  rw [is_oft_entry_user fs2 s d (by have := h.slot; omega) (by rw [hoft2])]
  simp only [if_true, Int.toNat_ofNat, Option.bind_eq_bind]
  rw [hoft2]
  simp only []
  rw [find_block_index_first _ b (by rw [hfd 1 (le_refl 1) (by omega)]; exact hw.first_block h)
    (by rw [hfd 2 (by omega) (by omega)]; exact hw.later_block_ne h 2 (le_refl 2) (by omega))
    (by rw [hfd 3 (by omega) (le_refl 3)]; exact hw.later_block_ne h 3 (by omega) (le_refl 3))]
  have hpos : (0 : Int) < ((data.length : Nat) : Int) := by omega
  rw [if_pos hpos, hloop]
  simp only [Option.some_bind, Nat.zero_add]

/-- The write/seek/read round trip when the slot holds the descriptor of the new
file.  For a user slot `s` that holds descriptor `d` with the sentinel size 1
and the single block `b`, with `b` in the buffer at position 0 (what `open`
leaves when it reads the directory entry of the new file correctly, which it
does not always do), and for data of length `n` with
`1 ≤ n ≤ 192` without a zero byte, on a disk whose bitmap still has the
`(n - 1) / 64` further free blocks: `write(s, data)` returns `n`, `lseek(s, 0)`
then succeeds and returns position 0, and `read(s, out, n)` then returns `n`
and leaves `out ++ data` in the memory area. -/
theorem write_seek_read_round_trip (fs : FileSystem) (s d b : Nat) (h : JustOpened fs s d b)
    (data out : List Nat) (hn : 1 ≤ data.length ∧ data.length ≤ 192)
    (hz : ∀ c ∈ data, 1 ≤ c ∧ c ≤ 255)
    (hfree : (data.length - 1) / 64 ≤ fs.ldisk.free_blocks) :
    ∃ fs1 fs2 fs3, fs.write (s : Int) data = some (fs1, (data.length : Int)) ∧
      fs1.lseek (s : Int) 0 = some (fs2, 0) ∧
      fs2.read (s : Int) out (data.length : Int) = some (fs3, out ++ data, (data.length : Int)) := by
  obtain ⟨fs0, hw, hwrite⟩ := write_just_opened fs s d b h data hn
    (fun c hc => by have := hz c hc; omega) hfree
  obtain ⟨r_w, hr, ht, hseek⟩ := lseek_after_write fs fs0 s d b h data hn hw
  obtain ⟨fs3, hread⟩ := read_after_seek fs fs0 s d b h data hn
    (fun c hc => by have := hz c hc; omega) hw r_w hr ht out
  exact ⟨_, _, fs3, hwrite, hseek, hread⟩

/-- The state after `create("a")` and `open("a")` on the fresh disk: the sizes
of the arrays, bit 10 of the bitmap, the number of free blocks, the length of
the buffer of slot 1, descriptor 1, and index, position and block of slot 1. -/
theorem just_opened_file :
    (run [Op.create [97], Op.open [97]] FileSystem.fresh).map (fun fs =>
      ([fs.ldisk.ldisk.length, fs.ldisk.cache.length, fs.open_file_table.length,
          bit (fs.ldisk.cache.getD 0 0) 10, fs.ldisk.free_blocks, (fs.oft 1).r_w.length],
        fs.ldisk.get_descriptor ((1 : Nat) : Int),
        [(fs.oft 1).index, (fs.oft 1).buffer_index, ((fs.oft 1).buffer_block : Int)]))
      = some ([64, 7, 4, 1, 53, 64], [1, 10, 0, 0], [1, 0, 10]) := by
  decide!

/-- An instance of the round trip: after `create("a")` and `open("a")` on the
fresh disk the file is in slot 1 with descriptor 1 and block 10; 70 characters
`x` written there come back after `lseek(1, 0)`. -/
theorem write_seek_read_round_trip_witness :
    JustOpened ((run [Op.create [97], Op.open [97]] FileSystem.fresh).getD FileSystem.fresh)
        1 1 10 ∧
      ∃ fs1 fs2 fs3,
        ((run [Op.create [97], Op.open [97]] FileSystem.fresh).getD FileSystem.fresh).write
            ((1 : Nat) : Int) (List.replicate 70 120)
          = some (fs1, (((List.replicate 70 120).length : Nat) : Int)) ∧
        fs1.lseek ((1 : Nat) : Int) 0 = some (fs2, 0) ∧
        fs2.read ((1 : Nat) : Int) [] (((List.replicate 70 120).length : Nat) : Int)
          = some (fs3, [] ++ List.replicate 70 120,
              (((List.replicate 70 120).length : Nat) : Int)) := by
  obtain ⟨fs, hfs, hv⟩ := Option.map_eq_some'.1 just_opened_file
  have e : (run [Op.create [97], Op.open [97]] FileSystem.fresh).getD FileSystem.fresh = fs := by
    rw [hfs]; rfl
  rw [e]
  simp only [Prod.mk.injEq, List.cons.injEq, and_true] at hv
  obtain ⟨⟨h1, h2, h3, h4, h5, h6⟩, h7, h8, h9, h10⟩ := hv
  have hj : JustOpened fs 1 1 10 :=
    ⟨⟨h1, h2, h3⟩, by decide, by decide, by decide, h4, h7, by rw [h8]; rfl, h9,
      by omega, h6⟩
  exact ⟨hj, write_seek_read_round_trip fs 1 1 10 hj (List.replicate 70 120) []
    (by rw [List.length_replicate]; decide)
    (fun c hc => by rw [List.eq_of_mem_replicate hc]; decide)
    (by rw [h5, List.length_replicate]; decide)⟩

/-! ## Scans of a directory block -/

theorem isInteger_digit (i : Nat) (h : i ≤ 9) : isInteger (48 + i) = true := by
  rw [isInteger_iff]; omega

theorem directory_scan_name (nm : List Nat) (hv : ∀ c ∈ nm, c ≠ 0 ∧ isInteger c = false) :
    ∀ (rest : List Nat) (acc : List (List Nat)) (cur : List Nat),
      FileSystem.directory_scan (nm ++ rest) acc cur
        = FileSystem.directory_scan rest acc (cur ++ nm) := by
  induction nm with
  | nil => intro rest acc cur; simp
  | cons c nm ih =>
    intro rest acc cur
    obtain ⟨h0, hd⟩ := hv c (List.mem_cons_self _ _)
    rw [List.cons_append, FileSystem.directory_scan, if_pos h0, hd]
    simp only [Bool.false_eq_true, if_false]
    rw [ih (fun c hc => hv c (List.mem_cons_of_mem _ hc))]
    simp

theorem directory_scan_zeros (n : Nat) (rest : List Nat) (acc : List (List Nat))
    (cur : List Nat) :
    FileSystem.directory_scan (List.replicate n 0 ++ rest) acc cur
      = FileSystem.directory_scan rest acc cur := by
  induction n with
  | zero => simp
  | succ n ih =>
    rw [List.replicate_succ, List.cons_append, FileSystem.directory_scan]
    simp only [ne_eq, not_true_eq_false, if_false]
    exact ih

theorem directory_scan_entries :
    ∀ (names : List (List Nat)) (i : Nat) (rest : List Nat) (acc : List (List Nat)),
      (∀ nm ∈ names, ∀ c ∈ nm, c ≠ 0 ∧ isInteger c = false) → i + names.length ≤ 10 →
      FileSystem.directory_scan (dir_bytes i names ++ rest) acc []
        = FileSystem.directory_scan rest (acc ++ names) [] := by
  intro names
  induction names with
  | nil => intro i rest acc _ _; simp [dir_bytes]
  | cons nm names ih =>
    intro i rest acc hv hi
    simp only [List.length_cons] at hi
    rw [dir_bytes, List.append_assoc,
      directory_scan_name nm (hv nm (List.mem_cons_self _ _)), List.cons_append,
      FileSystem.directory_scan]
    have h0 : 48 + i ≠ 0 := by omega
    rw [if_pos h0, isInteger_digit i (by omega)]
    simp only [if_true, List.nil_append]
    rw [ih (i + 1) rest _ (fun n hn => hv n (List.mem_cons_of_mem _ hn)) (by omega)]
    simp

theorem find_entry_scan_name (fn nm : List Nat) (hv : ∀ c ∈ nm, c ≠ 0 ∧ isInteger c = false) :
    ∀ (rest : List Nat) (j : Int) (ss : List Nat),
      FileSystem.find_entry_scan fn (nm ++ rest) j ss
        = FileSystem.find_entry_scan fn rest (j + nm.length) (ss ++ nm) := by
  induction nm with
  | nil => intro rest j ss; simp
  | cons c nm ih =>
    intro rest j ss
    obtain ⟨h0, hd⟩ := hv c (List.mem_cons_self _ _)
    rw [List.cons_append, FileSystem.find_entry_scan, if_pos h0, hd]
    simp only [Bool.false_eq_true, if_false]
    rw [ih (fun c hc => hv c (List.mem_cons_of_mem _ hc))]
    simp only [List.length_cons, List.append_assoc, List.singleton_append]
    congr 1
    push_cast
    ring

theorem find_entry_scan_zeros (fn : List Nat) (n : Nat) :
    ∀ (rest : List Nat) (j : Int) (ss : List Nat),
      FileSystem.find_entry_scan fn (List.replicate n 0 ++ rest) j ss
        = FileSystem.find_entry_scan fn rest (j + n) ss := by
  induction n with
  | zero => intro rest j ss; simp
  | succ n ih =>
    intro rest j ss
    rw [List.replicate_succ, List.cons_append, FileSystem.find_entry_scan]
    simp only [ne_eq, not_true_eq_false, if_false]
    rw [ih]
    congr 1
    push_cast
    ring

theorem find_entry_scan_miss (fn : List Nat) :
    ∀ (names : List (List Nat)) (i : Nat) (rest : List Nat) (j : Int),
      (∀ nm ∈ names, ∀ c ∈ nm, c ≠ 0 ∧ isInteger c = false) → i + names.length ≤ 10 →
      fn ∉ names →
      FileSystem.find_entry_scan fn (dir_bytes i names ++ rest) j []
        = FileSystem.find_entry_scan fn rest (j + (dir_bytes i names).length) [] := by
  intro names
  induction names with
  | nil => intro i rest j _ _ _; simp [dir_bytes]
  | cons nm names ih =>
    intro i rest j hv hi hfn
    simp only [List.length_cons] at hi
    rw [dir_bytes, List.append_assoc,
      find_entry_scan_name fn nm (hv nm (List.mem_cons_self _ _)), List.cons_append,
      FileSystem.find_entry_scan]
    have h0 : 48 + i ≠ 0 := by omega
    have hne : ¬ ([] ++ nm = fn) := by
      intro hc
      apply hfn
      rw [← hc]
      simp
    rw [if_pos h0, isInteger_digit i (by omega)]
    simp only [if_true]
    rw [if_neg hne, ih (i + 1) rest _ (fun n hn => hv n (List.mem_cons_of_mem _ hn)) (by omega)
      (fun hc => hfn (List.mem_cons_of_mem _ hc))]
    congr 1
    simp only [List.length_append, List.length_cons]
    push_cast
    ring

theorem find_entry_scan_hit (fn : List Nat) (hv : ∀ c ∈ fn, c ≠ 0 ∧ isInteger c = false)
    (i : Nat) (hi : i ≤ 9) (rest : List Nat) (j : Int) :
    FileSystem.find_entry_scan fn (fn ++ (48 + i) :: rest) j [] = Sum.inl j := by
  rw [find_entry_scan_name fn fn hv, FileSystem.find_entry_scan]
  have h0 : 48 + i ≠ 0 := by omega
  rw [if_pos h0, isInteger_digit i hi]
  simp only [if_true, List.nil_append]
  congr 1
  omega

/-! ## The directory blocks -/

theorem SameButDir.refl (fs : FileSystem) : SameButDir fs fs := ⟨rfl, rfl, rfl, fun _ _ => rfl⟩

theorem SameButDir.trans {a b c : FileSystem} (h1 : SameButDir a b) (h2 : SameButDir b c) :
    SameButDir a c :=
  ⟨h2.ldisk.trans h1.ldisk, h2.length.trans h1.length, h2.dir_index.trans h1.dir_index,
    fun j hj => (h2.others j hj).trans (h1.others j hj)⟩

theorem SameButDir.set_dir (fs : FileSystem) (e : FILE_TABLE)
    (hl : 0 < fs.open_file_table.length) (he : e.index = (fs.oft 0).index) :
    SameButDir fs (fs.set_oft 0 e) :=
  ⟨rfl, length_set_oft _ _ _, by rw [oft_set_oft_same _ _ _ hl]; exact he,
    fun j hj => oft_set_oft_ne _ _ _ _ (by omega)⟩

theorem SameButDir.wf {fs fs1 : FileSystem} (h : SameButDir fs fs1) (hw : WellFormed fs) :
    WellFormed fs1 :=
  ⟨by rw [h.ldisk]; exact hw.ldisk_length, by rw [h.ldisk]; exact hw.cache_length,
    by rw [h.length]; exact hw.oft_length⟩

theorem SameButDir.blocks {fs fs1 : FileSystem} {blk : List Nat} (h : SameButDir fs fs1)
    (hb : DirBlocks fs blk) : DirBlocks fs1 blk :=
  ⟨h.wf hb.wf, by rw [h.dir_index]; exact hb.dir_index, by rw [h.ldisk]; exact hb.dir_desc,
    hb.length, by rw [h.ldisk]; exact hb.block1, by rw [h.ldisk]; exact hb.block2,
    by rw [h.ldisk]; exact hb.block3⟩

theorem SameButDir.state {fs fs1 : FileSystem} {names : List (List Nat)}
    (h : SameButDir fs fs1) (hs : DirState fs names) : DirState fs1 names :=
  ⟨by rw [h.ldisk]; exact hs.inv, h.blocks hs.blocks,
    fun j h1 h3 => by rw [h.others j h1]; exact hs.closed j h1 h3,
    by rw [h.ldisk]; exact hs.used, by rw [h.ldisk]; exact hs.unused,
    by rw [h.ldisk]; exact hs.free⟩

theorem DirBlocks.slot {fs : FileSystem} {blk : List Nat} (h : DirBlocks fs blk) (k : Nat)
    (h1 : 1 ≤ k) (h3 : k ≤ 3) :
    (fs.ldisk.get_descriptor (fs.oft 0).index).getD k 0 = 6 + k := by
  rw [h.dir_index]
  exact h.dir_desc k h1 h3

theorem DirBlocks.oft_pos {fs : FileSystem} {blk : List Nat} (h : DirBlocks fs blk) :
    0 < fs.open_file_table.length := by
  rw [h.wf.oft_length]; decide

theorem find_entry_scan_empty (fn ss : List Nat) :
    FileSystem.find_entry_scan fn (List.replicate 64 0) 0 ss = Sum.inr ss := by
  have := find_entry_scan_zeros fn 64 [] 0 ss
  rw [List.append_nil] at this
  rw [this]
  rfl

theorem find_directory_entry_hit (fs : FileSystem) (blk fn : List Nat) (loc : Int)
    (h : DirBlocks fs blk) (hscan : FileSystem.find_entry_scan fn blk 0 [] = Sum.inl loc) :
    fs.find_directory_entry fn
      = some (fs.set_oft 0 ⟨blk, (fs.oft 0).index, (fs.oft 0).buffer_index, 7⟩, loc) := by
  unfold FileSystem.find_directory_entry
  simp only [FileSystem.find_entry_blocks, Option.bind_eq_bind]
  rw [h.slot 1 (le_refl 1) (by omega), h.block1]
  simp only [Option.some_bind]
  rw [List.take_of_length_le (by rw [h.length]), hscan]

theorem find_directory_entry_miss (fs : FileSystem) (blk fn : List Nat)
    (h : DirBlocks fs blk) (hscan : FileSystem.find_entry_scan fn blk 0 [] = Sum.inr []) :
    ∃ fs1, fs.find_directory_entry fn = some (fs1, -1) ∧ SameButDir fs fs1 := by
  have hz : (List.replicate 64 0).take 64 = List.replicate 64 (0 : Nat) :=
    List.take_of_length_le (by simp)
  have s1 := SameButDir.set_dir fs ⟨blk, (fs.oft 0).index, (fs.oft 0).buffer_index, 7⟩
    h.oft_pos rfl
  have hl1 : 0 < (fs.set_oft 0 ⟨blk, (fs.oft 0).index, (fs.oft 0).buffer_index,
      7⟩).open_file_table.length := by rw [length_set_oft]; exact h.oft_pos
  have s2 := SameButDir.set_dir _ ⟨List.replicate 64 0, ((fs.set_oft 0 ⟨blk, (fs.oft 0).index,
    (fs.oft 0).buffer_index, 7⟩).oft 0).index, ((fs.set_oft 0 ⟨blk, (fs.oft 0).index,
    (fs.oft 0).buffer_index, 7⟩).oft 0).buffer_index, 8⟩ hl1 rfl
  have hl2 := hl1
  rw [← s2.length] at hl2
  have s3 := SameButDir.set_dir _ ⟨List.replicate 64 0, (((fs.set_oft 0 ⟨blk, (fs.oft 0).index,
    (fs.oft 0).buffer_index, 7⟩).set_oft 0 ⟨List.replicate 64 0, ((fs.set_oft 0 ⟨blk,
    (fs.oft 0).index, (fs.oft 0).buffer_index, 7⟩).oft 0).index, ((fs.set_oft 0 ⟨blk,
    (fs.oft 0).index, (fs.oft 0).buffer_index, 7⟩).oft 0).buffer_index, 8⟩).oft 0).index,
    (((fs.set_oft 0 ⟨blk, (fs.oft 0).index,
    (fs.oft 0).buffer_index, 7⟩).set_oft 0 ⟨List.replicate 64 0, ((fs.set_oft 0 ⟨blk,
    (fs.oft 0).index, (fs.oft 0).buffer_index, 7⟩).oft 0).index, ((fs.set_oft 0 ⟨blk,
    (fs.oft 0).index, (fs.oft 0).buffer_index, 7⟩).oft 0).buffer_index, 8⟩).oft 0).buffer_index,
    9⟩ hl2 rfl
  refine ⟨_, ?_, (s1.trans s2).trans s3⟩
  unfold FileSystem.find_directory_entry
  simp only [FileSystem.find_entry_blocks, Option.bind_eq_bind]
  rw [h.slot 1 (le_refl 1) (by omega), h.slot 2 (by omega) (by omega),
    h.slot 3 (by omega) (le_refl 3), h.block1]
  simp only [Option.some_bind]
  rw [List.take_of_length_le (by rw [h.length]), hscan]
  simp only [ldisk_set_oft]
  rw [h.block2]
  simp only [Option.some_bind]
  rw [hz, find_entry_scan_empty]
  simp only [ldisk_set_oft]
  rw [h.block3]
  simp only [Option.some_bind]
  rw [hz, find_entry_scan_empty]

theorem directory_scan_empty (acc : List (List Nat)) (cur : List Nat) :
    FileSystem.directory_scan (List.replicate 64 0) acc cur = (acc, cur) := by
  have := directory_scan_zeros 64 [] acc cur
  rw [List.append_nil] at this
  rw [this]
  rfl

theorem directory_blocks_same (dd : List Nat) :
    ∀ (l : List Nat) (fs : FileSystem) (acc : List (List Nat)) (cur : List Nat)
      (r : FileSystem × List (List Nat) × List Nat), 0 < fs.open_file_table.length →
      FileSystem.directory_blocks dd l fs acc cur = some r → SameButDir fs r.1 := by
  intro l
  induction l with
  | nil =>
    intro fs acc cur r _ h
    simp only [FileSystem.directory_blocks, Option.some.injEq] at h
    rw [← h]
    exact SameButDir.refl fs
  | cons b rest ih =>
    intro fs acc cur r hl h
    simp only [FileSystem.directory_blocks, Option.bind_eq_bind, Option.bind_eq_some] at h
    obtain ⟨r_w, _, h⟩ := h
    have hl1 : 0 < (fs.set_oft 0 ⟨r_w, (fs.oft 0).index, (fs.oft 0).buffer_index,
        dd.getD b 0⟩).open_file_table.length := by rw [length_set_oft]; exact hl
    have s2 := ih _ _ _ r hl1 h
    exact SameButDir.trans (SameButDir.set_dir fs ⟨r_w, (fs.oft 0).index,
      (fs.oft 0).buffer_index, dd.getD b 0⟩ hl rfl) s2

theorem directory_of_blocks (fs : FileSystem) (blk : List Nat) (h : DirBlocks fs blk) :
    ∃ fs1, fs.directory = some (fs1, (FileSystem.directory_scan blk [] []).1) ∧
      SameButDir fs fs1 := by
  have hz : (List.replicate 64 0).take 64 = List.replicate 64 (0 : Nat) :=
    List.take_of_length_le (by simp)
  have hcomp : ∃ fs1, fs.directory = some (fs1, (FileSystem.directory_scan blk [] []).1) := by
    refine ⟨?wit, ?heq⟩
    case heq =>
      unfold FileSystem.directory
      simp only [FileSystem.directory_blocks, Option.bind_eq_bind]
      rw [h.slot 1 (le_refl 1) (by omega), h.slot 2 (by omega) (by omega),
        h.slot 3 (by omega) (le_refl 3), h.block1]
      simp only [Option.some_bind]
      rw [List.take_of_length_le (by rw [h.length])]
      simp only [ldisk_set_oft]
      rw [h.block2]
      simp only [Option.some_bind]
      rw [hz, directory_scan_empty]
      simp only [ldisk_set_oft]
      rw [h.block3]
      simp only [Option.some_bind]
      rw [hz, directory_scan_empty]
      exact rfl
  obtain ⟨fs1, h1⟩ := hcomp
  refine ⟨fs1, h1, ?_⟩
  unfold FileSystem.directory at h1
  simp only [Option.bind_eq_bind, Option.bind_eq_some] at h1
  obtain ⟨r, hr, h1⟩ := h1
  have := directory_blocks_same _ _ _ _ _ r h.oft_pos hr
  simp only [Option.some.injEq, Prod.mk.injEq] at h1
  rw [← h1.1]
  exact this

/-! ## The characters of the entries -/

theorem dir_bytes_append :
    ∀ (a b : List (List Nat)) (i : Nat),
      dir_bytes i (a ++ b) = dir_bytes i a ++ dir_bytes (i + a.length) b := by
  intro a
  induction a with
  | nil => intro b i; simp [dir_bytes]
  | cons nm a ih =>
    intro b i
    rw [List.cons_append, dir_bytes, dir_bytes, ih b (i + 1), List.length_cons]
    have e : i + 1 + a.length = i + (a.length + 1) := by omega
    rw [e]
    simp

theorem dir_bytes_length_le :
    ∀ (names : List (List Nat)) (i : Nat), (∀ nm ∈ names, nm.length ≤ 4) →
      (dir_bytes i names).length ≤ 5 * names.length := by
  intro names
  induction names with
  | nil => intro i _; simp [dir_bytes]
  | cons nm names ih =>
    intro i h
    have h1 := h nm (List.mem_cons_self _ _)
    have h2 := ih (i + 1) (fun n hn => h n (List.mem_cons_of_mem _ hn))
    rw [dir_bytes, List.length_append, List.length_cons, List.length_cons]
    omega

theorem dir_bytes_bounds :
    ∀ (names : List (List Nat)) (i : Nat), (∀ nm ∈ names, ∀ c ∈ nm, 1 ≤ c ∧ c ≤ 127) →
      i + names.length ≤ 10 → ∀ c ∈ dir_bytes i names, c ≠ 0 ∧ c < 256 := by
  intro names
  induction names with
  | nil => intro i _ _ c hc; simp [dir_bytes] at hc
  | cons nm names ih =>
    intro i h hi c hc
    simp only [List.length_cons] at hi
    rw [dir_bytes, List.mem_append, List.mem_cons] at hc
    rcases hc with hc | hc | hc
    · have := h nm (List.mem_cons_self _ _) c hc
      omega
    · omega
    · exact ih (i + 1) (fun n hn => h n (List.mem_cons_of_mem _ hn)) (by omega) c hc

/-! ## Insertion of an entry -/

theorem find_open_entry_first :
    ∀ (l rest : List Nat) (j : Nat), (∀ c ∈ l, c ≠ 0) →
      FileSystem.find_open_entry (l ++ 0 :: rest) j = some (j + l.length) := by
  intro l
  induction l with
  | nil => intro rest j _; simp [FileSystem.find_open_entry]
  | cons c l ih =>
    intro rest j h
    rw [List.cons_append, FileSystem.find_open_entry,
      if_neg (h c (List.mem_cons_self _ _)), ih rest (j + 1) (fun x hx => h x (List.mem_cons_of_mem _ hx)),
      List.length_cons]
    congr 1
    omega

theorem insert_into_buffer_spec :
    ∀ (data pre suf : List Nat), pre.length + data.length ≤ 64 → data.length ≤ suf.length →
      FileSystem.insert_into_buffer data (pre ++ suf) pre.length
        = some (pre ++ data ++ suf.drop data.length) := by
  intro data
  induction data with
  | nil => intro pre suf _ _; simp [FileSystem.insert_into_buffer]
  | cons c data ih =>
    intro pre suf h1 h2
    cases suf with
    | nil => simp at h2
    | cons x suf =>
      simp only [List.length_cons] at h1 h2
      have hp : pre.length < 64 := by omega
      rw [FileSystem.insert_into_buffer, if_pos hp]
      have e1 : (pre ++ x :: suf).set pre.length c = (pre ++ [c]) ++ suf := by
        rw [List.set_append_right _ _ (le_refl _)]
        simp
      have e2 : pre.length + 1 = (pre ++ [c]).length := by simp
      rw [e1, e2, ih (pre ++ [c]) suf (by simp; omega) (by omega)]
      simp

theorem decimal_digits_one (d : Nat) (h : d < 10) :
    FileSystem.decimal_digits (d + 1) d = [48 + d] := by
  rw [FileSystem.decimal_digits, if_pos h]

/-! ## `defrag_block` -/

theorem defrag_copy (block : List Nat) :
    ∀ n, n ≤ 64 →
      ((List.range n).foldl
          (fun nb i => if block.getD i 0 ≠ 0 then nb.set i (block.getD i 0) else nb)
          (List.replicate 64 0)).length = 64 ∧
      ∀ i, ((List.range n).foldl
          (fun nb i => if block.getD i 0 ≠ 0 then nb.set i (block.getD i 0) else nb)
          (List.replicate 64 0)).getD i 0 = if i < n then block.getD i 0 else 0 := by
  intro n
  induction n with
  | zero =>
    intro _
    refine ⟨by simp, ?_⟩
    intro i
    simp only [List.range_zero, List.foldl_nil, Nat.not_lt_zero, if_false]
    rw [List.getD_eq_getElem?_getD, List.getElem?_replicate]
    split <;> rfl
  | succ n ih =>
    intro hn
    obtain ⟨hl, hg⟩ := ih (by omega)
    rw [List.range_succ, List.foldl_append]
    simp only [List.foldl_cons, List.foldl_nil]
    by_cases h0 : block.getD n 0 ≠ 0
    · rw [if_pos h0]
      refine ⟨by rw [List.length_set]; exact hl, ?_⟩
      intro i
      rw [getD_set_any, hg i]
      by_cases hin : n = i
      · subst hin
        rw [if_pos ⟨rfl, by omega⟩, if_pos (by omega)]
      · rw [if_neg (fun c => hin c.1)]
        by_cases hlt : i < n
        · rw [if_pos hlt, if_pos (by omega)]
        · rw [if_neg hlt, if_neg (by omega)]
    · rw [if_neg h0]
      refine ⟨hl, ?_⟩
      intro i
      rw [hg i]
      by_cases hin : n = i
      · subst hin
        rw [if_neg (by omega), if_pos (by omega)]
        simp only [ne_eq, not_not] at h0
        exact h0.symm
      · by_cases hlt : i < n
        · rw [if_pos hlt, if_pos (by omega)]
        · rw [if_neg hlt, if_neg (by omega)]

theorem defrag_write_back (block nb : List Nat) (h : ∀ i, i < 64 → nb.getD i 0 = block.getD i 0) :
    ∀ n, n ≤ 64 → n ≤ block.length →
      (List.range n).foldl (fun b i => b.set i (nb.getD i 0)) block = block := by
  intro n
  induction n with
  | zero => intro _ _; rfl
  | succ n ih =>
    intro hn hb
    rw [List.range_succ, List.foldl_append, ih (by omega) (by omega)]
    simp only [List.foldl_cons, List.foldl_nil]
    rw [h n (by omega)]
    apply List.ext_getElem
    · simp
    · intro i h1 h2
      rw [List.getElem_set]
      split
      · rename_i hni
        subst hni
        rw [List.getD_eq_getElem _ _ (by omega)]
      · rfl

theorem defrag_block_eq (block : List Nat) (h : block.length = 64) :
    FileSystem.defrag_block block = block := by
  unfold FileSystem.defrag_block
  simp only []
  apply defrag_write_back block _ _ 64 (le_refl _) (by omega)
  intro i hi
  rw [(defrag_copy block 64 (le_refl _)).2 i, if_pos hi]

/-! ## `create` on the directory state -/

theorem ValidName.chars {fn : List Nat} (h : ValidName fn) :
    ∀ c ∈ fn, c ≠ 0 ∧ isInteger c = false := by
  intro c hc
  have := h.2.2 c hc
  exact ⟨by omega, this.2.2⟩

theorem ValidName.bounds {fn : List Nat} (h : ValidName fn) : ∀ c ∈ fn, 1 ≤ c ∧ c ≤ 127 := by
  intro c hc
  have := h.2.2 c hc
  exact ⟨this.1, this.2.1⟩

theorem create_directory_entry_spec (fs : FileSystem) (B fn : List Nat) (d : Nat)
    (hb : DirBlocks fs (B ++ List.replicate (64 - B.length) 0)) (hB : ∀ c ∈ B, c ≠ 0)
    (hlen : B.length + fn.length + 1 ≤ 64) (hd : d < 10) :
    ∃ fs1, fs.create_directory_entry fn (d : Int) = some fs1 ∧
      SameButDir (FileSystem.mk (fs.ldisk.store 7
        (B ++ (fn ++ [48 + d]) ++ List.replicate (64 - B.length - (fn.length + 1)) 0))
        fs.open_file_table) fs1 := by
  have hsplit : List.replicate (64 - B.length) 0
      = (0 : Nat) :: List.replicate (63 - B.length) 0 := by
    have : 64 - B.length = (63 - B.length) + 1 := by omega
    rw [this, List.replicate_succ]
  have hopen : FileSystem.find_open_entry (B ++ List.replicate (64 - B.length) 0) 0
      = some B.length := by
    rw [hsplit, find_open_entry_first B _ 0 hB, Nat.zero_add]
  have hins : FileSystem.insert_into_buffer (fn ++ [48 + d])
      (B ++ List.replicate (64 - B.length) 0) B.length
      = some (B ++ (fn ++ [48 + d]) ++ List.replicate (64 - B.length - (fn.length + 1)) 0) := by
    rw [insert_into_buffer_spec _ B _ (by simp; omega) (by simp; omega)]
    simp
  have hcomp : ∃ fs1, fs.create_directory_entry fn (d : Int) = some fs1 ∧
      fs1.ldisk = fs.ldisk.store 7
        (B ++ (fn ++ [48 + d]) ++ List.replicate (64 - B.length - (fn.length + 1)) 0) ∧
      SameButDir fs (FileSystem.mk fs.ldisk fs1.open_file_table) := by
    refine ⟨?wit, ?heq, ?hld, ?hsame⟩
    case heq =>
      unfold FileSystem.create_directory_entry
      simp only [Int.toNat_ofNat, FileSystem.create_entry_blocks, Option.bind_eq_bind]
      rw [decimal_digits_one d hd, hb.slot 1 (le_refl 1) (by omega), hb.block1]
      simp only [Option.some_bind]
      rw [List.take_of_length_le (by rw [hb.length]), hopen]
      simp only [Option.bind_eq_bind]
      rw [hins]
      simp only [Option.some_bind, ldisk_set_oft]
      rw [write_block_eq _ _ _ (by omega)]
      simp only [Option.some_bind]
      exact rfl
    case hld => rfl
    case hsame =>
      exact SameButDir.trans (SameButDir.set_dir fs ⟨B ++ List.replicate (64 - B.length) 0,
        (fs.oft 0).index, (fs.oft 0).buffer_index, 6 + 1⟩ hb.oft_pos rfl)
        (SameButDir.set_dir _ _ (by rw [length_set_oft]; exact hb.oft_pos) rfl)
  obtain ⟨fs1, h1, h2, h3⟩ := hcomp
  refine ⟨fs1, h1, ?_⟩
  exact ⟨h2, h3.length, h3.dir_index, h3.others⟩

theorem valid_chars (names : List (List Nat)) (hv : ∀ nm ∈ names, ValidName nm) :
    ∀ nm ∈ names, ∀ c ∈ nm, c ≠ 0 ∧ isInteger c = false :=
  fun nm hnm => (hv nm hnm).chars

theorem valid_bytes_length (names : List (List Nat)) (hv : ∀ nm ∈ names, ValidName nm)
    (i : Nat) : (dir_bytes i names).length ≤ 5 * names.length :=
  dir_bytes_length_le names i (fun nm hnm => (hv nm hnm).2.1)

theorem valid_bytes_bounds (names : List (List Nat)) (hv : ∀ nm ∈ names, ValidName nm)
    (i : Nat) (hi : i + names.length ≤ 10) : ∀ c ∈ dir_bytes i names, c ≠ 0 ∧ c < 256 :=
  dir_bytes_bounds names i (fun nm hnm => (hv nm hnm).bounds) hi

theorem find_entry_scan_new (names : List (List Nat)) (fn : List Nat)
    (hv : ∀ nm ∈ names, ValidName nm) (hk : names.length ≤ 9) (hnew : fn ∉ names) (n : Nat) :
    FileSystem.find_entry_scan fn (dir_bytes 1 names ++ List.replicate n 0) 0 []
      = Sum.inr [] := by
  rw [find_entry_scan_miss fn names 1 _ 0 (valid_chars names hv) (by omega) hnew]
  have := find_entry_scan_zeros fn n [] (0 + ((dir_bytes 1 names).length : Int)) []
  rw [List.append_nil] at this
  rw [this]
  rfl

theorem create_spec (fs : FileSystem) (names : List (List Nat)) (fn : List Nat)
    (hs : DirState fs names) (hvn : ∀ nm ∈ names, ValidName nm) (hv : ValidName fn)
    (hnew : fn ∉ names) (hk : names.length < 9) :
    ∃ fs1, fs.create fn = some (fs1, 0) ∧ DirState fs1 (names ++ [fn]) := by
  have hL := valid_bytes_length names hvn 1
  have hc : fs.ldisk.cache.length = 7 := hs.blocks.wf.cache_length
  obtain ⟨fsa, hfind, hsame⟩ := find_directory_entry_miss fs _ fn hs.blocks
    (find_entry_scan_new names fn hvn (by omega) hnew _)
  have hsa : DirState fsa names := hsame.state hs
  obtain ⟨b, hffb, hb7, hb63, hbit0, hfc⟩ := find_free_block_total fs.ldisk (by omega)
    (by have := hs.free; omega)
  have hcm : (fs.ldisk.mark b 1).cache.length = 7 := by rw [length_mark]; exact hc
  obtain ⟨r, hr, hcase⟩ := init_descriptor_spec (fs.ldisk.mark b 1) hcm b
  have hfm : ∀ e, e < 24 → (fs.ldisk.mark b 1).field e 0 = fs.ldisk.field e 0 :=
    fun e he => field_mark _ _ _ e 0 he (by omega)
  rcases hcase with ⟨_, hall⟩ | ⟨d, hd, hz, hbefore, hreq⟩
  · exfalso
    apply hall (names.length + 1) (by omega)
    rw [hfm _ (by omega)]
    exact hs.unused _ (by omega) (by omega)
  have hdk : d = names.length + 1 := by
    rw [hfm d hd] at hz
    have h1 : names.length < d := by
      by_contra hc
      exact hs.used d (by omega) hz
    have h2 : ¬ names.length + 1 < d := by
      intro hc
      apply hbefore _ hc
      rw [hfm _ (by omega)]
      exact hs.unused _ (by omega) (by omega)
    omega
  have hd0 : d ≠ 0 := by omega
  -- the state before the entry is written
  have hc1 : ((fs.ldisk.mark b 1).put d 0 1).cache.length = 7 := by rw [length_put]; exact hcm
  have hfield : ∀ e k, e < 24 → k ≤ 3 →
      (((fs.ldisk.mark b 1).put d 0 1).put d 1 b).field e k
        = if e = d ∧ k = 1 then b % 2 ^ 31 else if e = d ∧ k = 0 then 1 % 2 ^ 31
          else fs.ldisk.field e k := by
    intro e k he hk
    rw [field_put _ hc1 d 1 b e k hd (by omega) he hk, field_put _ hcm d 0 1 e k hd (by omega) he hk,
      field_mark _ _ _ e k he hk]
  have hb1 : DirBlocks (FileSystem.mk (((fs.ldisk.mark b 1).put d 0 1).put d 1 b)
      fsa.open_file_table)
      (dir_bytes 1 names ++ List.replicate (64 - (dir_bytes 1 names).length) 0) := by
    refine ⟨⟨hsa.blocks.wf.ldisk_length.symm ▸ ?_, by rw [length_put]; exact hc1,
      hsa.blocks.wf.oft_length⟩, hsa.blocks.dir_index, ?_, hsa.blocks.length, hs.blocks.block1,
      hs.blocks.block2, hs.blocks.block3⟩
    · rw [hsame.ldisk]; rfl
    · intro k h1 h3
      rw [hfield 0 k (by omega) h3, if_neg (fun hc => hd0 hc.1.symm),
        if_neg (fun hc => hd0 hc.1.symm)]
      exact hs.blocks.dir_desc k h1 h3
  have hB := valid_bytes_bounds names hvn 1 (by omega)
  obtain ⟨fs2, hentry, hsame2⟩ := create_directory_entry_spec _ (dir_bytes 1 names) fn d hb1
    (fun c hc => (hB c hc).1) (by have := hv.2.1; omega) (by omega)
  have hcreate : fs.create fn = some (fs2, 0) := by
    unfold FileSystem.create
    rw [if_pos hv.2.1]
    simp only [Option.bind_eq_bind]
    rw [hfind]
    simp only [Option.some_bind, if_true]
    rw [hsame.ldisk, hffb]
    simp only [Option.some_bind]
    rw [hr, hreq]
    simp only [Option.some_bind]
    have hne : ((d : Nat) : Int) ≠ -1 := by omega
    rw [if_pos hne, hentry]
    simp only [Option.some_bind]
  refine ⟨fs2, hcreate, ?_⟩
  have hbytes : dir_bytes 1 (names ++ [fn])
      = dir_bytes 1 names ++ (fn ++ [48 + d]) := by
    rw [dir_bytes_append, dir_bytes, dir_bytes, hdk, Nat.add_comm 1 names.length]
  have hblen : (dir_bytes 1 (names ++ [fn])).length
      = (dir_bytes 1 names).length + (fn.length + 1) := by
    rw [hbytes]; simp
  have hlt : ∀ c ∈ dir_bytes 1 (names ++ [fn]) ++
      List.replicate (64 - (dir_bytes 1 (names ++ [fn])).length) 0, c < 256 := by
    intro c hc
    rw [List.mem_append] at hc
    rcases hc with hc | hc
    · rw [hbytes, List.mem_append] at hc
      rcases hc with hc | hc
      · exact (hB c hc).2
      · rw [List.mem_append, List.mem_singleton] at hc
        rcases hc with hc | hc
        · have := hv.bounds c hc; omega
        · omega
    · rw [List.eq_of_mem_replicate hc]; decide
  have hnew_block : dir_bytes 1 names ++ (fn ++ [48 + d]) ++
      List.replicate (64 - (dir_bytes 1 names).length - (fn.length + 1)) 0
      = dir_bytes 1 (names ++ [fn]) ++
        List.replicate (64 - (dir_bytes 1 (names ++ [fn])).length) 0 := by
    rw [hblen, hbytes, Nat.sub_sub]
  rw [hnew_block] at hsame2
  have hl64 : (dir_bytes 1 (names ++ [fn]) ++
      List.replicate (64 - (dir_bytes 1 (names ++ [fn])).length) 0).length = 64 := by
    rw [List.length_append, List.length_replicate, hblen]
    have := hv.2.1
    omega
  have hld2 := hsame2.ldisk
  simp only [] at hld2
  refine ⟨create_BlockInv fs fn (fs2, 0) hcreate hs.inv, hsame2.blocks ?_, ?_, ?_, ?_, ?_⟩
  · refine ⟨⟨?_, hb1.wf.cache_length, hb1.wf.oft_length⟩, hb1.dir_index, hb1.dir_desc, hl64,
      ?_, (read_block_store_other _ 7 8 _ (by decide)).trans hb1.block2,
      (read_block_store_other _ 7 9 _ (by decide)).trans hb1.block3⟩
    · show (Ldisk.store _ 7 _).ldisk.length = 64
      rw [store_length]; exact hb1.wf.ldisk_length
    · show (Ldisk.store _ 7 _).read_block 7 = _
      rw [read_block_store_same _ _ _ hb1.wf.ldisk_length (by omega) hl64,
        map_mod_of_lt _ hlt]
  · intro j h1 h3
    rw [hsame2.others j h1]
    exact hsa.closed j h1 h3
  · intro e he
    rw [List.length_append, List.length_singleton] at he
    rw [hld2, field_store, hfield e 0 (by omega) (by omega), if_neg (fun hc => by omega)]
    by_cases hed : e = d
    · rw [if_pos ⟨hed, rfl⟩]; decide
    · rw [if_neg (fun hc => hed hc.1)]
      exact hs.used e (by omega)
  · intro e h1 h2
    rw [List.length_append, List.length_singleton] at h1
    rw [hld2, field_store, hfield e 0 h2 (by omega), if_neg (fun hc => by omega),
      if_neg (fun hc => by omega)]
    exact hs.unused e (by omega) h2
  · rw [hld2, free_blocks_store, free_blocks_put, free_blocks_put, List.length_append,
      List.length_singleton]
    have := hs.free
    omega

/-! ## `destroy` on the directory state -/

theorem remove_descriptor_eq (fs : FileSystem) (hi : fs.ldisk.BlockInv) (d : Nat)
    (hd : d < 24) :
    fs.remove_descriptor (d : Int)
      = some (FileSystem.mk (fs.ldisk.removed d) fs.open_file_table) := by
  have hc := hi.1
  have hb : ∀ k, 1 ≤ k → k ≤ 3 → fs.ldisk.field d k < 512 := by
    intro k hk1 hk3
    by_cases h0 : fs.ldisk.field d k = 0
    · omega
    · have := (hi.2.1 d k hd hk1 hk3 h0).2.1
      omega
  unfold FileSystem.remove_descriptor Ldisk.removed
  simp only [Option.bind_eq_bind]
  rw [destroy_descriptor_eq _ hc d hd]
  simp only [Option.some_bind]
  have e1 : (fs.ldisk.get_descriptor (d : Int)).getD 1 0 = fs.ldisk.field d 1 := rfl
  have e2 : (fs.ldisk.get_descriptor (d : Int)).getD 2 0 = fs.ldisk.field d 2 := rfl
  have e3 : (fs.ldisk.get_descriptor (d : Int)).getD 3 0 = fs.ldisk.field d 3 := rfl
  rw [e1, e2, e3, release_block_eq _ _ (hb 1 (by omega) (by omega))]
  simp only [Option.some_bind]
  rw [release_block_eq _ _ (hb 2 (by omega) (by omega))]
  simp only [Option.some_bind]
  rw [release_block_eq _ _ (hb 3 (by omega) (by omega))]
  simp only [Option.some_bind]

theorem field_removed (ld : Ldisk) (hc : ld.cache.length = 7) (d e k : Nat) (hd : d < 24)
    (he : e < 24) (hk : k ≤ 3) :
    (ld.removed d).field e k = if e = d then 0 else ld.field e k := by
  unfold Ldisk.removed
  rw [field_mark _ _ _ e k he hk, field_mark _ _ _ e k he hk, field_mark _ _ _ e k he hk,
    field_destroy ld hc d e k hd he hk]

theorem read_block_removed (ld : Ldisk) (d i : Nat) :
    (ld.removed d).read_block i = ld.read_block i := rfl

theorem ldisk_removed (ld : Ldisk) (d : Nat) : (ld.removed d).ldisk = ld.ldisk := rfl

theorem length_removed (ld : Ldisk) (d : Nat) :
    (ld.removed d).cache.length = ld.cache.length := by
  unfold Ldisk.removed
  rw [length_mark, length_mark, length_mark, length_put, length_put, length_put, length_put]

theorem destroy_clear_spec (d : Nat) (hd : d ≤ 9) (rest : List Nat) :
    ∀ (nm A : List Nat) (fs : FileSystem), (∀ c ∈ nm, isInteger c = false) →
      (fs.oft 0).r_w = A ++ nm ++ (48 + d) :: rest → 0 < fs.open_file_table.length →
      fs.ldisk.BlockInv →
      ∃ fs3, FileSystem.destroy_clear (nm ++ (48 + d) :: rest) A.length fs = some fs3 ∧
        fs3.ldisk = fs.ldisk.removed d ∧
        (fs3.oft 0).r_w = A ++ List.replicate (nm.length + 1) 0 ++ rest ∧
        (fs3.oft 0).index = (fs.oft 0).index ∧
        (fs3.oft 0).buffer_block = (fs.oft 0).buffer_block ∧
        fs3.open_file_table.length = fs.open_file_table.length ∧
        ∀ j, 1 ≤ j → fs3.oft j = fs.oft j := by
  intro nm
  induction nm with
  | nil =>
    intro A fs _ hrw hl hinv
    have hcast : (((48 + d : Nat) : Int) - 48) = ((d : Nat) : Int) := by push_cast; ring
    have hl1 : 0 < (FileSystem.mk (fs.ldisk.removed d) fs.open_file_table).open_file_table.length :=
      hl
    refine ⟨(FileSystem.mk (fs.ldisk.removed d) fs.open_file_table).set_oft 0
      ⟨(fs.oft 0).r_w.set A.length 0, (fs.oft 0).index, (fs.oft 0).buffer_index,
        (fs.oft 0).buffer_block⟩, ?_, rfl, ?_, ?_, ?_, ?_, ?_⟩
    · rw [List.nil_append, FileSystem.destroy_clear, isInteger_digit d hd]
      simp only [if_true, Option.bind_eq_bind]
      rw [hcast, remove_descriptor_eq fs hinv d (by omega)]
      rfl
    · rw [oft_set_oft_same _ _ _ hl1]
      simp only []
      rw [hrw, List.append_nil, List.set_append_right _ _ (le_refl _)]
      simp
    · rw [oft_set_oft_same _ _ _ hl1]
    · rw [oft_set_oft_same _ _ _ hl1]
    · rw [length_set_oft]
    · intro j hj
      rw [oft_set_oft_ne _ _ _ _ (by omega)]
      rfl
  | cons x nm ih =>
    intro A fs hv hrw hl hinv
    have hx := hv x (List.mem_cons_self _ _)
    have hl1 : 0 < (fs.set_oft 0 ⟨(fs.oft 0).r_w.set A.length 0, (fs.oft 0).index,
        (fs.oft 0).buffer_index, (fs.oft 0).buffer_block⟩).open_file_table.length := by
      rw [length_set_oft]; exact hl
    obtain ⟨fs3, h1, h2, h3, h4, h5, h6, h7⟩ := ih (A ++ [0])
      (fs.set_oft 0 ⟨(fs.oft 0).r_w.set A.length 0, (fs.oft 0).index,
        (fs.oft 0).buffer_index, (fs.oft 0).buffer_block⟩)
      (fun c hc => hv c (List.mem_cons_of_mem _ hc))
      (by
        rw [oft_set_oft_same _ _ _ hl]
        simp only []
        rw [hrw, List.append_assoc, List.set_append_right _ _ (le_refl _)]
        simp)
      hl1 hinv
    refine ⟨fs3, ?_, h2, ?_, ?_, ?_, ?_, ?_⟩
    · rw [List.cons_append, FileSystem.destroy_clear, hx]
      simp only [Bool.false_eq_true, if_false]
      have e : A.length + 1 = (A ++ [0]).length := by simp
      rw [e]
      exact h1
    · rw [h3, List.length_cons]
      simp [List.replicate_succ]
    · rw [h4, oft_set_oft_same _ _ _ hl]
    · rw [h5, oft_set_oft_same _ _ _ hl]
    · rw [h6, length_set_oft]
    · intro j hj
      rw [h7 j hj, oft_set_oft_ne _ _ _ _ (by omega)]

theorem extract_int_digit (d : Nat) (hd : d ≤ 9) :
    FileSystem.extract_int [48 + d] = (d : Int) := by
  unfold FileSystem.extract_int
  rw [List.takeWhile_cons, isInteger_digit d hd]
  simp

theorem dir_bytes_head_not_digit (names : List (List Nat)) (hv : ∀ nm ∈ names, ValidName nm)
    (i n : Nat) :
    isInteger ((dir_bytes i names ++ List.replicate n 0).getD 0 0) = false := by
  cases names with
  | nil =>
    rw [dir_bytes, List.nil_append]
    cases n with
    | zero => rfl
    | succ n => rfl
  | cons nm names =>
    have hnm := hv nm (List.mem_cons_self _ _)
    cases hc : nm with
    | nil => rw [hc] at hnm; have := hnm.1; simp at this
    | cons c cs =>
      rw [dir_bytes, List.cons_append, List.cons_append, List.getD_cons_zero]
      exact (hnm.2.2 c (by rw [hc]; exact List.mem_cons_self _ _)).2.2

theorem getD_append_at (A B : List Nat) (k : Nat) :
    (A ++ B).getD (A.length + k) 0 = B.getD k 0 := by
  rw [List.getD_append_right _ _ _ _ (by omega)]
  congr 1
  omega

theorem getD_append_length (A B : List Nat) : (A ++ B).getD A.length 0 = B.getD 0 0 := by
  rw [List.getD_append_right _ _ _ _ (le_refl _), Nat.sub_self]

theorem destroy_spec (fs : FileSystem) (pre post : List (List Nat)) (fn : List Nat)
    (hs : DirState fs (pre ++ fn :: post)) (hv : ∀ nm ∈ pre ++ fn :: post, ValidName nm)
    (hpre : fn ∉ pre) (hk : (pre ++ fn :: post).length ≤ 9) :
    ∃ fs1 r, fs.destroy fn = some (fs1, r) ∧
      DirBlocks fs1 (dir_bytes 1 pre ++ List.replicate (fn.length + 1) 0 ++
        (dir_bytes (pre.length + 2) post ++
          List.replicate (64 - (dir_bytes 1 (pre ++ fn :: post)).length) 0)) := by
  have hvpre : ∀ nm ∈ pre, ValidName nm := fun nm h => hv nm (List.mem_append_left _ h)
  have hvfn : ValidName fn := hv fn (List.mem_append_right _ (List.mem_cons_self _ _))
  have hvpost : ∀ nm ∈ post, ValidName nm :=
    fun nm h => hv nm (List.mem_append_right _ (List.mem_cons_of_mem _ h))
  simp only [List.length_append, List.length_cons] at hk
  have hL := valid_bytes_length _ hv 1
  simp only [List.length_append, List.length_cons] at hL
  have hbytes : dir_bytes 1 (pre ++ fn :: post)
      = dir_bytes 1 pre ++ (fn ++ (48 + (pre.length + 1)) :: dir_bytes (pre.length + 2) post) := by
    rw [dir_bytes_append, dir_bytes, Nat.add_comm 1 pre.length]
  obtain ⟨Z, hZ⟩ : ∃ z, z = List.replicate (64 - (dir_bytes 1 (pre ++ fn :: post)).length) 0 :=
    ⟨_, rfl⟩
  obtain ⟨P, hP⟩ : ∃ p, p = dir_bytes 1 pre := ⟨_, rfl⟩
  obtain ⟨Q, hQ⟩ : ∃ q, q = dir_bytes (pre.length + 2) post := ⟨_, rfl⟩
  rw [← hZ, ← hP, ← hQ]
  rw [← hP, ← hQ] at hbytes
  have hlen : P.length + (fn.length + 1 + Q.length) + Z.length = 64 := by
    have := congrArg List.length hbytes
    simp only [List.length_append, List.length_cons] at this
    rw [hZ, List.length_replicate, this]
    omega
  have hZlen : 19 ≤ Z.length := by
    rw [hZ, List.length_replicate]
    omega
  have hblk : dir_bytes 1 (pre ++ fn :: post) ++ Z
      = P ++ (fn ++ (48 + (pre.length + 1)) :: (Q ++ Z)) := by
    rw [hbytes]; simp
  have hb : DirBlocks fs (P ++ (fn ++ (48 + (pre.length + 1)) :: (Q ++ Z))) := by
    have := hs.blocks
    rw [← hZ, hblk] at this
    exact this
  have hscan : FileSystem.find_entry_scan fn (P ++ (fn ++ (48 + (pre.length + 1)) :: (Q ++ Z)))
      0 [] = Sum.inl ((P.length : Nat) : Int) := by
    rw [hP, find_entry_scan_miss fn pre 1 _ 0 (valid_chars pre hvpre) (by omega) hpre,
      find_entry_scan_hit fn hvfn.chars _ (by omega)]
    simp
  have hfind1 := find_directory_entry_hit fs _ fn _ hb hscan
  have s1 := SameButDir.set_dir fs ⟨P ++ (fn ++ (48 + (pre.length + 1)) :: (Q ++ Z)),
    (fs.oft 0).index, (fs.oft 0).buffer_index, 7⟩ hb.oft_pos rfl
  obtain ⟨fsa, hfsa⟩ : ∃ x, x = fs.set_oft 0 ⟨P ++ (fn ++ (48 + (pre.length + 1)) :: (Q ++ Z)),
    (fs.oft 0).index, (fs.oft 0).buffer_index, 7⟩ := ⟨_, rfl⟩
  rw [← hfsa] at hfind1 s1
  have hba := s1.blocks hb
  have hfind2 := find_directory_entry_hit fsa _ fn _ hba hscan
  have s2 := SameButDir.set_dir fsa ⟨P ++ (fn ++ (48 + (pre.length + 1)) :: (Q ++ Z)),
    (fsa.oft 0).index, (fsa.oft 0).buffer_index, 7⟩ hba.oft_pos rfl
  have hoftb := oft_set_oft_same fsa 0 ⟨P ++ (fn ++ (48 + (pre.length + 1)) :: (Q ++ Z)),
    (fsa.oft 0).index, (fsa.oft 0).buffer_index, 7⟩ hba.oft_pos
  obtain ⟨fsb, hfsb⟩ : ∃ x, x = fsa.set_oft 0 ⟨P ++ (fn ++ (48 + (pre.length + 1)) :: (Q ++ Z)),
    (fsa.oft 0).index, (fsa.oft 0).buffer_index, 7⟩ := ⟨_, rfl⟩
  rw [← hfsb] at hfind2 s2 hoftb
  have hsb : DirState fsb (pre ++ fn :: post) := (s1.trans s2).state hs
  have hrw : (fsb.oft 0).r_w = P ++ (fn ++ (48 + (pre.length + 1)) :: (Q ++ Z)) := by
    rw [hoftb]
  have hbblock : (fsb.oft 0).buffer_block = 7 := by rw [hoftb]
  have hloc : (((P.length : Nat) : Int)) ≠ -1 := by omega
  have e0 : ((P.length : Nat) : Int) + ((fn.length : Nat) : Int)
      = ((P.length + fn.length : Nat) : Int) := by push_cast; rfl
  have e1 : ((P.length : Nat) : Int) + ((fn.length : Nat) : Int) + 1
      = ((P.length + (fn.length + 1) : Nat) : Int) := by push_cast; ring
  have hget : fsa.get_desc_index fn = some (fsb, ((pre.length + 1 : Nat) : Int)) := by
    unfold FileSystem.get_desc_index
    simp only [Option.bind_eq_bind]
    rw [hfind2]
    simp only [Option.some_bind]
    rw [if_pos hloc, e1, e0]
    have hcond : (0 : Int) ≤ ((P.length + fn.length : Nat) : Int) ∧
        ((P.length + (fn.length + 1) : Nat) : Int) < 64 := by
      constructor
      · omega
      · omega
    have hg0 : (fn ++ (48 + (pre.length + 1)) :: (Q ++ Z)).getD fn.length 0
        = 48 + (pre.length + 1) := by
      rw [getD_append_length]; rfl
    have hg1 : (fn ++ (48 + (pre.length + 1)) :: (Q ++ Z)).getD (fn.length + 1) 0
        = (Q ++ Z).getD 0 0 := by
      rw [getD_append_at fn ((48 + (pre.length + 1)) :: (Q ++ Z)) 1]
      cases Q ++ Z <;> rfl
    rw [if_pos hcond, Int.toNat_ofNat, Int.toNat_ofNat, hrw, getD_append_at P _ (fn.length + 1),
      getD_append_at P _ fn.length, hg0, hg1, hQ, hZ, dir_bytes_head_not_digit post hvpost]
    simp only [Bool.false_eq_true, if_false, List.nil_append, List.getD_cons_zero]
    rw [extract_int_digit _ (by omega)]
  have hclosed : ∀ j, 1 ≤ j → j ≤ 3 → (fsb.oft j).index ≠ ((pre.length + 1 : Nat) : Int) := by
    intro j h1 h3
    rw [hsb.closed j h1 h3]
    omega
  have hdrop : ((P ++ (fn ++ (48 + (pre.length + 1)) :: (Q ++ Z))).take 64).drop P.length
      = fn ++ (48 + (pre.length + 1)) :: (Q ++ Z) := by
    rw [List.take_of_length_le (by simp; omega), List.drop_left]
  obtain ⟨fs3, hclear, hld3, hrw3, hidx3, hbb3, hlen3, _⟩ := destroy_clear_spec (pre.length + 1)
    (by omega) (Q ++ Z) fn P fsb (fun c hc => (hvfn.chars c hc).2)
    (by rw [hrw, List.append_assoc]) hsb.blocks.oft_pos hsb.inv
  have hr64 : (fs3.oft 0).r_w.length = 64 := by
    rw [hrw3]
    simp only [List.length_append, List.length_replicate]
    omega
  refine ⟨(FileSystem.mk (fs3.ldisk.store 7 (fs3.oft 0).r_w) fs3.open_file_table).set_oft 0
    ⟨(fs3.oft 0).r_w, (fs3.oft 0).index, (fs3.oft 0).buffer_index, (fs3.oft 0).buffer_block⟩,
    none, ?_, ?_⟩
  · unfold FileSystem.destroy
    simp only [Option.bind_eq_bind]
    rw [hfind1]
    simp only [Option.some_bind]
    rw [if_pos hloc, hget]
    simp only [Option.some_bind]
    rw [if_neg (hclosed 1 (by omega) (by omega)), if_neg (hclosed 2 (by omega) (by omega)),
      if_neg (hclosed 3 (by omega) (by omega))]
    simp only [Option.some_bind]
    have hpos : (0 : Int) ≤ ((P.length : Nat) : Int) := by omega
    rw [if_pos hpos, Int.toNat_ofNat, hrw, hdrop, hclear]
    simp only [Option.some_bind]
    rw [defrag_block_eq _ hr64, hbb3, hbblock, write_block_eq _ _ _ (by omega)]
    simp only [Option.some_bind]
  · have hl0 : 0 < (FileSystem.mk (fs3.ldisk.store 7 (fs3.oft 0).r_w)
        fs3.open_file_table).open_file_table.length := by
      show 0 < fs3.open_file_table.length
      rw [hlen3]; exact hsb.blocks.oft_pos
    have hlt : ∀ c ∈ (fs3.oft 0).r_w, c < 256 := by
      intro c hc
      rw [hrw3] at hc
      simp only [List.mem_append] at hc
      rcases hc with (hc | hc) | hc | hc
      · rw [hP] at hc
        exact (valid_bytes_bounds pre hvpre 1 (by omega) c hc).2
      · rw [List.eq_of_mem_replicate hc]; decide
      · rw [hQ] at hc
        exact (valid_bytes_bounds post hvpost _ (by omega) c hc).2
      · rw [hZ] at hc
        rw [List.eq_of_mem_replicate hc]; decide
    have hfinal : P ++ List.replicate (fn.length + 1) 0 ++ (Q ++ Z) = (fs3.oft 0).r_w := by
      rw [hrw3]
    rw [hfinal]
    refine ⟨⟨?_, ?_, ?_⟩, ?_, ?_, hr64, ?_, ?_, ?_⟩
    · rw [ldisk_set_oft]
      show (fs3.ldisk.store 7 _).ldisk.length = 64
      rw [store_length, hld3, ldisk_removed]
      exact hsb.blocks.wf.ldisk_length
    · rw [ldisk_set_oft]
      show (fs3.ldisk.store 7 _).cache.length = 7
      rw [store_cache, hld3, length_removed]
      exact hsb.blocks.wf.cache_length
    · rw [length_set_oft]
      show fs3.open_file_table.length = 4
      rw [hlen3]; exact hsb.blocks.wf.oft_length
    · rw [oft_set_oft_same _ _ _ hl0]
      show (fs3.oft 0).index = 0
      rw [hidx3]; exact hsb.blocks.dir_index
    · intro k h1 h3
      rw [ldisk_set_oft]
      show (fs3.ldisk.store 7 _).field 0 k = 6 + k
      rw [field_store, hld3, field_removed _ hsb.blocks.wf.cache_length _ 0 k (by omega)
        (by omega) h3, if_neg (by omega)]
      exact hsb.blocks.dir_desc k h1 h3
    · rw [ldisk_set_oft]
      show (fs3.ldisk.store 7 _).read_block 7 = _
      rw [read_block_store_same _ _ _ (by rw [hld3, ldisk_removed]; exact hsb.blocks.wf.ldisk_length)
        (by omega) hr64, map_mod_of_lt _ hlt]
    · rw [ldisk_set_oft]
      show (fs3.ldisk.store 7 _).read_block 8 = _
      rw [read_block_store_other _ 7 8 _ (by decide), hld3, read_block_removed]
      exact hsb.blocks.block2
    · rw [ldisk_set_oft]
      show (fs3.ldisk.store 7 _).read_block 9 = _
      rw [read_block_store_other _ 7 9 _ (by decide), hld3, read_block_removed]
      exact hsb.blocks.block3

/-! ## The listing -/

theorem directory_scan_state (names : List (List Nat)) (hv : ∀ nm ∈ names, ValidName nm)
    (hk : names.length ≤ 9) (n : Nat) :
    (FileSystem.directory_scan (dir_bytes 1 names ++ List.replicate n 0) [] []).1 = names := by
  rw [directory_scan_entries names 1 _ [] (valid_chars names hv) (by omega)]
  have := directory_scan_zeros n [] ([] ++ names) []
  rw [List.append_nil] at this
  rw [this]
  rfl

theorem directory_scan_removed (pre post : List (List Nat)) (hv1 : ∀ nm ∈ pre, ValidName nm)
    (hv2 : ∀ nm ∈ post, ValidName nm) (hk : pre.length + post.length + 1 ≤ 9) (m n : Nat) :
    (FileSystem.directory_scan (dir_bytes 1 pre ++ List.replicate m 0 ++
      (dir_bytes (pre.length + 2) post ++ List.replicate n 0)) [] []).1 = pre ++ post := by
  rw [List.append_assoc, directory_scan_entries pre 1 _ [] (valid_chars pre hv1) (by omega),
    directory_scan_zeros,
    directory_scan_entries post _ _ _ (valid_chars post hv2) (by omega)]
  have := directory_scan_zeros n [] ([] ++ pre ++ post) []
  rw [List.append_nil] at this
  rw [this]
  rfl

theorem fresh_state :
    ([FileSystem.fresh.ldisk.ldisk.length, FileSystem.fresh.open_file_table.length,
        FileSystem.fresh.ldisk.free_blocks],
      [(FileSystem.fresh.oft 0).index, (FileSystem.fresh.oft 1).index,
        (FileSystem.fresh.oft 2).index, (FileSystem.fresh.oft 3).index],
      [FileSystem.fresh.ldisk.read_block 7, FileSystem.fresh.ldisk.read_block 8,
        FileSystem.fresh.ldisk.read_block 9])
      = ([64, 4, 54], [0, -1, -1, -1],
        [some (List.replicate 64 0), some (List.replicate 64 0), some (List.replicate 64 0)]) := by
  decide!

theorem fresh_DirState : DirState FileSystem.fresh [] := by
  have hv := fresh_state
  simp only [Prod.mk.injEq, List.cons.injEq, and_true] at hv
  obtain ⟨⟨hl, ho, hf⟩, ⟨i0, i1, i2, i3⟩, b7, b8, b9⟩ := hv
  refine ⟨fresh_BlockInv, ⟨⟨hl, fresh_cache_length, ho⟩, i0, ?_, by decide,
    by rw [b7]; rfl, b8, b9⟩, ?_, ?_, ?_, by rw [hf]; decide⟩
  · intro k h1 h3
    rw [fresh_field 0 k (by omega) h3, if_pos rfl]
    interval_cases k <;> rfl
  · intro j h1 h3
    interval_cases j
    · exact i1
    · exact i2
    · exact i3
  · intro d hd
    have : d = 0 := by simpa using hd
    subst this
    rw [fresh_field 0 0 (by omega) (by omega)]
    decide
  · intro d _ hd
    rw [fresh_field d 0 hd (by omega), if_neg (by omega)]

theorem directory_spec (fs : FileSystem) (names : List (List Nat)) (hs : DirState fs names)
    (hv : ∀ nm ∈ names, ValidName nm) (hk : names.length ≤ 9) :
    ∃ fs1, fs.directory = some (fs1, names) ∧ DirState fs1 names := by
  obtain ⟨fs1, h1, h2⟩ := directory_of_blocks fs _ hs.blocks
  rw [directory_scan_state names hv hk] at h1
  exact ⟨fs1, h1, h2.state hs⟩

theorem create_each_spec :
    ∀ (more names : List (List Nat)) (fs : FileSystem), DirState fs names →
      (∀ nm ∈ names ++ more, ValidName nm) → (names ++ more).Nodup →
      (names ++ more).length ≤ 9 →
      ∃ fs1, create_each more fs = some (fs1, List.replicate more.length 0) ∧
        DirState fs1 (names ++ more) := by
  intro more
  induction more with
  | nil =>
    intro names fs hs _ _ _
    rw [List.append_nil]
    exact ⟨fs, rfl, hs⟩
  | cons fn more ih =>
    intro names fs hs hv hnd hk
    have hnd1 := hnd
    rw [List.nodup_append] at hnd1
    have hnew : fn ∉ names := fun hc => hnd1.2.2 hc (List.mem_cons_self _ _)
    simp only [List.length_append, List.length_cons] at hk
    obtain ⟨fs1, hc1, hs1⟩ := create_spec fs names fn hs
      (fun nm h => hv nm (List.mem_append_left _ h))
      (hv fn (List.mem_append_right _ (List.mem_cons_self _ _))) hnew (by omega)
    have e : names ++ fn :: more = (names ++ [fn]) ++ more := by simp
    obtain ⟨fs2, hc2, hs2⟩ := ih (names ++ [fn]) fs1 hs1 (by rw [← e]; exact hv)
      (by rw [← e]; exact hnd) (by simp; omega)
    refine ⟨fs2, ?_, by rw [e]; exact hs2⟩
    rw [create_each, hc1]
    simp only [Option.some_bind]
    rw [hc2]
    rfl

theorem destroy_then_directory (fs : FileSystem) (names : List (List Nat)) (nm : List Nat)
    (hs : DirState fs names) (hv : ∀ n ∈ names, ValidName n) (hnd : names.Nodup)
    (hk : names.length ≤ 9) (hnm : nm ∈ names) :
    ∃ fs3 r fs4, fs.destroy nm = some (fs3, r) ∧ fs3.directory = some (fs4, names.erase nm) := by
  obtain ⟨pre, post, rfl⟩ := List.append_of_mem hnm
  have hpre : nm ∉ pre := by
    intro hc
    rw [List.nodup_append] at hnd
    exact hnd.2.2 hc (List.mem_cons_self _ _)
  obtain ⟨fs3, r, hd, hb⟩ := destroy_spec fs pre post nm hs hv hpre hk
  obtain ⟨fs4, h1, _⟩ := directory_of_blocks fs3 _ hb
  simp only [List.length_append, List.length_cons] at hk
  rw [directory_scan_removed pre post (fun n h => hv n (List.mem_append_left _ h))
    (fun n h => hv n (List.mem_append_right _ (List.mem_cons_of_mem _ h))) (by omega)] at h1
  refine ⟨fs3, r, fs4, hd, ?_⟩
  rw [h1, List.erase_append_right _ hpre, List.erase_cons_head]

/-- C3: the directory listing after create and destroy.  Starting from the
freshly initialised disk, for every list of at most 9 pairwise distinct valid
names (1 to 4 ASCII characters, none of them 0 or a digit): creating them in
order returns 0 every time, `directory()` then returns exactly that list in
creation order, and destroying one of the names after that (before or after the
listing) makes `directory()` return the list without that name. -/
theorem directory_after_create_and_destroy (names : List (List Nat))
    (hlen : names.length ≤ 9) (hnd : names.Nodup) (hv : ∀ nm ∈ names, ValidName nm) :
    ∃ fs1 fs2, create_each names FileSystem.fresh
        = some (fs1, List.replicate names.length 0) ∧
      fs1.directory = some (fs2, names) ∧
      ∀ nm ∈ names,
        (∃ fs3 r fs4, fs1.destroy nm = some (fs3, r) ∧
          fs3.directory = some (fs4, names.erase nm)) ∧
        (∃ fs3 r fs4, fs2.destroy nm = some (fs3, r) ∧
          fs3.directory = some (fs4, names.erase nm)) := by
  obtain ⟨fs1, hc, hs1⟩ := create_each_spec names [] FileSystem.fresh fresh_DirState
    (by simpa using hv) (by simpa using hnd) (by simpa using hlen)
  rw [List.nil_append] at hs1
  obtain ⟨fs2, hdir, hs2⟩ := directory_spec fs1 names hs1 hv hlen
  exact ⟨fs1, fs2, hc, hdir, fun nm hnm =>
    ⟨destroy_then_directory fs1 names nm hs1 hv hnd hlen hnm,
      destroy_then_directory fs2 names nm hs2 hv hnd hlen hnm⟩⟩

/-- C3, an instance: the names `foo` and `b`. -/
theorem directory_after_create_and_destroy_witness :
    ([[102, 111, 111], [98]].length ≤ 9 ∧ [[102, 111, 111], [98]].Nodup ∧
      ∀ nm ∈ [[102, 111, 111], [98]], ValidName nm) ∧
    ∃ fs1 fs2, create_each [[102, 111, 111], [98]] FileSystem.fresh
        = some (fs1, List.replicate [[102, 111, 111], [98]].length 0) ∧
      fs1.directory = some (fs2, [[102, 111, 111], [98]]) ∧
      ∀ nm ∈ [[102, 111, 111], [98]],
        (∃ fs3 r fs4, fs1.destroy nm = some (fs3, r) ∧
          fs3.directory = some (fs4, [[102, 111, 111], [98]].erase nm)) ∧
        (∃ fs3 r fs4, fs2.destroy nm = some (fs3, r) ∧
          fs3.directory = some (fs4, [[102, 111, 111], [98]].erase nm)) :=
  have h1 : [[102, 111, 111], [98]].length ≤ 9 := by decide
  have h2 : [[102, 111, 111], [98]].Nodup := by decide
  have h3 : ∀ nm ∈ [[102, 111, 111], [98]], ValidName nm := by
    unfold ValidName
    decide
  ⟨⟨h1, h2, h3⟩, directory_after_create_and_destroy [[102, 111, 111], [98]] h1 h2 h3⟩

/-! ## `lseek` at or past the end of the file -/

/-- C12: a seek to or past the end of the file is rejected.  For every occupied
entry `index` of the open file table and every `pos` that is not below the
size field of its descriptor (in particular `pos` equal to the size),
`lseek(index, pos)` returns -1 and the whole state is the one before the call:
the buffers, `buffer_block` and `buffer_index` of the entries, the cache
(bitmap and descriptors) and every disk block. -/
theorem lseek_past_end_rejected (fs : FileSystem) (index pos : Int)
    (hocc : fs.is_oft_entry index = true)
    (hpos : (((fs.ldisk.get_descriptor (fs.oft index.toNat).index).getD 0 0 : Nat) : Int)
      ≤ pos) :
    fs.lseek index pos = some (fs, -1) := by
  unfold FileSystem.lseek
  rw [hocc]
  simp only [if_true]
  rw [if_neg (not_lt.2 hpos)]

/-- The state after `create("a")`, `open("a")` and a write of 10 characters `x`:
the sizes of the arrays, the block of slot 1 and the size field of descriptor
1; the indices of slots 1 and 2 of the open file table; the buffer of slot 1;
whether slot 1 is an entry of the table and whether the disk blocks and the
cached blocks are below `2 ^ 512`. -/
theorem written_file :
    (run [Op.create [97], Op.open [97], Op.write 1 (List.replicate 10 120)]
        FileSystem.fresh).map (fun fs =>
      ([fs.ldisk.ldisk.length, fs.ldisk.cache.length, fs.open_file_table.length,
          (fs.oft 1).buffer_block, (fs.ldisk.get_descriptor 1).getD 0 0],
        [(fs.oft 1).index, (fs.oft 2).index], (fs.oft 1).r_w,
        [fs.is_oft_entry 1, decide (∀ b ∈ fs.ldisk.ldisk, b < 2 ^ 512),
          decide (∀ b ∈ fs.ldisk.cache, b < 2 ^ 512)]))
      = some ([64, 7, 4, 10, 10], [1, -1], List.replicate 10 120 ++ List.replicate 54 0,
          [true, true, true]) := by
  decide!

/-- C12, an instance: the file `a` is created and opened in slot 1 and 10
characters are written, so that the size field is 10; `lseek(1, 10)` returns -1
and changes nothing. -/
theorem lseek_past_end_rejected_witness :
    (FileSystem.is_oft_entry ((run [Op.create [97], Op.open [97],
        Op.write 1 (List.replicate 10 120)] FileSystem.fresh).getD FileSystem.fresh) 1 = true ∧
      ((((run [Op.create [97], Op.open [97], Op.write 1 (List.replicate 10 120)]
        FileSystem.fresh).getD FileSystem.fresh).ldisk.get_descriptor 1).getD 0 0 : Nat)
        = 10) ∧
    ((run [Op.create [97], Op.open [97], Op.write 1 (List.replicate 10 120)]
        FileSystem.fresh).getD FileSystem.fresh).lseek 1 10
      = some ((run [Op.create [97], Op.open [97], Op.write 1 (List.replicate 10 120)]
        FileSystem.fresh).getD FileSystem.fresh, -1) := by
  obtain ⟨fs, hfs, hv⟩ := Option.map_eq_some'.1 written_file
  have e : (run [Op.create [97], Op.open [97], Op.write 1 (List.replicate 10 120)]
      FileSystem.fresh).getD FileSystem.fresh = fs := by rw [hfs]; rfl
  rw [e]
  simp only [Prod.mk.injEq, List.cons.injEq, and_true] at hv
  obtain ⟨⟨_, _, _, _, hsz⟩, ⟨hi1, _⟩, _, hentry, _, _⟩ := hv
  have hidx : (fs.oft (1 : Int).toNat).index = 1 := hi1
  exact ⟨⟨hentry, hsz⟩,
    lseek_past_end_rejected fs 1 10 hentry (by rw [hidx, hsz]; decide)⟩

/-! ## Block input and output, and `close` -/

/-- C20: the round trip of block input and output.  For every block index `i`
in 0..63 and every buffer `p` of 64 characters (all 256 values), on a disk
of 64 blocks: `write_block(i, p)` succeeds, `read_block(i, q)` then gives
`q = p`, every other physical block is the one before the call, and the cache
and the directory descriptor index are unchanged. -/
theorem block_io_round_trip (ld : Ldisk) (i : Nat) (p : List Nat)
    (hl : ld.ldisk.length = 64) (hi : i < 64) (hp : p.length = 64) (hb : ∀ c ∈ p, c < 256) :
    ∃ ld1, ld.write_block i p = some ld1 ∧ ld1.read_block i = some p ∧
      ld1.ldisk.length = 64 ∧ (∀ j, j ≠ i → ld1.ldisk.getD j 0 = ld.ldisk.getD j 0) ∧
      (∀ j, j ≠ i → ld1.read_block j = ld.read_block j) ∧
      ld1.cache = ld.cache ∧ ld1.directory_descriptor = ld.directory_descriptor := by
  refine ⟨ld.store i p, write_block_eq ld i p hi, ?_, ?_, ?_, ?_, rfl, rfl⟩
  · rw [read_block_store_same ld i p hl hi hp, map_mod_of_lt p hb]
  · rw [store_length]; exact hl
  · intro j hj
    unfold Ldisk.store
    simp only []
    rw [getD_set_nat, if_neg (fun hc => hj hc.1.symm)]
  · intro j hj
    exact read_block_store_other ld i j p (Ne.symm hj)

/-- C20, an instance: the characters 0, 1, 255 and 61 times `x` written to
block 12 of the freshly initialised disk. -/
theorem block_io_round_trip_witness :
    (FileSystem.fresh.ldisk.ldisk.length = 64 ∧ 12 < 64 ∧
      (0 :: 1 :: 255 :: List.replicate 61 120).length = 64 ∧
      ∀ c ∈ 0 :: 1 :: 255 :: List.replicate 61 120, c < 256) ∧
    ∃ ld1, FileSystem.fresh.ldisk.write_block 12 (0 :: 1 :: 255 :: List.replicate 61 120)
        = some ld1 ∧
      ld1.read_block 12 = some (0 :: 1 :: 255 :: List.replicate 61 120) ∧
      ld1.ldisk.length = 64 ∧
      (∀ j, j ≠ 12 → ld1.ldisk.getD j 0 = FileSystem.fresh.ldisk.ldisk.getD j 0) ∧
      (∀ j, j ≠ 12 → ld1.read_block j = FileSystem.fresh.ldisk.read_block j) ∧
      ld1.cache = FileSystem.fresh.ldisk.cache ∧
      ld1.directory_descriptor = FileSystem.fresh.ldisk.directory_descriptor :=
  have h1 : FileSystem.fresh.ldisk.ldisk.length = 64 := by decide!
  have h3 : (0 :: 1 :: 255 :: List.replicate 61 120).length = 64 := by decide
  have h4 : ∀ c ∈ 0 :: 1 :: 255 :: List.replicate 61 120, c < 256 := by decide
  ⟨⟨h1, by decide, h3, h4⟩, block_io_round_trip _ 12 _ h1 (by decide) h3 h4⟩

theorem is_oft_entry_false (fs : FileSystem) (index : Int)
    (h : index < 0 ∨ 3 < index ∨ (fs.oft index.toNat).index = -1) :
    fs.is_oft_entry index = false := by
  unfold FileSystem.is_oft_entry
  by_cases hr : 0 ≤ index ∧ index ≤ 3
  · rw [if_pos hr]
    rcases h with h | h | h
    · omega
    · omega
    · rw [h]; rfl
  · rw [if_neg hr]

/-- C14: the contract of `close`.  In a state with 64 disk blocks, 7 cached
blocks and 4 table entries: for every slot `s` in 1..3 that is occupied, whose
buffer holds 64 characters and whose `buffer_block` is a block number,
`close(s)` returns 0, afterwards `read_block` of the former `buffer_block`
gives exactly the 64 characters of the buffer, the slot is free (index -1),
and a second `close(s)` returns -1 and changes nothing; for every index that is
outside 0..3 or whose entry is free, `close` returns -1 and the state (table
and disk) is the one before the call. -/
theorem close_contract (fs : FileSystem) (hw : WellFormed fs) :
    (∀ s : Nat, 1 ≤ s → s ≤ 3 → (fs.oft s).index ≠ -1 → (fs.oft s).buffer_block < 64 →
      (fs.oft s).r_w.length = 64 → (∀ c ∈ (fs.oft s).r_w, c < 256) →
      ∃ fs1, fs.close (s : Int) = some (fs1, 0) ∧
        fs1.ldisk.read_block (fs.oft s).buffer_block = some (fs.oft s).r_w ∧
        (fs1.oft s).index = -1 ∧
        (∀ j, j ≠ s → fs1.oft j = fs.oft j) ∧
        fs1.close (s : Int) = some (fs1, -1)) ∧
    (∀ index : Int, (index < 0 ∨ 3 < index ∨ (fs.oft index.toNat).index = -1) →
      fs.close index = some (fs, -1)) := by
  constructor
  · intro s h1 h3 hocc hbb hlen hbytes
    have hslt : s < fs.open_file_table.length := by rw [hw.oft_length]; omega
    have hentry : fs.is_oft_entry (s : Int) = true := by
      unfold FileSystem.is_oft_entry
      have hr : (0 : Int) ≤ (s : Int) ∧ (s : Int) ≤ 3 := ⟨by omega, by omega⟩
      rw [if_pos hr, Int.toNat_ofNat]
      exact decide_eq_true hocc
    have hl1 : s < (FileSystem.mk (fs.ldisk.store (fs.oft s).buffer_block (fs.oft s).r_w)
        fs.open_file_table).open_file_table.length := hslt
    refine ⟨(FileSystem.mk (fs.ldisk.store (fs.oft s).buffer_block (fs.oft s).r_w)
      fs.open_file_table).set_oft s ⟨(fs.oft s).r_w, -1, 0, 0⟩, ?_, ?_, ?_, ?_, ?_⟩
    · unfold FileSystem.close
      rw [hentry]
      simp only [if_true, Int.toNat_ofNat, Option.bind_eq_bind]
      rw [write_block_eq _ _ _ hbb]
      rfl
    · rw [ldisk_set_oft]
      show (fs.ldisk.store _ _).read_block _ = _
      rw [read_block_store_same _ _ _ hw.ldisk_length hbb hlen, map_mod_of_lt _ hbytes]
    · rw [oft_set_oft_same _ _ _ hl1]
    · intro j hj
      rw [oft_set_oft_ne _ _ _ _ (Ne.symm hj)]
      rfl
    · unfold FileSystem.close
      rw [is_oft_entry_false _ _ (Or.inr (Or.inr (by
        rw [Int.toNat_ofNat, oft_set_oft_same _ _ _ hl1])))]
      rfl
  · intro index h
    unfold FileSystem.close
    rw [is_oft_entry_false fs index h]
    rfl

/-- C14, an instance: after `create("a")`, `open("a")` and a write of 10
characters, slot 1 is occupied and is closed; slot 2 is free, and index 7 is
outside the table. -/
theorem close_contract_witness :
    WellFormed ((run [Op.create [97], Op.open [97], Op.write 1 (List.replicate 10 120)]
      FileSystem.fresh).getD FileSystem.fresh) ∧
    (∃ fs1, ((run [Op.create [97], Op.open [97], Op.write 1 (List.replicate 10 120)]
        FileSystem.fresh).getD FileSystem.fresh).close ((1 : Nat) : Int) = some (fs1, 0) ∧
      fs1.ldisk.read_block 10 = some (List.replicate 10 120 ++ List.replicate 54 0) ∧
      (fs1.oft 1).index = -1 ∧ fs1.close ((1 : Nat) : Int) = some (fs1, -1)) ∧
    ((run [Op.create [97], Op.open [97], Op.write 1 (List.replicate 10 120)]
        FileSystem.fresh).getD FileSystem.fresh).close 2
      = some ((run [Op.create [97], Op.open [97], Op.write 1 (List.replicate 10 120)]
        FileSystem.fresh).getD FileSystem.fresh, -1) ∧
    ((run [Op.create [97], Op.open [97], Op.write 1 (List.replicate 10 120)]
        FileSystem.fresh).getD FileSystem.fresh).close 7
      = some ((run [Op.create [97], Op.open [97], Op.write 1 (List.replicate 10 120)]
        FileSystem.fresh).getD FileSystem.fresh, -1) := by
  obtain ⟨fs, hfs, hv⟩ := Option.map_eq_some'.1 written_file
  have e : (run [Op.create [97], Op.open [97], Op.write 1 (List.replicate 10 120)]
      FileSystem.fresh).getD FileSystem.fresh = fs := by rw [hfs]; rfl
  rw [e]
  simp only [Prod.mk.injEq, List.cons.injEq, and_true] at hv
  obtain ⟨⟨h1, h2, h3, hbb, _⟩, ⟨hi1, hi2⟩, hrw, _⟩ := hv
  have hw : WellFormed fs := ⟨h1, h2, h3⟩
  have h := (close_contract fs hw).1 1 (by decide) (by decide) (by rw [hi1]; decide)
    (by rw [hbb]; decide) (by rw [hrw]; decide) (by rw [hrw]; decide)
  refine ⟨hw, ?_, (close_contract fs hw).2 2 (Or.inr (Or.inr hi2)),
    (close_contract fs hw).2 7 (Or.inr (Or.inl (by decide)))⟩
  obtain ⟨fs1, c1, c2, c3, _, c5⟩ := h
  rw [hbb, hrw] at c2
  exact ⟨fs1, c1, c2, c3, c5⟩

/-! ## The number of descriptors in use -/

theorem countP_flip (p q : Nat → Bool) (d : Nat) :
    ∀ (l : List Nat), l.Nodup → d ∈ l → (∀ e ∈ l, e ≠ d → q e = p e) → p d = false →
      q d = true → l.countP q = l.countP p + 1 := by
  intro l
  induction l with
  | nil => intro _ hd; cases hd
  | cons a l ih =>
    intro hnd hd hsame hp hq
    rw [List.nodup_cons] at hnd
    by_cases had : a = d
    · subst had
      have hrest : l.countP q = l.countP p := by
        apply List.countP_congr
        intro e he
        have hne : e ≠ a := fun hc => hnd.1 (hc ▸ he)
        rw [hsame e (List.mem_cons_of_mem _ he) hne]
      rw [List.countP_cons_of_pos _ _ hq, List.countP_cons_of_neg _ _ (by rw [hp]; simp), hrest]
    · have hdl : d ∈ l := by
        rcases List.mem_cons.1 hd with h | h
        · exact absurd h.symm had
        · exact h
      have := ih hnd.2 hdl (fun e he hne => hsame e (List.mem_cons_of_mem _ he) hne) hp hq
      have ha := hsame a (List.mem_cons_self _ _) had
      by_cases hpa : p a = true
      · rw [List.countP_cons_of_pos _ _ (by rw [ha]; exact hpa),
          List.countP_cons_of_pos _ _ hpa, this]
      · rw [List.countP_cons_of_neg _ _ (by rw [ha]; exact hpa),
          List.countP_cons_of_neg _ _ hpa, this]

theorem used_le (ld : Ldisk) : ld.used ≤ 24 := by
  unfold Ldisk.used
  have := List.countP_le_length (fun d => decide (ld.field d 0 ≠ 0)) (l := List.range 24)
  simpa using this

theorem used_congr (ld ld' : Ldisk) (h : ld'.cache = ld.cache) : ld'.used = ld.used := by
  unfold Ldisk.used
  apply List.countP_congr
  intro d _
  rw [field_congr ld ld' h d 0]

theorem fresh_used : FileSystem.fresh.ldisk.used = 1 := by
  unfold Ldisk.used
  have : ∀ d ∈ List.range 24, decide (FileSystem.fresh.ldisk.field d 0 ≠ 0) = decide (d = 0) := by
    intro d hd
    rw [fresh_field d 0 (List.mem_range.1 hd) (by omega)]
    by_cases h0 : d = 0
    · subst h0; rfl
    · rw [if_neg h0]; simp [h0]
  rw [List.countP_congr (fun d hd => by rw [this d hd])]
  decide

theorem create_used (fs : FileSystem) (file_name : List Nat) (r : FileSystem × Int)
    (h : fs.create file_name = some r) (hc : fs.ldisk.cache.length = 7) :
    r.1.ldisk.cache.length = 7 ∧
      r.1.ldisk.used = fs.ldisk.used + (if r.2 = 0 then 1 else 0) := by
  unfold FileSystem.create at h
  split at h
  · simp only [Option.bind_eq_bind, Option.bind_eq_some] at h
    obtain ⟨q, hq, h⟩ := h
    have e := find_directory_entry_ldisk fs file_name q hq
    split at h
    · simp only [Option.bind_eq_bind, Option.bind_eq_some] at h
      obtain ⟨fb, hfb, ds, hds, h⟩ := h
      rw [e] at hfb
      obtain ⟨_, _, _, hfb1⟩ := find_free_block_spec fs.ldisk fb hfb
      have hcm : fb.1.cache.length = 7 := by rw [hfb1, length_mark]; exact hc
      have hum : fb.1.used = fs.ldisk.used := by
        unfold Ldisk.used
        apply List.countP_congr
        intro d hd
        rw [hfb1, field_mark _ _ _ d 0 (List.mem_range.1 hd) (by omega)]
      obtain ⟨r0, hr0, hcase⟩ := init_descriptor_spec fb.1 hcm fb.2
      rw [hds] at hr0
      cases hr0
      rcases hcase with ⟨hds1, _⟩ | ⟨d, hd, hz, _, hds1⟩
      · rw [hds1] at h
        simp only [ne_eq, not_true_eq_false, if_false] at h
        cases h
        exact ⟨hcm, by simp [hum]⟩
      · rw [hds1] at h
        have hne : ((d : Nat) : Int) ≠ -1 := by omega
        simp only [ne_eq, hne, not_false_eq_true, if_true, Option.bind_eq_bind,
          Option.bind_eq_some] at h
        obtain ⟨fs2, h2, h⟩ := h
        cases h
        have hcache := create_entry_blocks_cache _ _ _ _ _ h2
        have hc1 : (fb.1.put d 0 1).cache.length = 7 := by rw [length_put]; exact hcm
        have hc2 : ((fb.1.put d 0 1).put d 1 fb.2).cache.length = 7 := by
          rw [length_put]; exact hc1
        refine ⟨by rw [hcache]; exact hc2, ?_⟩
        rw [used_congr _ _ hcache, ← hum]
        simp only [if_true]
        unfold Ldisk.used
        apply countP_flip _ _ d _ (List.nodup_range 24) (List.mem_range.2 hd)
        · intro e he hne
          have he24 := List.mem_range.1 he
          rw [field_put _ hc1 d 1 fb.2 e 0 hd (by omega) he24 (by omega),
            if_neg (fun hc => by omega),
            field_put _ hcm d 0 1 e 0 hd (by omega) he24 (by omega),
            if_neg (fun hc => hne hc.1)]
        · rw [hz]; rfl
        · rw [field_put _ hc1 d 1 fb.2 d 0 hd (by omega) hd (by omega),
            if_neg (fun hc => by omega),
            field_put _ hcm d 0 1 d 0 hd (by omega) hd (by omega), if_pos ⟨rfl, rfl⟩]
          rfl
    · cases h
      rw [e]
      exact ⟨hc, by simp⟩
  · cases h; exact ⟨hc, by simp⟩

theorem create_each_used :
    ∀ (names : List (List Nat)) (fs fs1 : FileSystem) (rs : List Int),
      create_each names fs = some (fs1, rs) → fs.ldisk.cache.length = 7 →
      fs1.ldisk.used = fs.ldisk.used + rs.count 0 := by
  intro names
  induction names with
  | nil =>
    intro fs fs1 rs h _
    simp only [create_each, Option.some.injEq, Prod.mk.injEq] at h
    rw [← h.1, ← h.2]
    rfl
  | cons nm names ih =>
    intro fs fs1 rs h hc
    simp only [create_each, Option.bind_eq_some, Option.map_eq_some'] at h
    obtain ⟨r, hr, q, hq, h⟩ := h
    simp only [Prod.mk.injEq] at h
    obtain ⟨hc1, hu1⟩ := create_used fs nm r hr hc
    have := ih r.1 q.1 q.2 (by rw [hq]) hc1
    rw [← h.1, ← h.2, this, hu1, List.count_cons]
    by_cases h0 : r.2 = 0
    · simp [h0]; omega
    · simp [h0]

/-- At most 23 successful calls.  In every sequence of `create` calls on the
freshly initialised disk that has a result (no call writes a directory entry
across the end of the buffer) at most 23 calls return 0: descriptor 0 is in
use for the directory and every successful call takes one of the other 23
descriptors. -/
theorem create_each_capacity (names : List (List Nat)) (fs : FileSystem) (rs : List Int)
    (h : create_each names FileSystem.fresh = some (fs, rs)) : rs.count 0 ≤ 23 := by
  have h1 := create_each_used names FileSystem.fresh fs rs h fresh_cache_length
  have h2 := used_le fs.ldisk
  rw [fresh_used] at h1
  omega

/-! ## Saving and restoring the disk -/

theorem read_line_spec (src : Nat) :
    ∀ (n j blk : Nat),
      ∃ r, Ldisk.read_line ((List.range' j n).map (fun k => 48 + bit src k)) n j blk = some r ∧
        ∀ k, r.testBit k = if j ≤ k ∧ k < j + n then src.testBit k else blk.testBit k := by
  intro n
  induction n with
  | zero =>
    intro j blk
    refine ⟨blk, by simp [Ldisk.read_line], ?_⟩
    intro k
    rw [if_neg (by omega)]
  | succ n ih =>
    intro j blk
    rw [List.range'_succ, List.map_cons, Ldisk.read_line]
    have hv : (if 48 + bit src j = 48 then 0 else 1) = bit src j := by
      have := bit_lt_two src j
      by_cases h0 : bit src j = 0
      · rw [h0]; rfl
      · have h1 : bit src j = 1 := by omega
        rw [h1]; rfl
    rw [hv]
    obtain ⟨r, hr, hbits⟩ := ih (j + 1) (assign_bit blk j (bit src j))
    refine ⟨r, hr, ?_⟩
    intro k
    rw [hbits k, testBit_assign_bit _ _ _ _ (bit_lt_two src j)]
    by_cases hkj : k = j
    · subst hkj
      rw [if_neg (by omega), if_pos rfl, if_pos (by omega)]
      have := bit_eq_one_iff src k
      by_cases hb : bit src k = 1
      · rw [this.1 hb]; exact decide_eq_true hb
      · have hf : src.testBit k = false := by
          cases hsk : src.testBit k
          · rfl
          · exact absurd (this.2 hsk) hb
        rw [hf]; exact decide_eq_false hb
    · rw [if_neg hkj]
      by_cases hr1 : j + 1 ≤ k ∧ k < j + 1 + n
      · rw [if_pos hr1, if_pos (by omega)]
      · rw [if_neg hr1, if_neg (by omega)]

theorem read_line_block_line (src blk : Nat) (hs : src < 2 ^ 512) (hb : blk < 2 ^ 512) :
    Ldisk.read_line (Ldisk.block_line src) 512 0 blk = some src := by
  obtain ⟨r, hr, hbits⟩ := read_line_spec src 512 0 blk
  unfold Ldisk.block_line
  rw [List.range_eq_range', hr]
  congr 1
  apply Nat.eq_of_testBit_eq
  intro k
  rw [hbits k]
  by_cases hk : k < 512
  · rw [if_pos ⟨Nat.zero_le k, by rw [Nat.zero_add]; exact hk⟩]
  · have hk1 : ¬ (0 ≤ k ∧ k < 0 + 512) := fun h => hk (by rw [Nat.zero_add] at h; exact h.2)
    have hle : 2 ^ 512 ≤ 2 ^ k := Nat.pow_le_pow_right (by decide) (Nat.le_of_not_lt hk)
    rw [if_neg hk1, Nat.testBit_lt_two_pow (lt_of_lt_of_le hb hle),
      Nat.testBit_lt_two_pow (lt_of_lt_of_le hs hle)]

theorem mem_set_lt (l : List Nat) (i x : Nat) (B : Nat) (hl : ∀ b ∈ l, b < B) (hx : x < B) :
    ∀ b ∈ l.set i x, b < B := by
  intro b hb
  rcases List.mem_or_eq_of_mem_set hb with h | h
  · exact hl b h
  · rw [h]; exact hx

theorem init_disk_lines_spec :
    ∀ (srcs : List Nat) (c : Nat) (ld : Ldisk), c + srcs.length ≤ 64 →
      ld.ldisk.length = 64 → (∀ b ∈ ld.ldisk, b < 2 ^ 512) → (∀ b ∈ srcs, b < 2 ^ 512) →
      ∃ ld1, Ldisk.init_disk_lines ld (srcs.map Ldisk.block_line) c = some ld1 ∧
        ld1.cache = ld.cache ∧ ld1.ldisk.length = 64 ∧
        ∀ k, ld1.ldisk.getD k 0
          = if c ≤ k ∧ k < c + srcs.length then srcs.getD (k - c) 0 else ld.ldisk.getD k 0 := by
  intro srcs
  induction srcs with
  | nil =>
    intro c ld _ hl _ _
    refine ⟨ld, rfl, rfl, hl, ?_⟩
    intro k
    rw [if_neg (by simp)]
  | cons src srcs ih =>
    intro c ld hc hl hb hs
    simp only [List.length_cons] at hc
    have hc64 : c < 64 := by omega
    have hsrc := hs src (List.mem_cons_self _ _)
    have hold : ld.ldisk.getD c 0 < 2 ^ 512 := by
      rw [List.getD_eq_getElem _ _ (by omega)]
      exact hb _ (List.getElem_mem _)
    obtain ⟨ld1, h1, h2, h3, h4⟩ := ih (c + 1)
      (Ldisk.mk (ld.ldisk.set c src) ld.cache ld.directory_descriptor) (by omega)
      (by simp only [List.length_set]; exact hl)
      (mem_set_lt _ _ _ _ hb hsrc) (fun b hb' => hs b (List.mem_cons_of_mem _ hb'))
    refine ⟨ld1, ?_, h2, h3, ?_⟩
    · rw [List.map_cons, Ldisk.init_disk_lines, if_pos hc64,
        read_line_block_line src _ hsrc hold]
      exact h1
    · intro k
      rw [h4 k]
      simp only []
      rw [getD_set_nat, List.length_cons]
      by_cases hk1 : c + 1 ≤ k ∧ k < c + 1 + srcs.length
      · rw [if_pos hk1, if_pos (by omega)]
        have e : k - c = (k - (c + 1)) + 1 := by omega
        rw [e, List.getD_cons_succ]
      · rw [if_neg hk1]
        by_cases hkc : c = k
        · subst hkc
          rw [if_pos ⟨rfl, by omega⟩, if_pos (by omega), Nat.sub_self, List.getD_cons_zero]
        · rw [if_neg (fun h => hkc h.1), if_neg (by omega)]

theorem write_cache_spec (ld : Ldisk) :
    (ld.write_cache).cache = ld.cache ∧ (ld.write_cache).ldisk.length = ld.ldisk.length ∧
      ∀ k, (ld.write_cache).ldisk.getD k 0
        = if k < 7 ∧ k < ld.ldisk.length then ld.cache.getD k 0 else ld.ldisk.getD k 0 := by
  refine ⟨rfl, ?_, ?_⟩
  · simp [Ldisk.write_cache, List.range_succ]
  · intro k
    have hr : List.range 7 = [0, 1, 2, 3, 4, 5, 6] := by decide
    unfold Ldisk.write_cache
    simp only [hr, List.foldl_cons, List.foldl_nil, getD_set_nat, List.length_set]
    by_cases hk : k < 7 ∧ k < ld.ldisk.length
    · rw [if_pos hk]
      obtain ⟨hk7, hkl⟩ := hk
      interval_cases k <;> simp [hkl]
    · rw [if_neg hk]
      have h6 : ¬ (6 = k ∧ 6 < ld.ldisk.length) := fun h => hk ⟨by omega, by omega⟩
      have h5 : ¬ (5 = k ∧ 5 < ld.ldisk.length) := fun h => hk ⟨by omega, by omega⟩
      have h4 : ¬ (4 = k ∧ 4 < ld.ldisk.length) := fun h => hk ⟨by omega, by omega⟩
      have h3 : ¬ (3 = k ∧ 3 < ld.ldisk.length) := fun h => hk ⟨by omega, by omega⟩
      have h2 : ¬ (2 = k ∧ 2 < ld.ldisk.length) := fun h => hk ⟨by omega, by omega⟩
      have h1 : ¬ (1 = k ∧ 1 < ld.ldisk.length) := fun h => hk ⟨by omega, by omega⟩
      have h0 : ¬ (0 = k ∧ 0 < ld.ldisk.length) := fun h => hk ⟨by omega, by omega⟩
      rw [if_neg h6, if_neg h5, if_neg h4, if_neg h3, if_neg h2, if_neg h1, if_neg h0]

theorem list_eq_of_getD (l1 l2 : List Nat) (hl : l1.length = l2.length)
    (h : ∀ k, k < l1.length → l1.getD k 0 = l2.getD k 0) : l1 = l2 := by
  apply List.ext_getElem hl
  intro k h1 h2
  have := h k h1
  rw [List.getD_eq_getElem _ _ h1, List.getD_eq_getElem _ _ h2] at this
  exact this

theorem getD_lt_of_mem (l : List Nat) (B : Nat) (hB : 0 < B) (h : ∀ b ∈ l, b < B) (k : Nat) :
    l.getD k 0 < B := by
  by_cases hk : k < l.length
  · rw [List.getD_eq_getElem _ _ hk]
    exact h _ (List.getElem_mem _)
  · rw [List.getD_eq_default _ _ (by omega)]
    exact hB

theorem read_cache_eq (disk cache : List Nat) (d : Int) (hc : cache.length = 7)
    (h : ∀ k, k < 7 → disk.getD k 0 = cache.getD k 0) :
    (Ldisk.mk disk [] d).read_cache.cache = cache := by
  unfold Ldisk.read_cache
  simp only []
  apply list_eq_of_getD
  · simp [hc]
  · intro k hk
    simp only [List.length_map, List.length_range] at hk
    rw [List.getD_eq_getElem _ _ (by simp; exact hk)]
    simp only [List.getElem_map, List.getElem_range]
    exact h k hk

theorem read_cache_ldisk (ld : Ldisk) : ld.read_cache.ldisk = ld.ldisk := rfl

theorem read_cache_cache (ld ld' : Ldisk) (h : ld'.ldisk = ld.ldisk) :
    ld'.read_cache.cache = ld.read_cache.cache := by
  unfold Ldisk.read_cache
  simp only [h]

theorem get_descriptor_congr (ld ld' : Ldisk) (h : ld'.cache = ld.cache) (d : Int) :
    ld'.get_descriptor d = ld.get_descriptor d := by
  unfold Ldisk.get_descriptor
  rw [h]

theorem read_block_congr (ld ld' : Ldisk) (i : Nat)
    (h : ld'.ldisk.getD i 0 = ld.ldisk.getD i 0) : ld'.read_block i = ld.read_block i := by
  unfold Ldisk.read_block
  rw [h]

theorem block_line_spec (block : Nat) :
    (Ldisk.block_line block).length = 512 ∧
      ∀ j, j < 512 → (Ldisk.block_line block).getD j 0 = 48 + bit block j := by
  unfold Ldisk.block_line
  refine ⟨by simp, ?_⟩
  intro j hj
  rw [List.getD_eq_getElem _ _ (by simp; exact hj)]
  simp

/-- C19 (amended): the round trip of `save_disk` and `init_disk(path)`.  For
every disk of 64 blocks and 7 cached blocks of 512 bits, `save_disk` writes 64
lines of 512 characters, character `j` of line `i` being the character 0 or 1
of bit `j` of cached block `i` for `i` in 0..6 and of physical block `i` for
`i` in 7..63.  `init_disk(path)` on these lines (on any disk object of 64
blocks) gives the physical blocks 0..6 equal to the cache at save time, the
physical blocks 7..63 equal to the data blocks at save time and a cache equal
to the cache at save time, so `get_descriptor` returns the same values as
before the save, `read_block` returns the same values as before the save for
the blocks 7..63, and for the blocks 0..6 it returns the characters of the
cached blocks. -/
theorem save_restore_round_trip (ld ld0 : Ldisk) (hl : ld.ldisk.length = 64)
    (hc : ld.cache.length = 7) (hb : ∀ b ∈ ld.ldisk, b < 2 ^ 512)
    (hcb : ∀ b ∈ ld.cache, b < 2 ^ 512) (hl0 : ld0.ldisk.length = 64)
    (hb0 : ∀ b ∈ ld0.ldisk, b < 2 ^ 512) :
    ld.save_disk.2.length = 64 ∧
    (∀ i, i < 64 → (ld.save_disk.2.getD i []).length = 512 ∧
      ∀ j, j < 512 → (ld.save_disk.2.getD i []).getD j 0
        = 48 + bit (if i < 7 then ld.cache.getD i 0 else ld.ldisk.getD i 0) j) ∧
    ∃ ld1, ld0.init_disk_file (some ld.save_disk.2) = some ld1 ∧
      ld1.cache = ld.cache ∧
      ld1.ldisk = ld.cache ++ ld.ldisk.drop 7 ∧
      (∀ d, ld1.get_descriptor d = ld.get_descriptor d) ∧
      (∀ i, 7 ≤ i → ld1.read_block i = ld.read_block i) ∧
      (∀ i, i < 7 → ld1.read_block i = some (Ldisk.block_bytes (ld.cache.getD i 0))) := by
  obtain ⟨w1, w2, w3⟩ := write_cache_spec ld
  have hpos : 0 < 2 ^ 512 := Nat.two_pow_pos 512
  have hwb : ∀ b ∈ ld.write_cache.ldisk, b < 2 ^ 512 := by
    intro b hb'
    obtain ⟨k, hk, rfl⟩ := List.getElem_of_mem hb'
    have := w3 k
    rw [List.getD_eq_getElem _ _ hk] at this
    rw [this]
    split
    · exact getD_lt_of_mem _ _ hpos hcb k
    · exact getD_lt_of_mem _ _ hpos hb k
  have hlines : ld.save_disk.2 = ld.write_cache.ldisk.map Ldisk.block_line := rfl
  obtain ⟨ld1, h1, h2, h3, h4⟩ := init_disk_lines_spec ld.write_cache.ldisk 0 ld0
    (by rw [w2, hl]) hl0 hb0 hwb
  have hdisk : ld1.ldisk = ld.write_cache.ldisk := by
    apply list_eq_of_getD _ _ (by rw [h3, w2, hl])
    intro k hk
    rw [h4 k, if_pos ⟨Nat.zero_le k, by rw [Nat.zero_add, w2, hl, ← h3]; exact hk⟩,
      Nat.sub_zero]
  have hwd : ld.write_cache.ldisk = ld.cache ++ ld.ldisk.drop 7 := by
    apply list_eq_of_getD _ _ (by
      rw [w2, List.length_append, List.length_drop, hc, hl])
    intro k hk
    rw [w3 k]
    by_cases hk7 : k < 7
    · rw [if_pos ⟨hk7, by omega⟩, List.getD_append _ _ _ _ (by omega)]
    · rw [if_neg (fun h => hk7 h.1), List.getD_append_right _ _ _ _ (by omega), hc]
      simp only [List.getD_eq_getElem?_getD, List.getElem?_drop]
      congr 2
      omega
  have hcache : ({ ld1.read_cache with directory_descriptor := 0 } : Ldisk).cache = ld.cache := by
    show ld1.read_cache.cache = ld.cache
    rw [read_cache_cache (Ldisk.mk ld1.ldisk [] 0) ld1 rfl]
    apply read_cache_eq _ _ _ hc
    intro k hk
    show ld1.ldisk.getD k 0 = _
    rw [hdisk, w3 k, if_pos ⟨hk, by omega⟩]
  refine ⟨by rw [hlines, List.length_map, w2, hl], ?_, ?_⟩
  · intro i hi
    have hget : ld.save_disk.2.getD i [] = Ldisk.block_line (ld.write_cache.ldisk.getD i 0) := by
      rw [hlines, List.getD_eq_getElem _ _ (by rw [List.length_map, w2, hl]; exact hi),
        List.getElem_map, List.getD_eq_getElem _ _ (by rw [w2, hl]; exact hi)]
    rw [hget, w3 i]
    have hbl := block_line_spec
      (if i < 7 ∧ i < ld.ldisk.length then ld.cache.getD i 0 else ld.ldisk.getD i 0)
    have hif : (if i < 7 ∧ i < ld.ldisk.length then ld.cache.getD i 0 else ld.ldisk.getD i 0)
        = (if i < 7 then ld.cache.getD i 0 else ld.ldisk.getD i 0) := by
      by_cases h7 : i < 7
      · rw [if_pos ⟨h7, by omega⟩, if_pos h7]
      · rw [if_neg (fun h => h7 h.1), if_neg h7]
    rw [hif] at hbl ⊢
    exact hbl
  · refine ⟨{ ld1.read_cache with directory_descriptor := 0 }, ?_, hcache, ?_, ?_, ?_, ?_⟩
    · unfold Ldisk.init_disk_file
      simp only []
      rw [hlines, h1]
      rfl
    · show ld1.ldisk = _
      rw [hdisk, hwd]
    · intro d
      exact get_descriptor_congr _ _ hcache d
    · intro i hi
      apply read_block_congr
      show ld1.ldisk.getD i 0 = _
      rw [hdisk, w3 i, if_neg (by omega)]
    · intro i hi
      unfold Ldisk.read_block Ldisk.block_bytes
      rw [if_pos (by omega)]
      show some ((List.range 64).map (fun c => from_string8 (Ldisk.bit_string8
        (ld1.ldisk.getD i 0) c))) = _
      rw [hdisk, w3 i, if_pos ⟨hi, by omega⟩]

/-- C19, an instance: the disk after `create("a")`, `open("a")` and a write of
10 characters is saved and restored into an empty disk object. -/
theorem save_restore_round_trip_witness :
    ((((run [Op.create [97], Op.open [97], Op.write 1 (List.replicate 10 120)]
        FileSystem.fresh).getD FileSystem.fresh).ldisk.ldisk.length = 64 ∧
      ((run [Op.create [97], Op.open [97], Op.write 1 (List.replicate 10 120)]
        FileSystem.fresh).getD FileSystem.fresh).ldisk.cache.length = 7 ∧
      (∀ b ∈ ((run [Op.create [97], Op.open [97], Op.write 1 (List.replicate 10 120)]
        FileSystem.fresh).getD FileSystem.fresh).ldisk.ldisk, b < 2 ^ 512) ∧
      (∀ b ∈ ((run [Op.create [97], Op.open [97], Op.write 1 (List.replicate 10 120)]
        FileSystem.fresh).getD FileSystem.fresh).ldisk.cache, b < 2 ^ 512)) ∧
      FileSystem.blank.ldisk.ldisk.length = 64 ∧
      (∀ b ∈ FileSystem.blank.ldisk.ldisk, b < 2 ^ 512)) ∧
    ∃ ld1, FileSystem.blank.ldisk.init_disk_file
        (some ((run [Op.create [97], Op.open [97], Op.write 1 (List.replicate 10 120)]
          FileSystem.fresh).getD FileSystem.fresh).ldisk.save_disk.2) = some ld1 ∧
      ld1.cache = ((run [Op.create [97], Op.open [97], Op.write 1 (List.replicate 10 120)]
        FileSystem.fresh).getD FileSystem.fresh).ldisk.cache ∧
      (∀ d, ld1.get_descriptor d
        = ((run [Op.create [97], Op.open [97], Op.write 1 (List.replicate 10 120)]
          FileSystem.fresh).getD FileSystem.fresh).ldisk.get_descriptor d) ∧
      (∀ i, 7 ≤ i → ld1.read_block i
        = ((run [Op.create [97], Op.open [97], Op.write 1 (List.replicate 10 120)]
          FileSystem.fresh).getD FileSystem.fresh).ldisk.read_block i) := by
  obtain ⟨fs, hfs, hv⟩ := Option.map_eq_some'.1 written_file
  have e : (run [Op.create [97], Op.open [97], Op.write 1 (List.replicate 10 120)]
      FileSystem.fresh).getD FileSystem.fresh = fs := by rw [hfs]; rfl
  rw [e]
  simp only [Prod.mk.injEq, List.cons.injEq, and_true, decide_eq_true_eq] at hv
  obtain ⟨⟨h1, h2, _, _, _⟩, _, _, _, h3, h4⟩ := hv
  have h5 : FileSystem.blank.ldisk.ldisk.length = 64 := by decide!
  have h6 : ∀ b ∈ FileSystem.blank.ldisk.ldisk, b < 2 ^ 512 := by decide!
  refine ⟨⟨⟨h1, h2, h3, h4⟩, h5, h6⟩, ?_⟩
  obtain ⟨_, _, ld1, c1, c2, _, c4, c5, _⟩ := save_restore_round_trip fs.ldisk _ h1 h2 h3 h4 h5 h6
  exact ⟨ld1, c1, c2, c4, c5⟩

/-! ## The descriptor indices in the open file table -/

theorem IndexKept.same (fs : FileSystem) : IndexKept fs fs := fun _ => Or.inl rfl

theorem IndexKept.chain {a b c : FileSystem} (h1 : IndexKept a b) (h2 : IndexKept b c) :
    IndexKept a c := by
  intro j
  rcases h2 j with h | h
  · rcases h1 j with g | g
    · exact Or.inl (h.trans g)
    · exact Or.inr (h.trans g)
  · exact Or.inr h

theorem IndexKept.of_eq {fs fs1 : FileSystem} (h : ∀ j, (fs1.oft j).index = (fs.oft j).index) :
    IndexKept fs fs1 := fun j => Or.inl (h j)

theorem IndexKept.distinct {fs fs1 : FileSystem} (h : IndexKept fs fs1)
    (hd : SlotsDistinct fs) : SlotsDistinct fs1 := by
  intro i j hi1 hi3 hj1 hj3 hij hocc
  rcases h i with gi | gi
  · rw [gi] at hocc ⊢
    rcases h j with gj | gj
    · rw [gj]; exact hd i j hi1 hi3 hj1 hj3 hij hocc
    · rw [gj]; exact hocc
  · exact absurd gi hocc

theorem index_set_oft (fs : FileSystem) (i : Nat) (e : FILE_TABLE)
    (he : e.index = (fs.oft i).index) (j : Nat) :
    ((fs.set_oft i e).oft j).index = (fs.oft j).index := by
  unfold FileSystem.oft FileSystem.set_oft
  simp only []
  rw [getD_set_any]
  by_cases h : i = j ∧ i < fs.open_file_table.length
  · rw [if_pos h, he, ← h.1]; rfl
  · rw [if_neg h]

theorem index_set_oft_free (fs : FileSystem) (i : Nat) (e : FILE_TABLE) (he : e.index = -1) :
    IndexKept fs (fs.set_oft i e) := by
  intro j
  unfold FileSystem.oft FileSystem.set_oft
  simp only []
  rw [getD_set_any]
  by_cases h : i = j ∧ i < fs.open_file_table.length
  · rw [if_pos h]; exact Or.inr he
  · rw [if_neg h]; exact Or.inl rfl

theorem find_entry_blocks_index (file_name dir_descriptor : List Nat) :
    ∀ (blocks : List Nat) (fs : FileSystem) (search : List Nat) (r : FileSystem × Int),
      FileSystem.find_entry_blocks file_name dir_descriptor blocks fs search = some r →
      ∀ j, (r.1.oft j).index = (fs.oft j).index := by
  intro blocks
  induction blocks with
  | nil =>
    intro fs search r h
    simp only [FileSystem.find_entry_blocks] at h
    cases h; intro j; rfl
  | cons b rest ih =>
    intro fs search r h
    simp only [FileSystem.find_entry_blocks, Option.bind_eq_bind, Option.bind_eq_some] at h
    obtain ⟨r_w, _, h⟩ := h
    have e := index_set_oft fs 0 ⟨r_w, (fs.oft 0).index, (fs.oft 0).buffer_index,
      dir_descriptor.getD b 0⟩ rfl
    split at h
    · cases h; exact e
    · have := ih _ _ _ h
      intro j
      rw [this j]; exact e j

theorem find_directory_entry_index (fs : FileSystem) (file_name : List Nat)
    (r : FileSystem × Int) (h : fs.find_directory_entry file_name = some r) :
    ∀ j, (r.1.oft j).index = (fs.oft j).index :=
  find_entry_blocks_index _ _ _ _ _ _ h

theorem get_desc_index_index (fs : FileSystem) (file_name : List Nat)
    (r : FileSystem × Int) (h : fs.get_desc_index file_name = some r) :
    ∀ j, (r.1.oft j).index = (fs.oft j).index := by
  simp only [FileSystem.get_desc_index, Option.bind_eq_bind, Option.bind_eq_some] at h
  obtain ⟨q, hq, h⟩ := h
  have := find_directory_entry_index fs file_name q hq
  split at h
  · split at h
    · cases h; exact this
    · cases h
  · cases h; exact this

theorem create_entry_blocks_index (entry dir_descriptor : List Nat) :
    ∀ (blocks : List Nat) (fs fs' : FileSystem),
      FileSystem.create_entry_blocks entry dir_descriptor blocks fs = some fs' →
      ∀ j, (fs'.oft j).index = (fs.oft j).index := by
  intro blocks
  induction blocks with
  | nil =>
    intro fs fs' h
    simp only [FileSystem.create_entry_blocks] at h
    cases h; intro j; rfl
  | cons b rest ih =>
    intro fs fs' h
    simp only [FileSystem.create_entry_blocks, Option.bind_eq_bind, Option.bind_eq_some] at h
    obtain ⟨r_w, _, h⟩ := h
    have e := index_set_oft fs 0 ⟨r_w, (fs.oft 0).index, (fs.oft 0).buffer_index,
      dir_descriptor.getD b 0⟩ rfl
    split at h
    · simp only [Option.bind_eq_bind, Option.bind_eq_some] at h
      obtain ⟨r_w1, _, ld, hld, h⟩ := h
      cases h
      intro j
      refine (index_set_oft _ 0 _ ?_ j).trans (e j)
      rfl
    · have := ih _ _ h
      intro j
      rw [this j]; exact e j

theorem create_index (fs : FileSystem) (file_name : List Nat) (r : FileSystem × Int)
    (h : fs.create file_name = some r) : ∀ j, (r.1.oft j).index = (fs.oft j).index := by
  unfold FileSystem.create at h
  split at h
  · simp only [Option.bind_eq_bind, Option.bind_eq_some] at h
    obtain ⟨q, hq, h⟩ := h
    have e := find_directory_entry_index fs file_name q hq
    split at h
    · simp only [Option.bind_eq_bind, Option.bind_eq_some] at h
      obtain ⟨fb, hfb, ds, hds, h⟩ := h
      split at h
      · simp only [Option.bind_eq_bind, Option.bind_eq_some] at h
        obtain ⟨fs2, h2, h⟩ := h
        cases h
        have := create_entry_blocks_index _ _ _ _ _ h2
        intro j
        rw [this j]; exact e j
      · cases h; exact e
    · cases h; exact e
  · cases h; intro j; rfl

theorem close_index (fs : FileSystem) (index : Int) (r : FileSystem × Int)
    (h : fs.close index = some r) : IndexKept fs r.1 := by
  unfold FileSystem.close at h
  split at h
  · simp only [Option.bind_eq_bind, Option.bind_eq_some] at h
    obtain ⟨ld, hld, h⟩ := h
    cases h
    exact index_set_oft_free (FileSystem.mk ld fs.open_file_table) _ _ rfl
  · cases h; exact IndexKept.same fs

theorem destroy_clear_index :
    ∀ (rest : List Nat) (loc : Nat) (fs fs' : FileSystem),
      FileSystem.destroy_clear rest loc fs = some fs' →
      ∀ j, (fs'.oft j).index = (fs.oft j).index := by
  intro rest
  induction rest with
  | nil => intro loc fs fs' h; simp [FileSystem.destroy_clear] at h
  | cons c rest ih =>
    intro loc fs fs' h
    simp only [FileSystem.destroy_clear] at h
    split at h
    · simp only [Option.bind_eq_bind, Option.bind_eq_some] at h
      obtain ⟨fs1, h1, h⟩ := h
      cases h
      have e1 : fs1.open_file_table = fs.open_file_table := by
        simp only [FileSystem.remove_descriptor, Option.bind_eq_bind, Option.bind_eq_some] at h1
        obtain ⟨l0, _, l1, _, l2, _, l3, _, h1⟩ := h1
        cases h1; rfl
      intro j
      refine (index_set_oft _ 0 _ ?_ j).trans ?_
      · rfl
      · unfold FileSystem.oft
        rw [e1]
    · have := ih _ _ _ h
      intro j
      rw [this j]
      refine index_set_oft _ 0 _ ?_ j
      rfl

theorem destroy_index (fs : FileSystem) (file_name : List Nat)
    (r : FileSystem × Option Int) (h : fs.destroy file_name = some r) : IndexKept fs r.1 := by
  unfold FileSystem.destroy at h
  simp only [Option.bind_eq_bind, Option.bind_eq_some] at h
  obtain ⟨q, hq, h⟩ := h
  have e := IndexKept.of_eq (find_directory_entry_index fs file_name q hq)
  split at h
  · simp only [Option.bind_eq_bind, Option.bind_eq_some] at h
    obtain ⟨g, hg, fs2, h2, h⟩ := h
    have eg := IndexKept.of_eq (get_desc_index_index q.1 file_name g hg)
    have e2 : IndexKept g.1 fs2 := by
      split at h2
      · simp only [Option.map_eq_some'] at h2
        obtain ⟨c, hc, rfl⟩ := h2
        exact close_index _ _ _ hc
      · split at h2
        · simp only [Option.map_eq_some'] at h2
          obtain ⟨c, hc, rfl⟩ := h2
          exact close_index _ _ _ hc
        · split at h2
          · simp only [Option.map_eq_some'] at h2
            obtain ⟨c, hc, rfl⟩ := h2
            exact close_index _ _ _ hc
          · cases h2; exact IndexKept.same _
    split at h
    · simp only [Option.bind_eq_bind, Option.bind_eq_some] at h
      obtain ⟨fs3, h3, ld, hld, h⟩ := h
      cases h
      have e3 := IndexKept.of_eq (destroy_clear_index _ _ _ _ h3)
      refine (((e.chain eg).chain e2).chain e3).chain (IndexKept.of_eq (fun j => ?_))
      refine index_set_oft (FileSystem.mk ld fs3.open_file_table) 0 _ ?_ j
      rfl
    · cases h
  · cases h; exact e

theorem open_distinct (fs : FileSystem) (file_name : List Nat) (r : FileSystem × Int)
    (h : fs.open file_name = some r) (hd : SlotsDistinct fs) : SlotsDistinct r.1 := by
  unfold FileSystem.open at h
  simp only [Option.bind_eq_bind, Option.bind_eq_some] at h
  obtain ⟨g, hg, h⟩ := h
  have eg := get_desc_index_index fs file_name g hg
  have hd1 : SlotsDistinct g.1 := (IndexKept.of_eq eg).distinct hd
  split at h
  · rename_i hcond
    split at h
    · cases h; exact hd1
    · rename_i hnot
      simp only [Option.bind_eq_bind, Option.bind_eq_some] at h
      obtain ⟨r_w, _, h⟩ := h
      cases h
      have hne : ∀ j, 1 ≤ j → j ≤ 3 → (g.1.oft j).index ≠ g.2 := by
        intro j h1 h3 hc
        apply hnot
        interval_cases j
        · exact Or.inl hc
        · exact Or.inr (Or.inl hc)
        · exact Or.inr (Or.inr hc)
      have hget : ∀ j, ((g.1.set_oft (FileSystem.find_oft_entry fs).toNat
          ⟨r_w, g.2, 0, (g.1.ldisk.get_descriptor g.2).getD 1 0⟩).oft j)
          = if (FileSystem.find_oft_entry fs).toNat = j ∧
              (FileSystem.find_oft_entry fs).toNat < g.1.open_file_table.length
            then ⟨r_w, g.2, 0, (g.1.ldisk.get_descriptor g.2).getD 1 0⟩ else g.1.oft j := by
        intro j
        unfold FileSystem.oft FileSystem.set_oft
        simp only []
        rw [getD_set_any]
      intro i j hi1 hi3 hj1 hj3 hij hocc
      rw [hget i] at hocc ⊢
      rw [hget j]
      by_cases ci : (FileSystem.find_oft_entry fs).toNat = i ∧
          (FileSystem.find_oft_entry fs).toNat < g.1.open_file_table.length
      · have cj : ¬ ((FileSystem.find_oft_entry fs).toNat = j ∧
            (FileSystem.find_oft_entry fs).toNat < g.1.open_file_table.length) :=
          fun c => hij (ci.1.symm.trans c.1)
        rw [if_pos ci, if_neg cj]
        exact fun hc => hne j hj1 hj3 hc.symm
      · rw [if_neg ci] at hocc ⊢
        by_cases cj : (FileSystem.find_oft_entry fs).toNat = j ∧
            (FileSystem.find_oft_entry fs).toNat < g.1.open_file_table.length
        · rw [if_pos cj]
          exact hne i hi1 hi3
        · rw [if_neg cj]
          exact hd1 i j hi1 hi3 hj1 hj3 hij hocc
  · cases h; exact hd1

theorem lseek_index (fs : FileSystem) (index pos : Int) (r : FileSystem × Int)
    (h : fs.lseek index pos = some r) : ∀ j, (r.1.oft j).index = (fs.oft j).index := by
  unfold FileSystem.lseek at h
  split at h
  · simp only [] at h
    split at h
    · split at h
      · simp only [Option.bind_eq_bind, Option.bind_eq_some] at h
        obtain ⟨r_w, _, h⟩ := h
        cases h
        intro j
        refine index_set_oft _ _ _ ?_ j
        rfl
      · cases h; intro j; rfl
    · cases h; intro j; rfl
  · cases h

theorem read_loop_index (index : Nat) (file_desc : List Nat) :
    ∀ (fuel : Nat) (fs : FileSystem) (left block_index : Nat) (mem_area : List Nat)
      (bytes_read : Nat) (r : FileSystem × List Nat × Nat),
      FileSystem.read_loop index file_desc fuel fs left block_index mem_area bytes_read = some r →
      ∀ j, (r.1.oft j).index = (fs.oft j).index := by
  intro fuel
  induction fuel with
  | zero => intro fs left bi m br r h; simp [FileSystem.read_loop] at h
  | succ fuel ih =>
    intro fs left bi m br r h
    simp only [FileSystem.read_loop, Option.bind_eq_bind, Option.bind_eq_some] at h
    obtain ⟨res, _, h⟩ := h
    generalize (if 64 ≤ res.1 then bi + 1 else bi) = bi1 at h
    have e1 : ∀ j, ((fs.set_oft index ⟨(fs.oft index).r_w, (fs.oft index).index, res.1,
        (fs.oft index).buffer_block⟩).oft j).index = (fs.oft j).index := by
      intro j
      refine index_set_oft fs index _ ?_ j
      rfl
    split at h
    · split at h
      · cases h; exact e1
      · simp only [Option.bind_eq_bind, Option.bind_eq_some] at h
        obtain ⟨r_w, _, h⟩ := h
        have := ih _ _ _ _ _ _ h
        intro j
        rw [this j]
        refine (index_set_oft _ index _ ?_ j).trans (e1 j)
        rfl
    · cases h; exact e1

theorem read_index (fs : FileSystem) (index : Int) (mem_area : List Nat) (count : Int)
    (r : FileSystem × List Nat × Int) (h : fs.read index mem_area count = some r) :
    ∀ j, (r.1.oft j).index = (fs.oft j).index := by
  unfold FileSystem.read at h
  split at h
  · simp only [Option.bind_eq_bind, Option.bind_eq_some] at h
    obtain ⟨res, hres, h⟩ := h
    cases h
    split at hres
    · exact read_loop_index _ _ _ _ _ _ _ _ _ hres
    · cases hres; intro j; rfl
  · cases h; intro j; rfl

theorem write_loop_index (index : Nat) :
    ∀ (fuel : Nat) (fs : FileSystem) (data file_desc : List Nat) (block_index bytes_written : Nat)
      (r : FileSystem × Nat),
      FileSystem.write_loop index fuel fs data file_desc block_index bytes_written = some r →
      ∀ j, (r.1.oft j).index = (fs.oft j).index := by
  intro fuel
  induction fuel with
  | zero => intro fs data fd bi bw r h; simp [FileSystem.write_loop] at h
  | succ fuel ih =>
    intro fs data fd bi bw r h
    simp only [FileSystem.write_loop, Option.bind_eq_bind, Option.bind_eq_some] at h
    obtain ⟨res, _, ld, hld, h⟩ := h
    have e1 : ∀ j, (((FileSystem.mk ld fs.open_file_table).set_oft index ⟨res.1,
        (fs.oft index).index, res.2.1, (fs.oft index).buffer_block⟩).oft j).index
        = (fs.oft j).index := by
      intro j
      refine index_set_oft (FileSystem.mk ld fs.open_file_table) index _ ?_ j
      rfl
    split at h
    · simp only [Option.bind_eq_bind, Option.bind_eq_some] at h
      obtain ⟨alloc, halloc, r_w, _, h⟩ := h
      have := ih _ _ _ _ _ _ h
      intro j
      rw [this j]
      refine (index_set_oft _ index _ ?_ j).trans (e1 j)
      rfl
    · cases h; exact e1

theorem write_index (fs : FileSystem) (index : Int) (data : List Nat)
    (r : FileSystem × Int) (h : fs.write index data = some r) :
    ∀ j, (r.1.oft j).index = (fs.oft j).index := by
  unfold FileSystem.write at h
  split at h
  · simp only [Option.bind_eq_bind, Option.bind_eq_some] at h
    obtain ⟨res, hres, ld, hld, h⟩ := h
    cases h
    split at hres
    · exact write_loop_index _ _ _ _ _ _ _ _ hres
    · cases hres; intro j; rfl
  · cases h; intro j; rfl

theorem step_distinct (fs fs' : FileSystem) (op : Op) (h : step fs op = some fs')
    (hd : SlotsDistinct fs) : SlotsDistinct fs' := by
  cases op with
  | create n =>
    simp only [step, Option.map_eq_some'] at h
    obtain ⟨r, hr, rfl⟩ := h
    exact (IndexKept.of_eq (create_index fs n r hr)).distinct hd
  | destroy n =>
    simp only [step, Option.map_eq_some'] at h
    obtain ⟨r, hr, rfl⟩ := h
    exact (destroy_index fs n r hr).distinct hd
  | «open» n =>
    simp only [step, Option.map_eq_some'] at h
    obtain ⟨r, hr, rfl⟩ := h
    exact open_distinct fs n r hr hd
  | close i =>
    simp only [step, Option.map_eq_some'] at h
    obtain ⟨r, hr, rfl⟩ := h
    exact (close_index fs i r hr).distinct hd
  | read i c =>
    simp only [step, Option.map_eq_some'] at h
    obtain ⟨r, hr, rfl⟩ := h
    exact (IndexKept.of_eq (read_index fs i [] c r hr)).distinct hd
  | write i data =>
    simp only [step, Option.map_eq_some'] at h
    obtain ⟨r, hr, rfl⟩ := h
    exact (IndexKept.of_eq (write_index fs i data r hr)).distinct hd
  | lseek i p =>
    simp only [step, Option.map_eq_some'] at h
    obtain ⟨r, hr, rfl⟩ := h
    exact (IndexKept.of_eq (lseek_index fs i p r hr)).distinct hd

theorem run_distinct : ∀ (ops : List Op) (fs fs' : FileSystem), run ops fs = some fs' →
    SlotsDistinct fs → SlotsDistinct fs' := by
  intro ops
  induction ops with
  | nil => intro fs fs' h hd; simp only [run] at h; cases h; exact hd
  | cons op ops ih =>
    intro fs fs' h hd
    simp only [run, Option.bind_eq_some] at h
    obtain ⟨fs1, h1, h2⟩ := h
    exact ih fs1 fs' h2 (step_distinct fs fs1 op h1 hd)

theorem fresh_distinct : SlotsDistinct FileSystem.fresh := by
  intro i j hi1 hi3 _ _ _ hocc
  exfalso
  apply hocc
  interval_cases i <;> decide!

/-- The first half of P3: in every state that a sequence of calls reaches from
the freshly initialised disk, the descriptor indices of the occupied entries
1..3 of the open file table are pairwise distinct. -/
theorem reachable_slots_distinct (fs : FileSystem) (h : Reachable fs) : SlotsDistinct fs := by
  obtain ⟨ops, hops⟩ := h
  exact run_distinct ops _ _ hops fresh_distinct

/-- What the double-open check of `open` does: when one of the entries 1..3 of
the table holds the index that `get_desc_index` computes for the name, `open`
returns -1, and the state is the one that `get_desc_index` leaves (the entries
1..3 have their descriptor indices, only the directory buffer was reloaded). -/
theorem open_index_in_use (fs fs1 : FileSystem) (file_name : List Nat) (d : Int)
    (hg : fs.get_desc_index file_name = some (fs1, d))
    (hopen : (fs1.oft 1).index = d ∨ (fs1.oft 2).index = d ∨ (fs1.oft 3).index = d) :
    fs.open file_name = some (fs1, -1) ∧ ∀ j, (fs1.oft j).index = (fs.oft j).index := by
  refine ⟨?_, get_desc_index_index fs file_name (fs1, d) hg⟩
  unfold FileSystem.open
  simp only [Option.bind_eq_bind]
  rw [hg]
  simp only [Option.some_bind]
  split
  · simp only [hopen, if_true]
  · rfl

/-- What `lseek` does for a position in 0..191 below the size: the block slot
is `pos / 64 + 1`; when the slot is 0 the state is unchanged and the old
`buffer_index` is returned; otherwise `buffer_index` becomes `pos % 64`,
`buffer_block` becomes the block of the slot, and the buffer is read from the
disk when that block is not the one that was in the buffer (else it is kept). -/
theorem lseek_in_range (fs : FileSystem) (index : Int) (pos : Nat)
    (hocc : fs.is_oft_entry index = true) (h192 : pos < 192)
    (hsize : pos < (fs.ldisk.get_descriptor (fs.oft index.toNat).index).getD 0 0) :
    (((fs.ldisk.get_descriptor (fs.oft index.toNat).index).getD (pos / 64 + 1) 0 = 0 →
      fs.lseek index (pos : Int) = some (fs, (fs.oft index.toNat).buffer_index)) ∧
    ((fs.ldisk.get_descriptor (fs.oft index.toNat).index).getD (pos / 64 + 1) 0 ≠ 0 →
      fs.lseek index (pos : Int)
        = ((if (fs.ldisk.get_descriptor (fs.oft index.toNat).index).getD (pos / 64 + 1) 0
              ≠ (fs.oft index.toNat).buffer_block
            then fs.ldisk.read_block
              ((fs.ldisk.get_descriptor (fs.oft index.toNat).index).getD (pos / 64 + 1) 0)
            else some (fs.oft index.toNat).r_w).map fun r_w =>
          (fs.set_oft index.toNat ⟨r_w, (fs.oft index.toNat).index, ((pos % 64 : Nat) : Int),
            (fs.ldisk.get_descriptor (fs.oft index.toNat).index).getD (pos / 64 + 1) 0⟩,
            ((pos % 64 : Nat) : Int))))) := by
  have hlt : ((pos : Nat) : Int)
      < (((fs.ldisk.get_descriptor (fs.oft index.toNat).index).getD 0 0 : Nat) : Int) := by
    omega
  have hbi : FileSystem.lseek_block_index (pos : Int) = pos / 64 + 1 := by
    unfold FileSystem.lseek_block_index
    by_cases c1 : ((pos : Nat) : Int) < 64
    · rw [if_pos c1]; omega
    · rw [if_neg c1]
      by_cases c2 : ((pos : Nat) : Int) ≥ 64 ∧ ((pos : Nat) : Int) < 128
      · rw [if_pos c2]; omega
      · rw [if_neg c2]
        have c3 : ((pos : Nat) : Int) ≥ 128 ∧ ((pos : Nat) : Int) < 192 := by omega
        rw [if_pos c3]; omega
  have hidx : ((pos : Nat) : Int) - (((pos / 64 + 1 : Nat) : Int) - 1) * 64
      = ((pos % 64 : Nat) : Int) := by omega
  constructor
  · intro hz
    unfold FileSystem.lseek
    rw [hocc]
    simp only [if_true]
    rw [if_pos hlt, hbi, if_neg (not_not.2 hz)]
  · intro hnz
    unfold FileSystem.lseek
    rw [hocc]
    simp only [if_true]
    rw [if_pos hlt, hbi, if_pos hnz]
    simp only [Option.bind_eq_bind, hidx]
    split
    · cases fs.ldisk.read_block
        ((fs.ldisk.get_descriptor (fs.oft index.toNat).index).getD (pos / 64 + 1) 0) <;> rfl
    · rfl

/-! ## What a failing `create` does -/

/-- The two tests of `create`: a name of more than 4 characters is rejected
without any change, and a name that `find_directory_entry` finds is rejected
in the state that the search leaves. -/
theorem create_rejects (fs : FileSystem) (file_name : List Nat) :
    (4 < file_name.length → fs.create file_name = some (fs, -1)) ∧
    (∀ q : FileSystem × Int, file_name.length ≤ 4 →
      fs.find_directory_entry file_name = some q → q.2 ≠ -1 →
      fs.create file_name = some (q.1, -1) ∧ q.1.ldisk = fs.ldisk) := by
  constructor
  · intro h
    unfold FileSystem.create
    rw [if_neg (by omega)]
  · intro q hlen hq hne
    refine ⟨?_, find_directory_entry_ldisk fs file_name q hq⟩
    unfold FileSystem.create
    rw [if_pos hlen]
    simp only [Option.bind_eq_bind]
    rw [hq]
    simp only [Option.some_bind]
    rw [if_neg hne]

/-- The effect of a `create` that returns -1 on the disk: either nothing is
changed, or no descriptor is free and one bit of the bitmap that was clear, of
a block in 7..63, is set. -/
theorem failed_create_effect (fs : FileSystem) (file_name : List Nat) (r : FileSystem × Int)
    (h : fs.create file_name = some r) (hc : fs.ldisk.cache.length = 7) (hr : r.2 = -1) :
    r.1.ldisk = fs.ldisk ∨
      ((∀ d, d < 24 → fs.ldisk.field d 0 ≠ 0) ∧
        ∃ b, 7 ≤ b ∧ b ≤ 63 ∧ bit (fs.ldisk.cache.getD 0 0) b = 0 ∧
          r.1.ldisk = fs.ldisk.mark b 1) := by
  unfold FileSystem.create at h
  split at h
  · simp only [Option.bind_eq_bind, Option.bind_eq_some] at h
    obtain ⟨q, hq, h⟩ := h
    have e := find_directory_entry_ldisk fs file_name q hq
    split at h
    · simp only [Option.bind_eq_bind, Option.bind_eq_some] at h
      obtain ⟨fb, hfb, ds, hds, h⟩ := h
      rw [e] at hfb
      obtain ⟨h7, h63, hbit, hfb1⟩ := find_free_block_spec fs.ldisk fb hfb
      have hcm : fb.1.cache.length = 7 := by rw [hfb1, length_mark]; exact hc
      obtain ⟨r0, hr0, hcase⟩ := init_descriptor_spec fb.1 hcm fb.2
      rw [hds] at hr0
      cases hr0
      rcases hcase with ⟨hds1, hall⟩ | ⟨d, hd, _, _, hds1⟩
      · rw [hds1] at h
        simp only [ne_eq, not_true_eq_false, if_false] at h
        cases h
        right
        refine ⟨?_, fb.2, h7, h63, hbit, hfb1⟩
        intro d hd
        have := hall d hd
        rw [hfb1, field_mark _ _ _ d 0 hd (by omega)] at this
        exact this
      · rw [hds1] at h
        have hne : ((d : Nat) : Int) ≠ -1 := by omega
        simp only [ne_eq, hne, not_false_eq_true, if_true, Option.bind_eq_bind,
          Option.bind_eq_some] at h
        obtain ⟨fs2, _, h⟩ := h
        cases h
        simp at hr
    · cases h
      exact Or.inl e
  · cases h
    exact Or.inl rfl

/-! ## The size field of a descriptor -/

theorem get_descriptor_fields (ld : Ldisk) (d : Nat) :
    ld.get_descriptor (d : Int) = [ld.field d 0, ld.field d 1, ld.field d 2, ld.field d 3] := by
  rfl

/-- C21: the update of the size field and its frame.  On a cache of 7 blocks, for
every descriptor index `d` in 0..23 and every `n` with `0 ≤ n < 2 ^ 31`,
`update_descriptor_size(d, n)` succeeds; afterwards `get_descriptor(d)` is `n`
followed by the three block numbers that it held before, `get_descriptor(e)`
is unchanged for every other `e` in 0..23, every bit of the cached bitmap is
unchanged, and so are the physical blocks.  The descriptor lives in cache
block `1 + d / 4` at bit offset `(d mod 4) * 128`, and the other cache blocks
are the ones before the call. -/
theorem update_descriptor_size_frame (ld : Ldisk) (d n : Nat)
    (hc : ld.cache.length = 7) (hd : d < 24) (hn : n < 2 ^ 31) :
    Ldisk.get_desc_location (d : Int) = (1 + d / 4, ((d % 4 * 128 : Nat) : Int)) ∧
    ∃ ld1, ld.update_descriptor_size (d : Int) n = some ld1 ∧
      ld1.get_descriptor (d : Int) = n :: (ld.get_descriptor (d : Int)).drop 1 ∧
      (∀ e : Nat, e < 24 → e ≠ d →
        ld1.get_descriptor (e : Int) = ld.get_descriptor (e : Int)) ∧
      (∀ i, bit (ld1.cache.getD 0 0) i = bit (ld.cache.getD 0 0) i) ∧
      (∀ c, c ≠ 1 + d / 4 → ld1.cache.getD c 0 = ld.cache.getD c 0) ∧
      ld1.cache.length = 7 ∧ ld1.ldisk = ld.ldisk := by
  refine ⟨get_desc_location_eq d hd, ld.put d 0 n, update_descriptor_size_eq ld d n hd,
    ?_, ?_, ?_, ?_, ?_, rfl⟩
  · rw [get_descriptor_fields, get_descriptor_fields]
    rw [field_put ld hc d 0 n d 0 hd (by omega) hd (by omega),
      field_put ld hc d 0 n d 1 hd (by omega) hd (by omega),
      field_put ld hc d 0 n d 2 hd (by omega) hd (by omega),
      field_put ld hc d 0 n d 3 hd (by omega) hd (by omega), Nat.mod_eq_of_lt hn]
    simp
  · intro e he hne
    rw [get_descriptor_fields, get_descriptor_fields]
    rw [field_put ld hc d 0 n e 0 hd (by omega) he (by omega),
      field_put ld hc d 0 n e 1 hd (by omega) he (by omega),
      field_put ld hc d 0 n e 2 hd (by omega) he (by omega),
      field_put ld hc d 0 n e 3 hd (by omega) he (by omega)]
    simp [hne]
  · intro i
    rw [bitmap_put]
  · intro c hcne
    unfold Ldisk.put
    simp only []
    rw [getD_set_nat, if_neg]
    intro h
    exact hcne h.1.symm
  · rw [length_put]; exact hc

/-- C21, an instance: on the freshly initialised disk, whose cache has 7 blocks,
the size of descriptor 5 (cache block 2, bit offset 128) is set to 100. -/
theorem update_descriptor_size_frame_witness :
    (FileSystem.fresh.ldisk.cache.length = 7 ∧ 5 < 24 ∧ 100 < 2 ^ 31) ∧
    Ldisk.get_desc_location ((5 : Nat) : Int) = (1 + 5 / 4, ((5 % 4 * 128 : Nat) : Int)) ∧
    ∃ ld1, FileSystem.fresh.ldisk.update_descriptor_size ((5 : Nat) : Int) 100 = some ld1 ∧
      ld1.get_descriptor ((5 : Nat) : Int)
        = 100 :: (FileSystem.fresh.ldisk.get_descriptor ((5 : Nat) : Int)).drop 1 ∧
      (∀ e : Nat, e < 24 → e ≠ 5 →
        ld1.get_descriptor (e : Int) = FileSystem.fresh.ldisk.get_descriptor (e : Int)) ∧
      (∀ i, bit (ld1.cache.getD 0 0) i = bit (FileSystem.fresh.ldisk.cache.getD 0 0) i) ∧
      (∀ c, c ≠ 1 + 5 / 4 → ld1.cache.getD c 0 = FileSystem.fresh.ldisk.cache.getD c 0) ∧
      ld1.cache.length = 7 ∧ ld1.ldisk = FileSystem.fresh.ldisk.ldisk :=
  ⟨⟨fresh_cache_length, by decide, by decide⟩,
    update_descriptor_size_frame FileSystem.fresh.ldisk 5 100 fresh_cache_length
      (by decide) (by decide)⟩

/-! ## The reserved bits of the bitmap -/

theorem reserved_congr (ld ld1 : Ldisk) (h : ld1.cache = ld.cache) (hr : ld.ReservedClear) :
    ld1.ReservedClear := by
  intro i hi
  rw [h]; exact hr i hi

theorem reserved_put (ld : Ldisk) (d k v : Nat) (hr : ld.ReservedClear) :
    (ld.put d k v).ReservedClear := by
  intro i hi
  rw [bitmap_put]; exact hr i hi

theorem reserved_mark_clear (ld : Ldisk) (hc : 0 < ld.cache.length) (b : Nat)
    (hr : ld.ReservedClear) : (ld.mark b 0).ReservedClear := by
  intro i hi
  rw [bit_mark ld hc b 0 i (by omega)]
  split
  · rfl
  · exact hr i hi

theorem reserved_mark_set (ld : Ldisk) (hc : 0 < ld.cache.length) (b : Nat) (hb : 7 ≤ b)
    (hr : ld.ReservedClear) : (ld.mark b 1).ReservedClear := by
  intro i hi
  rw [bit_mark ld hc b 1 i (by omega), if_neg (by omega)]
  exact hr i hi

theorem reserved_find_free_block (ld : Ldisk) (hc : 0 < ld.cache.length) (r : Ldisk × Nat)
    (h : ld.find_free_block = some r) (hr : ld.ReservedClear) : r.1.ReservedClear := by
  obtain ⟨h7, _, _, e⟩ := find_free_block_spec ld r h
  rw [e]
  exact reserved_mark_set ld hc _ h7 hr

theorem reserved_init_descriptor (ld : Ldisk) (hc : ld.cache.length = 7) (nb : Nat)
    (r : Ldisk × Int) (h : ld.init_descriptor nb = some r) (hr : ld.ReservedClear) :
    r.1.ReservedClear := by
  obtain ⟨q, hq, hspec⟩ := init_descriptor_spec ld hc nb
  rw [hq] at h
  cases h
  rcases hspec with ⟨h1, _⟩ | ⟨d, _, _, _, h5⟩
  · rw [h1]; exact hr
  · rw [h5]; exact reserved_put _ _ _ _ (reserved_put _ _ _ _ hr)

theorem reserved_update_blocks (ld ld1 : Ldisk) (i : Int) (nb : Nat)
    (h : ld.update_descriptor_blocks i nb = some ld1) (hr : ld.ReservedClear) :
    ld1.ReservedClear := by
  obtain ⟨d, hd, rfl⟩ := update_descriptor_blocks_range ld ld1 i nb h
  rw [update_descriptor_blocks_eq ld d nb hd] at h
  cases h
  split_ifs
  · exact reserved_put _ _ _ _ hr
  · exact reserved_put _ _ _ _ hr
  · exact reserved_put _ _ _ _ hr
  · exact hr

theorem reserved_update_size (ld ld1 : Ldisk) (i : Int) (n : Nat)
    (h : ld.update_descriptor_size i n = some ld1) (hr : ld.ReservedClear) :
    ld1.ReservedClear := by
  obtain ⟨d, hd, rfl⟩ := update_descriptor_size_range ld ld1 i n h
  rw [update_descriptor_size_eq ld d n hd] at h
  cases h
  exact reserved_put _ _ _ _ hr

theorem reserved_removed (ld : Ldisk) (hc : 0 < ld.cache.length) (d : Nat)
    (hr : ld.ReservedClear) : (ld.removed d).ReservedClear := by
  unfold Ldisk.removed
  have h0 := reserved_put _ d 3 0 (reserved_put _ d 2 0 (reserved_put _ d 1 0
    (reserved_put ld d 0 0 hr)))
  have c0 : 0 < ((((ld.put d 0 0).put d 1 0).put d 2 0).put d 3 0).cache.length := by
    rw [length_put, length_put, length_put, length_put]; exact hc
  have h1 := reserved_mark_clear _ c0 (ld.field d 1) h0
  have c1 := c0
  rw [← length_mark _ (ld.field d 1) 0] at c1
  have h2 := reserved_mark_clear _ c1 (ld.field d 2) h1
  have c2 := c1
  rw [← length_mark _ (ld.field d 2) 0] at c2
  exact reserved_mark_clear _ c2 (ld.field d 3) h2

theorem create_reserved (fs : FileSystem) (file_name : List Nat) (r : FileSystem × Int)
    (h : fs.create file_name = some r) (hi : fs.ldisk.BlockInv)
    (hr : fs.ldisk.ReservedClear) : r.1.ldisk.ReservedClear := by
  unfold FileSystem.create at h
  split at h
  · simp only [Option.bind_eq_bind, Option.bind_eq_some] at h
    obtain ⟨q, hq, h⟩ := h
    have e := find_directory_entry_ldisk fs file_name q hq
    split at h
    · simp only [Option.bind_eq_bind, Option.bind_eq_some] at h
      obtain ⟨fb, hfb, ds, hds, h⟩ := h
      rw [e] at hfb
      obtain ⟨i1, _⟩ := find_free_block_fresh fs.ldisk hi fb hfb
      have r1 := reserved_find_free_block fs.ldisk (by rw [hi.1]; omega) fb hfb hr
      have r2 := reserved_init_descriptor fb.1 i1.1 fb.2 ds hds r1
      split at h
      · simp only [Option.bind_eq_bind, Option.bind_eq_some] at h
        obtain ⟨fs2, h2, h⟩ := h
        cases h
        exact reserved_congr _ _ (create_entry_blocks_cache _ _ _ _ _ h2) r2
      · cases h; exact r2
    · cases h; rw [e]; exact hr
  · cases h; exact hr

theorem destroy_clear_reserved :
    ∀ (rest : List Nat) (loc : Nat) (fs fs1 : FileSystem),
      FileSystem.destroy_clear rest loc fs = some fs1 → fs.ldisk.BlockInv →
      fs.ldisk.ReservedClear → fs1.ldisk.ReservedClear := by
  intro rest
  induction rest with
  | nil => intro loc fs fs1 h; simp [FileSystem.destroy_clear] at h
  | cons c rest ih =>
    intro loc fs fs1 h hi hr
    simp only [FileSystem.destroy_clear] at h
    split at h
    · rename_i hc
      obtain ⟨h48, h57⟩ := (isInteger_iff c).1 hc
      have e : (c : Int) - 48 = ((c - 48 : Nat) : Int) := by omega
      rw [e, remove_descriptor_eq fs hi (c - 48) (by omega)] at h
      simp only [Option.bind_eq_bind, Option.some_bind] at h
      cases h
      exact reserved_removed _ (by rw [hi.1]; omega) _ hr
    · have := ih _ _ _ h hi hr
      exact this

theorem destroy_reserved (fs : FileSystem) (file_name : List Nat)
    (r : FileSystem × Option Int) (h : fs.destroy file_name = some r)
    (hi : fs.ldisk.BlockInv) (hr : fs.ldisk.ReservedClear) : r.1.ldisk.ReservedClear := by
  unfold FileSystem.destroy at h
  simp only [Option.bind_eq_bind, Option.bind_eq_some] at h
  obtain ⟨q, hq, h⟩ := h
  have e := find_directory_entry_ldisk fs file_name q hq
  split at h
  · simp only [Option.bind_eq_bind, Option.bind_eq_some] at h
    obtain ⟨g, hg, fs2, h2, h⟩ := h
    have eg := get_desc_index_ldisk q.1 file_name g hg
    have c2 : fs2.ldisk.cache = fs.ldisk.cache := by
      have eg1 : g.1.ldisk.cache = fs.ldisk.cache := by rw [eg, e]
      split at h2
      · simp only [Option.map_eq_some'] at h2
        obtain ⟨c, hc, rfl⟩ := h2
        exact (close_cache _ _ _ hc).trans eg1
      · split at h2
        · simp only [Option.map_eq_some'] at h2
          obtain ⟨c, hc, rfl⟩ := h2
          exact (close_cache _ _ _ hc).trans eg1
        · split at h2
          · simp only [Option.map_eq_some'] at h2
            obtain ⟨c, hc, rfl⟩ := h2
            exact (close_cache _ _ _ hc).trans eg1
          · cases h2; exact eg1
    have i2 : fs2.ldisk.BlockInv := BlockInv_congr _ _ c2 hi
    have r2 : fs2.ldisk.ReservedClear := reserved_congr _ _ c2 hr
    split at h
    · simp only [Option.bind_eq_bind, Option.bind_eq_some] at h
      obtain ⟨fs3, h3, ld, hld, h⟩ := h
      cases h
      have r3 := destroy_clear_reserved _ _ _ _ h3 i2 r2
      exact reserved_congr _ _ (write_block_cache _ _ _ _ hld).1 r3
    · cases h
  · cases h; rw [e]; exact hr

theorem write_loop_reserved (index : Nat) :
    ∀ (fuel : Nat) (fs : FileSystem) (data file_desc : List Nat) (block_index bytes_written : Nat)
      (r : FileSystem × Nat),
      FileSystem.write_loop index fuel fs data file_desc block_index bytes_written = some r →
      fs.ldisk.BlockInv → fs.ldisk.ReservedClear → r.1.ldisk.ReservedClear := by
  intro fuel
  induction fuel with
  | zero => intro fs data fd bi bw r h; simp [FileSystem.write_loop] at h
  | succ fuel ih =>
    intro fs data fd bi bw r h hi hr
    simp only [FileSystem.write_loop, Option.bind_eq_bind, Option.bind_eq_some] at h
    obtain ⟨res, _, ld, hld, h⟩ := h
    have i1 : ld.BlockInv := BlockInv_congr _ _ (write_block_cache _ _ _ _ hld).1 hi
    have r1 : ld.ReservedClear := reserved_congr _ _ (write_block_cache _ _ _ _ hld).1 hr
    split at h
    · simp only [Option.bind_eq_bind, Option.bind_eq_some] at h
      obtain ⟨alloc, halloc, r_w, _, h⟩ := h
      have i2 : alloc.1.BlockInv ∧ alloc.1.ReservedClear := by
        split at halloc
        · simp only [Option.bind_eq_bind, Option.bind_eq_some] at halloc
          obtain ⟨fb, hfb, ld1, hld1, halloc⟩ := halloc
          cases halloc
          obtain ⟨j1, h7, h63, hbit, hfresh, _, _⟩ := find_free_block_fresh ld i1 fb hfb
          have q1 := reserved_find_free_block ld (by rw [i1.1]; omega) fb hfb r1
          exact ⟨(BlockInv_update_blocks fb.1 ld1 j1 _ fb.2 h7 h63 hbit hfresh hld1).1,
            reserved_update_blocks _ _ _ _ hld1 q1⟩
        · cases halloc; exact ⟨i1, r1⟩
      have := ih _ _ _ _ _ _ h i2.1 i2.2
      exact this
    · cases h; exact r1

theorem write_reserved (fs : FileSystem) (index : Int) (data : List Nat)
    (r : FileSystem × Int) (h : fs.write index data = some r) (hi : fs.ldisk.BlockInv)
    (hr : fs.ldisk.ReservedClear) : r.1.ldisk.ReservedClear := by
  unfold FileSystem.write at h
  split at h
  · simp only [Option.bind_eq_bind, Option.bind_eq_some] at h
    obtain ⟨res, hres, ld, hld, h⟩ := h
    cases h
    have r1 : res.1.ldisk.ReservedClear := by
      split at hres
      · exact write_loop_reserved _ _ _ _ _ _ _ _ hres hi hr
      · cases hres; exact hr
    exact reserved_update_size _ _ _ _ hld r1
  · cases h; exact hr

theorem step_reserved (fs fs1 : FileSystem) (op : Op) (h : step fs op = some fs1)
    (hi : fs.ldisk.BlockInv) (hr : fs.ldisk.ReservedClear) : fs1.ldisk.ReservedClear := by
  cases op with
  | create n =>
    simp only [step, Option.map_eq_some'] at h
    obtain ⟨r, hr1, rfl⟩ := h
    exact create_reserved fs n r hr1 hi hr
  | destroy n =>
    simp only [step, Option.map_eq_some'] at h
    obtain ⟨r, hr1, rfl⟩ := h
    exact destroy_reserved fs n r hr1 hi hr
  | «open» n =>
    simp only [step, Option.map_eq_some'] at h
    obtain ⟨r, hr1, rfl⟩ := h
    rw [open_ldisk fs n r hr1]; exact hr
  | close i =>
    simp only [step, Option.map_eq_some'] at h
    obtain ⟨r, hr1, rfl⟩ := h
    exact reserved_congr _ _ (close_cache fs i r hr1) hr
  | read i c =>
    simp only [step, Option.map_eq_some'] at h
    obtain ⟨r, hr1, rfl⟩ := h
    rw [read_ldisk fs i [] c r hr1]; exact hr
  | write i data =>
    simp only [step, Option.map_eq_some'] at h
    obtain ⟨r, hr1, rfl⟩ := h
    exact write_reserved fs i data r hr1 hi hr
  | lseek i p =>
    simp only [step, Option.map_eq_some'] at h
    obtain ⟨r, hr1, rfl⟩ := h
    rw [lseek_ldisk fs i p r hr1]; exact hr

theorem run_reserved : ∀ (ops : List Op) (fs fs1 : FileSystem), run ops fs = some fs1 →
    fs.ldisk.BlockInv → fs.ldisk.ReservedClear → fs1.ldisk.ReservedClear := by
  intro ops
  induction ops with
  | nil => intro fs fs1 h _ hr; simp only [run] at h; cases h; exact hr
  | cons op ops ih =>
    intro fs fs1 h hi hr
    simp only [run, Option.bind_eq_some] at h
    obtain ⟨fs2, h1, h2⟩ := h
    exact ih fs2 fs1 h2 (step_BlockInv fs fs2 op h1 hi) (step_reserved fs fs2 op h1 hi hr)

theorem fresh_reserved : FileSystem.fresh.ldisk.ReservedClear := by
  intro i hi
  rw [fresh_bitmap]
  interval_cases i <;> decide

/-- C22 (amended): the reserved bits of the bitmap.  In every state that a
sequence of `create`, `destroy`, `open`, `close`, `read`, `write` and `lseek`
calls reaches from the freshly initialised disk while every call stays inside
the arrays of the program (`Reachable`: no call indexes outside a buffer, a
bitset or the disk array, and `find_free_block` finds a clear bit), bits 0..6
of the cached bitmap (the bitmap block and the six descriptor blocks) are
clear: no code path sets them.  The reserved blocks are kept out of the
allocation by the scan of `find_free_block`, which starts at bit 7: a block
that it returns is one of 7..63, and bits 0..6 are still clear afterwards.
Sequences in which a call stores outside an array (a write after a seek to a
negative position) are left out: nothing is stated about them. -/
theorem reserved_bits_clear (fs : FileSystem) (h : Reachable fs) :
    (∀ i, i < 7 → bit (fs.ldisk.cache.getD 0 0) i = 0) ∧
    ∀ r, fs.ldisk.find_free_block = some r →
      7 ≤ r.2 ∧ r.2 ≤ 63 ∧ ∀ i, i < 7 → bit (r.1.cache.getD 0 0) i = 0 := by
  obtain ⟨ops, hops⟩ := h
  have hi := run_BlockInv ops _ _ hops fresh_BlockInv
  have hr := run_reserved ops _ _ hops fresh_BlockInv fresh_reserved
  refine ⟨hr, ?_⟩
  intro r hfb
  obtain ⟨h7, h63, _, _⟩ := find_free_block_spec fs.ldisk r hfb
  exact ⟨h7, h63, reserved_find_free_block fs.ldisk (by rw [hi.1]; omega) r hfb hr⟩

/-- C22 (amended), an instance: the state after `create("a")` is reachable;
its bitmap has the bits 7..10 set and no other bit. -/
theorem reserved_bits_clear_witness :
    Reachable ((run [Op.create [97]] FileSystem.fresh).getD FileSystem.fresh) ∧
    ((run [Op.create [97]] FileSystem.fresh).getD FileSystem.fresh).ldisk.cache.getD 0 0
      = 1920 ∧
    ∀ i, i < 7 →
      bit (((run [Op.create [97]] FileSystem.fresh).getD FileSystem.fresh).ldisk.cache.getD 0 0) i
        = 0 :=
  have hr : run [Op.create [97]] FileSystem.fresh
      = some ((run [Op.create [97]] FileSystem.fresh).getD FileSystem.fresh) := by decide!
  ⟨⟨_, hr⟩, by decide!, (reserved_bits_clear _ ⟨_, hr⟩).1⟩

/-! ## A write inside one block, a seek to another block, and `close` -/

theorem oft_mk_set_same (ld : Ldisk) (t : List FILE_TABLE) (i : Nat) (e : FILE_TABLE)
    (h : i < t.length) : ((FileSystem.mk ld t).set_oft i e).oft i = e :=
  oft_set_oft_same _ _ _ h

theorem write_loop_within (fs : FileSystem) (s b fuel bi bw : Nat) (pre suf data fd : List Nat)
    (hbuf : (fs.oft s).r_w = pre ++ suf)
    (hpos : (fs.oft s).buffer_index = pre.length) (hblk : (fs.oft s).buffer_block = b)
    (hlen : pre.length + suf.length = 64) (hb : b < 64) (hfit : data.length ≤ suf.length) :
    FileSystem.write_loop s (fuel + 1) fs data fd bi bw
      = some ((FileSystem.mk (fs.ldisk.store b (pre ++ data ++ suf.drop data.length))
            fs.open_file_table).set_oft s
          ⟨pre ++ data ++ suf.drop data.length, (fs.oft s).index,
            ((pre.length + data.length : Nat) : Int), b⟩, bw + data.length) := by
  have hdrop : data.drop suf.length = [] := List.drop_eq_nil_of_le hfit
  have htake : data.take suf.length = data := List.take_of_length_le hfit
  have hmin : min data.length suf.length = data.length := Nat.min_eq_left hfit
  simp only [FileSystem.write_loop, Option.bind_eq_bind]
  rw [hbuf, hpos, write_bytes_spec data pre suf bw hlen, hblk]
  simp only [Option.some_bind]
  rw [write_block_eq _ _ _ hb]
  simp only [Option.some_bind, hdrop, ne_eq, not_true_eq_false, false_and, if_false, htake,
    hmin, hblk]

theorem write_within_block (fs : FileSystem) (s d b : Nat) (pre suf data : List Nat)
    (hw : WellFormed fs) (hs : 1 ≤ s ∧ s ≤ 3) (hd : d < 24)
    (hidx : (fs.oft s).index = d) (hbuf : (fs.oft s).r_w = pre ++ suf)
    (hpos : (fs.oft s).buffer_index = pre.length) (hblk : (fs.oft s).buffer_block = b)
    (hlen : pre.length + suf.length = 64) (hb : b < 64)
    (hdata : data ≠ []) (hfit : data.length ≤ suf.length) :
    ∃ fs1, fs.write (s : Int) data = some (fs1, (data.length : Int)) ∧
      fs1.ldisk = (fs.ldisk.store b (pre ++ data ++ suf.drop data.length)).put d 0
        (if fs.ldisk.field d 0 = 1 then data.length else fs.ldisk.field d 0 + data.length) ∧
      fs1.oft s = ⟨pre ++ data ++ suf.drop data.length, d,
        ((pre.length + data.length : Nat) : Int), b⟩ ∧
      fs1.open_file_table.length = 4 := by
  have hslt : s < fs.open_file_table.length := by rw [hw.oft_length]; omega
  unfold FileSystem.write
  rw [is_oft_entry_user fs s d (by omega) hidx]
  simp only [if_true, Int.toNat_ofNat, Option.bind_eq_bind]
  rw [if_pos hdata, write_loop_within fs s b 3 _ 0 pre suf data _ hbuf hpos hblk hlen hb hfit]
  simp only [Option.some_bind, Nat.zero_add]
  rw [oft_mk_set_same _ _ _ _ hslt]
  simp only []
  rw [hidx, update_descriptor_size_eq _ d _ hd]
  simp only [Option.some_bind]
  refine ⟨_, rfl, ?_, ?_, ?_⟩
  · rfl
  · show (FileSystem.set_oft _ s _).oft s = _
    rw [oft_mk_set_same _ _ _ _ hslt]
  · show (FileSystem.set_oft _ s _).open_file_table.length = 4
    rw [length_set_oft]; exact hw.oft_length

theorem lseek_block_index_eq (pos : Nat) (h : pos < 192) :
    FileSystem.lseek_block_index (pos : Int) = pos / 64 + 1 := by
  unfold FileSystem.lseek_block_index
  split_ifs <;> omega

theorem lseek_other_block (fs : FileSystem) (s d pos b2 : Nat) (hs : s ≤ 3) (hd : d < 24)
    (hidx : (fs.oft s).index = d) (hpos : pos < fs.ldisk.field d 0) (h192 : pos < 192)
    (hfield : fs.ldisk.field d (pos / 64 + 1) = b2) (h0 : b2 ≠ 0)
    (hne : b2 ≠ (fs.oft s).buffer_block) (hb2 : b2 < 64) :
    ∃ blk, fs.ldisk.read_block b2 = some blk ∧
      fs.lseek (s : Int) (pos : Int)
        = some (fs.set_oft s ⟨blk, d, ((pos % 64 : Nat) : Int), b2⟩, ((pos % 64 : Nat) : Int)) := by
  obtain ⟨blk, hblk, _⟩ := read_block_isSome fs.ldisk b2 hb2
  refine ⟨blk, hblk, ?_⟩
  have e0 : (fs.ldisk.get_descriptor (d : Int)).getD 0 0 = fs.ldisk.field d 0 := rfl
  have ek : (fs.ldisk.get_descriptor (d : Int)).getD (pos / 64 + 1) 0 = b2 := hfield
  have hlt : ((pos : Nat) : Int) < ((fs.ldisk.field d 0 : Nat) : Int) := by omega
  have hbi : ((pos : Nat) : Int) - (((pos / 64 + 1 : Nat) : Int) - 1) * 64
      = ((pos % 64 : Nat) : Int) := by omega
  unfold FileSystem.lseek
  rw [is_oft_entry_user fs s d hs hidx]
  simp only [if_true, Int.toNat_ofNat]
  rw [hidx, e0, if_pos hlt, lseek_block_index_eq pos h192, ek, if_pos h0, if_pos hne, hblk, hbi]
  rfl

theorem close_occupied (fs : FileSystem) (s d : Nat) (hs : s ≤ 3)
    (hidx : (fs.oft s).index = d) (hb : (fs.oft s).buffer_block < 64) :
    fs.close (s : Int)
      = some ((FileSystem.mk (fs.ldisk.store (fs.oft s).buffer_block (fs.oft s).r_w)
          fs.open_file_table).set_oft s ⟨(fs.oft s).r_w, -1, 0, 0⟩, 0) := by
  unfold FileSystem.close
  rw [is_oft_entry_user fs s d hs hidx]
  simp only [if_true, Int.toNat_ofNat, Option.bind_eq_bind]
  rw [write_block_eq _ _ _ hb]
  rfl

/-- C24 (amended): a write is carried through to the disk, so a seek without a
flush loses nothing.  Slot `s` (1..3) holds descriptor `d`; its buffer
`pre ++ suf` is the one of block `b` and the position is after `pre`.  A write
of `data` that fits into `suf` returns `data.length`, and block `b` on disk
then holds `pre ++ data ++ suf.drop data.length`: `write` itself stores the
buffer in its block before it returns.  A seek in that slot to a position
`pos` below the new size whose block `b2` is another block of the file returns
`pos mod 64`, brings in `b2` and changes no disk block; `close` then returns 0
and writes block `b2` only.  After the three calls block `b` on disk still
holds the written characters. -/
theorem write_seek_close_keeps_data (fs : FileSystem) (s d b b2 pos : Nat)
    (pre suf data : List Nat)
    (hw : WellFormed fs) (hs : 1 ≤ s ∧ s ≤ 3) (hd : d < 24)
    (hidx : (fs.oft s).index = d) (hbuf : (fs.oft s).r_w = pre ++ suf)
    (hpos : (fs.oft s).buffer_index = pre.length) (hblk : (fs.oft s).buffer_block = b)
    (hlen : pre.length + suf.length = 64) (hb : b < 64)
    (hdata : data ≠ []) (hfit : data.length ≤ suf.length)
    (hbytes : ∀ c ∈ pre ++ data ++ suf.drop data.length, c < 256)
    (hsize : fs.ldisk.field d 0 + data.length < 2 ^ 31)
    (hseek : pos < (if fs.ldisk.field d 0 = 1 then data.length
                    else fs.ldisk.field d 0 + data.length))
    (h192 : pos < 192)
    (hfield : fs.ldisk.field d (pos / 64 + 1) = b2) (h0 : b2 ≠ 0) (hne : b2 ≠ b)
    (hb2 : b2 < 64) :
    ∃ fs1 fs2 fs3, fs.write (s : Int) data = some (fs1, (data.length : Int)) ∧
      fs1.ldisk.read_block b = some (pre ++ data ++ suf.drop data.length) ∧
      fs1.lseek (s : Int) (pos : Int) = some (fs2, ((pos % 64 : Nat) : Int)) ∧
      (fs2.oft s).buffer_block = b2 ∧ fs2.ldisk = fs1.ldisk ∧
      fs2.close (s : Int) = some (fs3, 0) ∧
      (∀ i, i ≠ b2 → fs3.ldisk.read_block i = fs1.ldisk.read_block i) ∧
      fs3.ldisk.read_block b = some (pre ++ data ++ suf.drop data.length) := by
  obtain ⟨fs1, hwrite, hld1, hoft1, hlen1⟩ :=
    write_within_block fs s d b pre suf data hw hs hd hidx hbuf hpos hblk hlen hb hdata hfit
  have hc : fs.ldisk.cache.length = 7 := hw.cache_length
  have hbuflen : (pre ++ data ++ suf.drop data.length).length = 64 := by
    simp only [List.length_append, List.length_drop]; omega
  have hread1 : fs1.ldisk.read_block b = some (pre ++ data ++ suf.drop data.length) := by
    rw [hld1, read_block_put, read_block_store_same _ _ _ hw.ldisk_length hb hbuflen,
      map_mod_of_lt _ hbytes]
  have hidx1 : (fs1.oft s).index = d := by rw [hoft1]
  have hblk1 : (fs1.oft s).buffer_block = b := by rw [hoft1]
  have hsz : (if fs.ldisk.field d 0 = 1 then data.length
      else fs.ldisk.field d 0 + data.length) < 2 ^ 31 := by
    split <;> omega
  have hsize1 : fs1.ldisk.field d 0 = (if fs.ldisk.field d 0 = 1 then data.length
      else fs.ldisk.field d 0 + data.length) := by
    rw [hld1, field_put _ (by rw [store_cache]; exact hc) d 0 _ d 0 hd (by omega) hd (by omega),
      if_pos ⟨rfl, rfl⟩, Nat.mod_eq_of_lt hsz]
  have hfield1 : fs1.ldisk.field d (pos / 64 + 1) = b2 := by
    rw [hld1, field_put _ (by rw [store_cache]; exact hc) d 0 _ d (pos / 64 + 1) hd (by omega)
      hd (by omega), if_neg (by omega), field_store]
    exact hfield
  obtain ⟨blk, hblk2, hseek1⟩ := lseek_other_block fs1 s d pos b2 (by omega) hd hidx1
    (by rw [hsize1]; exact hseek) h192 hfield1 h0 (by rw [hblk1]; exact hne) hb2
  have hslt : s < fs1.open_file_table.length := by rw [hlen1]; omega
  have hoft2 : (fs1.set_oft s ⟨blk, d, ((pos % 64 : Nat) : Int), b2⟩).oft s
      = ⟨blk, d, ((pos % 64 : Nat) : Int), b2⟩ := oft_set_oft_same _ _ _ hslt
  have hclose := close_occupied (fs1.set_oft s ⟨blk, d, ((pos % 64 : Nat) : Int), b2⟩) s d
    (by omega) (by rw [hoft2]) (by rw [hoft2]; exact hb2)
  rw [hoft2] at hclose
  refine ⟨fs1, _, _, hwrite, hread1, hseek1, by rw [hoft2], rfl, hclose, ?_, ?_⟩
  · intro i hi
    exact read_block_store_other _ _ _ _ (Ne.symm hi)
  · exact (read_block_store_other _ _ _ _ hne).trans hread1

/-- The state after `create("a")`, `open("a")` and a write of 65 characters `x`:
the sizes of the arrays, the size field and the first block of descriptor 1,
and entry 1 of the open file table (the buffer holds block 11 at position 1). -/
theorem two_block_file :
    (run [Op.create [97], Op.open [97], Op.write 1 (List.replicate 65 120)]
        FileSystem.fresh).map (fun fs =>
      ([fs.ldisk.ldisk.length, fs.ldisk.cache.length, fs.open_file_table.length,
          fs.ldisk.field 1 0, fs.ldisk.field 1 1], fs.oft 1))
      = some ([64, 7, 4, 65, 10], ⟨[120] ++ List.replicate 63 0, 1, 1, 11⟩) := by
  decide!

/-- C24 (amended), an instance: the file `a` is created and opened in slot 1
and 65 characters `x` are written, so that the file has the blocks 10 and 11
and the buffer holds block 11 at position 1.  Ten characters `y` are written
into block 11, then the slot seeks to position 0 (block 10) and is closed:
block 11 on disk holds `x`, the ten `y` and zeros. -/
theorem write_seek_close_keeps_data_witness :
    WellFormed ((run [Op.create [97], Op.open [97], Op.write 1 (List.replicate 65 120)]
        FileSystem.fresh).getD FileSystem.fresh) ∧
    ∃ fs1 fs2 fs3,
      ((run [Op.create [97], Op.open [97], Op.write 1 (List.replicate 65 120)]
        FileSystem.fresh).getD FileSystem.fresh).write ((1 : Nat) : Int) (List.replicate 10 121)
        = some (fs1, (((List.replicate 10 121).length : Nat) : Int)) ∧
      fs1.lseek ((1 : Nat) : Int) ((0 : Nat) : Int) = some (fs2, ((0 % 64 : Nat) : Int)) ∧
      fs2.close ((1 : Nat) : Int) = some (fs3, 0) ∧
      fs3.ldisk.read_block 11
        = some ([120] ++ List.replicate 10 121
            ++ (List.replicate 63 0).drop (List.replicate 10 121).length) := by
  obtain ⟨fs, hfs, hv⟩ := Option.map_eq_some'.1 two_block_file
  have e : (run [Op.create [97], Op.open [97], Op.write 1 (List.replicate 65 120)]
      FileSystem.fresh).getD FileSystem.fresh = fs := by rw [hfs]; rfl
  rw [e]
  simp only [Prod.mk.injEq, List.cons.injEq, and_true] at hv
  obtain ⟨⟨h1, h2, h3, h4, h5⟩, h6⟩ := hv
  have hw : WellFormed fs := ⟨h1, h2, h3⟩
  refine ⟨hw, ?_⟩
  obtain ⟨fs1, fs2, fs3, c1, _, c3, _, _, c6, _, c8⟩ :=
    write_seek_close_keeps_data fs 1 1 11 10 0 [120] (List.replicate 63 0)
      (List.replicate 10 121) hw (by decide) (by decide) (by rw [h6]; rfl) (by rw [h6])
      (by rw [h6]; rfl) (by rw [h6]) (by decide) (by decide) (by decide) (by decide)
      (by decide) (by rw [h4]; decide) (by rw [h4]; decide) (by decide) h5 (by decide)
      (by decide) (by decide)
  exact ⟨fs1, fs2, fs3, c1, c3, c6, c8⟩

/-! ## Shared evaluations -/

theorem run_create_each : ∀ (names : List (List Nat)) (fs : FileSystem),
    run (names.map Op.create) fs = (create_each names fs).map Prod.fst := by
  intro names
  induction names with
  | nil => intro fs; rfl
  | cons n rest ih =>
    intro fs
    simp only [List.map_cons, run, step, create_each]
    cases hc : fs.create n with
    | none => rfl
    | some r =>
      simp only [Option.map_some', Option.some_bind]
      rw [ih r.1]
      cases create_each rest r.1 <;> rfl

theorem create_letters_eq (n : Nat) :
    create_letters n = ((List.range n).map (fun i => [97 + i])).map Op.create := by
  unfold create_letters
  rw [List.map_map]
  rfl

/-- The files `a` to `w` are created on the freshly initialised disk, then
`create("x")` is called: the 23 values returned first, the value returned by
the last call, the cached bitmap before and after the last call, and whether
block 33 is in no block slot of any descriptor after the last call. -/
theorem create_until_full :
    ((create_each ((List.range 23).map (fun i => [97 + i])) FileSystem.fresh).bind fun r =>
      (r.1.create [120]).map fun q =>
        (r.2, q.2, r.1.ldisk.cache.getD 0 0, q.1.ldisk.cache.getD 0 0,
          (List.range 24).all fun d => decide (33 ∉ (q.1.ldisk.get_descriptor d).drop 1)))
      = some (List.replicate 23 0, -1, 8589934464, 17179869056, true) := by
  decide!

/-- The files `a` to `j` are created on the freshly initialised disk; then
`destroy("j")` is called, and, in the state before it, `get_desc_index("j")`
and `open("j")`.  The first component holds, before and after `destroy`: bytes
18..21 of the directory block, descriptor 1, descriptor 10, then bits 10 and
19 of the bitmap after the call.  The second holds the value of
`get_desc_index`, the value of `open`, and index and block of slot 1 after
`open`. -/
theorem ten_files :
    ((run (create_letters 10) FileSystem.fresh).bind fun fs0 =>
      (fs0.destroy [106]).bind fun r =>
      (fs0.ldisk.read_block 7).bind fun dir0 =>
      (r.1.ldisk.read_block 7).bind fun dir1 =>
      (fs0.get_desc_index [106]).bind fun g =>
      (fs0.open [106]).map fun o =>
        ([(dir0.drop 18).take 4, fs0.ldisk.get_descriptor 1, fs0.ldisk.get_descriptor 10,
         (dir1.drop 18).take 4, r.1.ldisk.get_descriptor 1, r.1.ldisk.get_descriptor 10,
         [bit (r.1.ldisk.cache.getD 0 0) 10, bit (r.1.ldisk.cache.getD 0 0) 19]],
         [g.2, o.2, (o.1.oft 1).index, ((o.1.oft 1).buffer_block : Int)]))
      = some ([[106, 49, 48, 0], [1, 10, 0, 0], [1, 19, 0, 0],
              [0, 0, 48, 0], [0, 0, 0, 0], [1, 19, 0, 0], [0, 1]], [1, 1, 1, 10]) := by
  decide!

/-! ## The capacity of the descriptor table -/

theorem get_descriptor_out_of_range (ld : Ldisk) (i : Int) (h : ¬ (0 ≤ i ∧ i < 24)) :
    ld.get_descriptor i = [0, 0, 0, 0] := by
  have hloc : (Ldisk.get_desc_location i).2 + 96 < 0 ∨ 512 ≤ (Ldisk.get_desc_location i).2 := by
    unfold Ldisk.get_desc_location
    simp only []
    split_ifs <;> simp <;> omega
  unfold Ldisk.get_descriptor
  simp only []
  rw [read_int_out_of_range _ _ (by omega), read_int_out_of_range _ _ (by omega),
    read_int_out_of_range _ _ (by omega), read_int_out_of_range _ _ (by omega)]

theorem get_descriptor_block_lt (ld : Ldisk) (hi : ld.BlockInv) (i : Int) (k : Nat)
    (hk1 : 1 ≤ k) (hk3 : k ≤ 3) : (ld.get_descriptor i).getD k 0 < 64 := by
  by_cases h : 0 ≤ i ∧ i < 24
  · have e : i = ((i.toNat : Nat) : Int) := by omega
    rw [e]
    show ld.field i.toNat k < 64
    by_cases h0 : ld.field i.toNat k = 0
    · omega
    · have := (hi.2.1 i.toNat k (by omega) hk1 hk3 h0).2.1
      omega
  · rw [get_descriptor_out_of_range ld i h]
    interval_cases k <;> decide

theorem find_entry_blocks_total (file_name dir_descriptor : List Nat) :
    ∀ (blocks : List Nat) (fs : FileSystem) (search : List Nat),
      (∀ k ∈ blocks, dir_descriptor.getD k 0 < 64) →
      ∃ r, FileSystem.find_entry_blocks file_name dir_descriptor blocks fs search = some r := by
  intro blocks
  induction blocks with
  | nil => intro fs search _; exact ⟨_, rfl⟩
  | cons b rest ih =>
    intro fs search hb
    obtain ⟨r_w, hr, _⟩ := read_block_isSome fs.ldisk (dir_descriptor.getD b 0)
      (hb b (List.mem_cons_self _ _))
    simp only [FileSystem.find_entry_blocks, Option.bind_eq_bind]
    rw [hr]
    simp only [Option.some_bind]
    split
    · exact ⟨_, rfl⟩
    · exact ih _ _ (fun k hk => hb k (List.mem_cons_of_mem _ hk))

theorem find_directory_entry_total (fs : FileSystem) (hi : fs.ldisk.BlockInv)
    (file_name : List Nat) : ∃ r, fs.find_directory_entry file_name = some r := by
  unfold FileSystem.find_directory_entry
  apply find_entry_blocks_total
  intro k hk
  simp only [List.mem_cons, List.mem_singleton, List.not_mem_nil, or_false] at hk
  exact get_descriptor_block_lt fs.ldisk hi _ k (by omega) (by omega)

theorem create_without_descriptor (fs : FileSystem) (hi : fs.ldisk.BlockInv)
    (hfree : 0 < fs.ldisk.free_blocks) (hused : ∀ d, d < 24 → fs.ldisk.field d 0 ≠ 0)
    (file_name : List Nat) : ∃ fs1, fs.create file_name = some (fs1, -1) := by
  by_cases hlen : file_name.length ≤ 4
  · obtain ⟨q, hq⟩ := find_directory_entry_total fs hi file_name
    have e := find_directory_entry_ldisk fs file_name q hq
    by_cases hloc : q.2 = -1
    · obtain ⟨b, hfb, _, _, _, _⟩ := find_free_block_total fs.ldisk (by rw [hi.1]; omega) hfree
      obtain ⟨r, hr, hspec⟩ := init_descriptor_spec (fs.ldisk.mark b 1)
        (by rw [length_mark]; exact hi.1) b
      have hr1 : r = (fs.ldisk.mark b 1, -1) := by
        rcases hspec with ⟨h1, _⟩ | ⟨d, hd, h0, _⟩
        · exact h1
        · rw [field_mark _ _ _ d 0 hd (by omega)] at h0
          exact absurd h0 (hused d hd)
      refine ⟨{ q.1 with ldisk := fs.ldisk.mark b 1 }, ?_⟩
      unfold FileSystem.create
      rw [if_pos hlen]
      simp only [Option.bind_eq_bind]
      rw [hq]
      simp only [Option.some_bind]
      rw [if_pos hloc, e, hfb]
      simp only [Option.some_bind]
      rw [hr, hr1]
      simp
    · exact ⟨q.1, ((create_rejects fs file_name).2 q hlen hq hloc).1⟩
  · exact ⟨fs, (create_rejects fs file_name).1 (by omega)⟩

/-- C16 (amended): the capacity of the descriptor table is 23 files.  The 23
names `a` to `w` are valid and pairwise distinct; on the freshly initialised
disk each of the 23 calls `create` for them returns 0 (success), and in the
state that they leave every further call `create`, whatever its name, returns
-1 (error): descriptor 0 of the 24 descriptors holds the directory. -/
theorem descriptor_capacity :
    (∀ n ∈ (List.range 23).map (fun i => [97 + i]), ValidName n) ∧
    ((List.range 23).map (fun i => [97 + i])).Nodup ∧
    ∃ fs, create_each ((List.range 23).map (fun i => [97 + i])) FileSystem.fresh
        = some (fs, List.replicate 23 0) ∧
      ∀ file_name, ∃ fs1, fs.create file_name = some (fs1, -1) := by
  refine ⟨?_, by decide, ?_⟩
  · intro n hn
    simp only [List.mem_map, List.mem_range] at hn
    obtain ⟨i, hi, rfl⟩ := hn
    refine ⟨by simp, by simp, ?_⟩
    intro c hc
    simp only [List.mem_singleton] at hc
    subst hc
    refine ⟨by omega, by omega, ?_⟩
    unfold isInteger
    have h57 : Nat.ble (97 + i) 57 = false := by
      rw [Bool.eq_false_iff]; intro hble; rw [Nat.ble_eq] at hble; omega
    rw [h57, Bool.and_false]
  · have H := create_until_full
    cases hx : create_each ((List.range 23).map (fun i => [97 + i])) FileSystem.fresh with
    | none => rw [hx] at H; simp at H
    | some r =>
      rw [hx] at H
      simp only [Option.some_bind] at H
      cases hq : r.1.create [120] with
      | none => rw [hq] at H; simp at H
      | some q =>
        rw [hq] at H
        simp only [Option.map_some', Option.some.injEq, Prod.mk.injEq] at H
        obtain ⟨h1, _, h3, _, _⟩ := H
        have hrun : run (((List.range 23).map (fun i => [97 + i])).map Op.create)
            FileSystem.fresh = some r.1 := by
          rw [run_create_each, hx]; rfl
        have hi := run_BlockInv _ _ _ hrun fresh_BlockInv
        have hu := create_each_used _ _ r.1 r.2 hx fresh_cache_length
        rw [fresh_used, h1] at hu
        have hcount : (List.range 24).countP (fun d => decide (r.1.ldisk.field d 0 ≠ 0))
            = (List.range 24).length := by
          have : r.1.ldisk.used = 24 := by rw [hu]; decide
          rw [List.length_range]
          exact this
        have hall : ∀ d, d < 24 → r.1.ldisk.field d 0 ≠ 0 := by
          intro d hd
          have := (List.countP_eq_length.1 hcount) d (List.mem_range.2 hd)
          simpa using this
        have hfree : 0 < r.1.ldisk.free_blocks := by
          unfold Ldisk.free_blocks
          rw [h3]
          decide
        refine ⟨r.1, ?_, fun file_name => create_without_descriptor r.1 hi hfree hall file_name⟩
        rw [← h1]

/-! ## The claims that fail on the code -/

/-- C2 (failing input): a file `a` is created and opened in slot 1, and 192
writes of one character each return 1 (192 in total), so that 192 bytes have
been written sequentially; the descriptor then reads size 1 and blocks 10, 11,
12.  One more write of one character returns 0 and changes the size field
from 1 to 0, the block slots staying as they are. -/
theorem write_past_cap_after_single_bytes :
    ((run [Op.create [97], Op.open [97]] FileSystem.fresh).bind fun fs0 =>
      (write_each 1 (List.replicate 192 [120]) fs0 0).bind fun r =>
      (r.1.write 1 [120]).map fun q =>
        (r.2, r.1.ldisk.get_descriptor 1, q.2, q.1.ldisk.get_descriptor 1))
      = some (192, [1, 10, 11, 12], 0, [0, 10, 11, 12]) := by
  decide!

/-- C4 (failing input): the files `a` to `j` are created, so that the entry of
`j` is written with descriptor index 10 (the directory block holds `j10` at
bytes 18..20, descriptor 10 holds block 19, descriptor 1 holds block 10).
`destroy("j")` then zeroes descriptor 1 and clears bitmap bit 10, leaves
descriptor 10 and bitmap bit 19 as they were, and leaves the digit `0` of the
entry in the directory block.  The lists are, before and after the call: bytes
18..21 of the directory block, descriptor 1, descriptor 10, then bits 10 and
19 of the bitmap after the call. -/
theorem destroy_two_digit_entry :
    ((run (create_letters 10) FileSystem.fresh).bind fun fs0 =>
      (fs0.destroy [106]).bind fun r =>
      (fs0.ldisk.read_block 7).bind fun dir0 =>
      (r.1.ldisk.read_block 7).map fun dir1 =>
        [(dir0.drop 18).take 4, fs0.ldisk.get_descriptor 1, fs0.ldisk.get_descriptor 10,
         (dir1.drop 18).take 4, r.1.ldisk.get_descriptor 1, r.1.ldisk.get_descriptor 10,
         [bit (r.1.ldisk.cache.getD 0 0) 10, bit (r.1.ldisk.cache.getD 0 0) 19]])
      = some [[106, 49, 48, 0], [1, 10, 0, 0], [1, 19, 0, 0],
              [0, 0, 48, 0], [0, 0, 0, 0], [1, 19, 0, 0], [0, 1]] := by
  have H := ten_files
  simp only [Option.bind_eq_some, Option.map_eq_some', Prod.mk.injEq] at H
  obtain ⟨fs0, h0, r, h1, dir0, h2, dir1, h3, g, _, o, _, h6, _⟩ := H
  rw [h0]
  simp only [Option.some_bind]
  rw [h1]
  simp only [Option.some_bind]
  rw [h2]
  simp only [Option.some_bind]
  rw [h3]
  simp only [Option.map_some']
  rw [h6]

/-- C5 (failing input): the files `a` to `j` are created, so that the entry of
`j` is written with descriptor index 10, whose first block is 19; no file is
open.  `get_desc_index("j")` returns 1, and `open("j")` returns slot 1 with
`desc_index` 1 and `buffer_block` 10, the descriptor and the block of file `a`. -/
theorem open_two_digit_entry :
    ((run (create_letters 10) FileSystem.fresh).bind fun fs0 =>
      (fs0.get_desc_index [106]).bind fun g =>
      (fs0.open [106]).map fun r =>
        (fs0.ldisk.get_descriptor 10, g.2, r.2, (r.1.oft 1).index, (r.1.oft 1).buffer_block))
      = some ([1, 19, 0, 0], 1, 1, 1, 10) := by
  have H := ten_files
  simp only [Option.bind_eq_some, Option.map_eq_some', Prod.mk.injEq] at H
  obtain ⟨fs0, h0, r, _, dir0, _, dir1, _, g, h4, o, h5, h6, h7⟩ := H
  rw [h0]
  simp only [Option.some_bind]
  rw [h4]
  simp only [Option.some_bind]
  rw [h5]
  simp only [Option.map_some', Option.some.injEq, Prod.mk.injEq]
  simp only [List.cons.injEq, and_true] at h6 h7
  obtain ⟨_, _, hd10, _⟩ := h6
  obtain ⟨g2, o2, oi, ob⟩ := h7
  exact ⟨hd10, g2, o2, oi, by omega⟩

/-- C6 (failing state): after `create("a")`, `create("b")`, `destroy("a")` and
`create("cdef")` the directory scan returns the single name `cdef`, which maps
to descriptor 1 (the entry `cdef1` was written over the entry `b2`), while
descriptor 2 still has size 1 and block 11: a user descriptor with size > 0
that no directory entry refers to. -/
theorem directory_entry_overwritten :
    ((run [Op.create [97], Op.create [98], Op.destroy [97], Op.create [99, 100, 101, 102]]
        FileSystem.fresh).bind fun fs =>
      fs.directory.bind fun r =>
      (r.1.get_desc_index [99, 100, 101, 102]).bind fun g =>
      (fs.ldisk.read_block 7).map fun dir =>
        (r.2, g.2, fs.ldisk.get_descriptor 2, dir.take 6))
      = some ([[99, 100, 101, 102]], 1, [1, 11, 0, 0], [99, 100, 101, 102, 49, 0]) := by
  decide!

/-- C7 (failing state): after 23 files have been created all 24 descriptors are
in use and bitmap bit 33 is clear.  A further `create("x")` returns -1, yet it
sets bitmap bit 33, and block 33 is in no block slot of any descriptor. -/
theorem failed_create_leaks_block :
    ((run (create_letters 23) FileSystem.fresh).bind fun fs0 =>
      (fs0.create [120]).map fun r =>
        (r.2, bit (fs0.ldisk.cache.getD 0 0) 33, bit (r.1.ldisk.cache.getD 0 0) 33,
          (List.range 24).all fun d => decide (33 ∉ (r.1.ldisk.get_descriptor d).drop 1)))
      = some (-1, 0, 1, true) := by
  have H := create_until_full
  rw [create_letters_eq, run_create_each]
  cases hx : create_each ((List.range 23).map (fun i => [97 + i])) FileSystem.fresh with
  | none => rw [hx] at H; simp at H
  | some r =>
    rw [hx] at H
    simp only [Option.some_bind, Option.map_some'] at H ⊢
    cases hq : r.1.create [120] with
    | none => rw [hq] at H; simp at H
    | some q =>
      rw [hq] at H
      simp only [Option.map_some', Option.some.injEq, Prod.mk.injEq] at H ⊢
      obtain ⟨_, h2, h3, h4, h5⟩ := H
      rw [h3, h4]
      exact ⟨h2, by decide, by decide, h5⟩

/-- C9 (failing state): a file is created and opened, 100 characters are
written, the position is set back to 0 and 100 characters are written again;
the size field of the descriptor is then 200, above 192. -/
theorem size_exceeds_cap_after_overwrite :
    (run [Op.create [97], Op.open [97], Op.write 1 (List.replicate 100 120), Op.lseek 1 0,
          Op.write 1 (List.replicate 100 120)] FileSystem.fresh).map
      (fun fs => fs.ldisk.get_descriptor 1)
      = some [200, 10, 11, 0] := by
  decide!

/-- C10 (failing input): a file is created and opened and two writes of one
character each return 1, with no seek in between; the total is 2, and the
size field of the descriptor is 1. -/
theorem size_after_two_single_byte_writes :
    ((run [Op.create [97], Op.open [97]] FileSystem.fresh).bind fun fs0 =>
      (write_each 1 [[120], [120]] fs0 0).map fun r => (r.2, r.1.ldisk.get_descriptor 1))
      = some (2, [1, 10, 0, 0]) := by
  decide!

/-! ## Further claims that fail on the code -/

/-- C11 (failing input): a file is created and opened in slot 1, its size field
is 1 and the position in the buffer is 0.  `lseek(1, -1)` passes the test
`pos < size`, selects block slot 1 (which holds block 10) and stores
`pos - 0 = -1` in `buffer_index`; the returned value is that -1.  The position
is not a value in 0..63, and the next `read` indexes the buffer at -1. -/
theorem lseek_negative_position :
    ((run [Op.create [97], Op.open [97]] FileSystem.fresh).bind fun fs =>
      (fs.lseek 1 (-1)).map fun r =>
        ((fs.oft 1).buffer_index, fs.ldisk.get_descriptor 1, r.2, (r.1.oft 1).buffer_index,
          (r.1.oft 1).buffer_block, (r.1.read 1 [] 1).isSome))
      = some (0, [1, 10, 0, 0], -1, -1, 10, false) := by
  decide!

/-- C13 (failing input): the file `a` is created and opened in slot 1 with
descriptor 1, then a file with the name `2` is created, whose entry `22`
follows the entry `a1` in the directory block.  `open("a")` now reads the
index of `a` as 21, finds no slot with that index, and returns slot 2: the
file that is open in slot 1 is opened again, and slot 2 changes from free to
index 21 with `buffer_block` 0.  The values are the first five characters of
the directory block, then the indices of slots 1 and 2 before the call, the
returned value and the indices of slots 1 and 2 after it, then the
`buffer_block` of slot 2. -/
theorem open_twice_after_digit_name :
    ((run [Op.create [97], Op.open [97], Op.create [50]] FileSystem.fresh).bind fun fs =>
      (fs.open [97]).bind fun r =>
      (fs.ldisk.read_block 7).map fun dir =>
        (dir.take 5, [(fs.oft 1).index, (fs.oft 2).index, r.2, (r.1.oft 1).index,
          (r.1.oft 2).index], (r.1.oft 2).buffer_block))
      = some ([97, 49, 50, 50, 0], [1, -1, 2, 1, 21], 0) := by
  decide!

/-- C15 (failing input): on the freshly initialised disk `close(0)` returns 0
and sets the descriptor index of slot 0 to -1; after that `create("a")`
returns 0 and `open("a")` returns slot 0 (the values are the index of slot 0
before the call, the value returned by `close`, the index of slot 0 after it,
and the values returned by `create` and `open`).  `close_all`, which the command
`sv` calls before it saves the disk, closes slot 0 as well: the index of slot 0
is -1 after it. -/
theorem close_of_directory_slot :
    (((FileSystem.fresh.close 0).bind fun r =>
        (r.1.create [97]).bind fun q =>
        (q.1.open [97]).map fun o =>
          [(FileSystem.fresh.oft 0).index, r.2, (r.1.oft 0).index, q.2, o.2]),
      FileSystem.fresh.close_all.map fun fs => (fs.oft 0).index)
      = (some [0, 0, -1, 0, 0], some (-1)) := by
  decide!

/-- C16 (counterexample): of the 24 calls `create` for the names `a` to `x` on
the freshly initialised disk the first 23 return 0 and the 24th returns -1. -/
theorem twenty_fourth_create_fails :
    ((create_each ((List.range 23).map (fun i => [97 + i])) FileSystem.fresh).bind fun r =>
      (r.1.create [120]).map fun q => (r.2, q.2))
      = some (List.replicate 23 0, -1) := by
  have H := create_until_full
  cases hx : create_each ((List.range 23).map (fun i => [97 + i])) FileSystem.fresh with
  | none => rw [hx] at H; simp at H
  | some r =>
    rw [hx] at H
    simp only [Option.some_bind] at H ⊢
    cases hq : r.1.create [120] with
    | none => rw [hq] at H; simp at H
    | some q =>
      rw [hq] at H
      simp only [Option.map_some', Option.some.injEq, Prod.mk.injEq] at H ⊢
      exact ⟨H.1, H.2.1⟩

/-- C17 (failing input): on the freshly initialised disk `create` returns 0 for
the empty name, for the name `a1` and for the name `1`. -/
theorem create_accepts_invalid_names :
    ((FileSystem.fresh.create []).map Prod.snd, (FileSystem.fresh.create [97, 49]).map Prod.snd,
      (FileSystem.fresh.create [49]).map Prod.snd) = (some 0, some 0, some 0) := by
  decide!

/-- C18 (failing input): after the 23 files `a` to `w` have been created no
descriptor is free; `create("x")` returns -1 and the cached bitmap changes from
8589934464 (bits 7 to 32) to 17179869056 (bits 7 to 33). -/
theorem failed_create_changes_bitmap :
    ((create_each ((List.range 23).map (fun i => [97 + i])) FileSystem.fresh).bind fun r =>
      (r.1.create [120]).map fun q =>
        (q.2, r.1.ldisk.cache.getD 0 0, q.1.ldisk.cache.getD 0 0))
      = some (-1, 8589934464, 17179869056) := by
  have H := create_until_full
  cases hx : create_each ((List.range 23).map (fun i => [97 + i])) FileSystem.fresh with
  | none => rw [hx] at H; simp at H
  | some r =>
    rw [hx] at H
    simp only [Option.some_bind] at H ⊢
    cases hq : r.1.create [120] with
    | none => rw [hq] at H; simp at H
    | some q =>
      rw [hq] at H
      simp only [Option.map_some', Option.some.injEq, Prod.mk.injEq] at H ⊢
      exact ⟨H.2.1, H.2.2.1, H.2.2.2.1⟩

/-- C19 (counterexample): the freshly initialised disk is saved and the lines
are read by `init_disk` into an empty disk.  Before the save `read_block(0)`
gives 64 zero characters (the bitmap is in the cache only); after the restore
it gives the characters 1, 192 and 62 zeros, the bits 7, 8 and 9 of the bitmap. -/
theorem read_block_differs_after_restore :
    ((Ldisk.init_disk_file FileSystem.blank.ldisk
        (some FileSystem.fresh.ldisk.save_disk.2)).bind fun ld1 =>
      (FileSystem.fresh.ldisk.read_block 0).bind fun before =>
      (ld1.read_block 0).map fun after => (before, after))
      = some (List.replicate 64 0, 1 :: 192 :: List.replicate 62 0) := by
  decide!

/-! ## Claims about the bitmap, the size field and the buffers that fail on the code -/

/-- C22 (counterexample): `init_disk()` on the empty disk object leaves bits 0..6
of the cached bitmap clear; only the bits 7, 8 and 9 of the three directory
blocks are set (the bitmap is 896).  The freshly initialised disk is a
reachable state, and there bits 0..6 are clear. -/
theorem reserved_bits_not_set :
    (FileSystem.blank.ldisk.init_disk.map fun ld =>
        (List.range 10).map (fun i => bit (ld.cache.getD 0 0) i))
      = some [0, 0, 0, 0, 0, 0, 0, 1, 1, 1] ∧
    Reachable FileSystem.fresh ∧
    (List.range 7).map (fun i => bit (FileSystem.fresh.ldisk.cache.getD 0 0) i)
      = [0, 0, 0, 0, 0, 0, 0] :=
  ⟨by decide!, ⟨[], rfl⟩, by decide!⟩

/-- C23: a descriptor that is in use gets the size 0 and is handed out again.
After `create("a")`, `open("a")` and a write of no characters (the command
`wr 1 x 0`) descriptor 1 reads `[0, 10, 0, 0]`: its size field is 0 while
block slot 1 holds block 10, the directory still lists `a` and slot 1 of the
open file table still holds descriptor 1.  The call `create("b")` then
returns 0 and takes descriptor 1 again: it reads `[1, 11, 0, 0]`, the
directory lists `a` and `b`, `get_desc_index` gives 1 for both names, and bit
10 of the bitmap stays set (3968 is bits 7..11).  The components of the
result are the two readings of descriptor 1, the two directory listings, the
integers (index of slot 1, value of `create`, the two descriptor indices) and
the bitmap. -/
theorem zero_size_descriptor_in_use :
    ((run [Op.create [97], Op.open [97], Op.write 1 []] FileSystem.fresh).bind fun fs =>
      (fs.create [98]).bind fun r =>
        (fs.directory).bind fun dir =>
          (r.1.directory).bind fun dir1 =>
            (r.1.get_desc_index [97]).bind fun ga =>
              (r.1.get_desc_index [98]).map fun gb =>
                ([fs.ldisk.get_descriptor 1, r.1.ldisk.get_descriptor 1], [dir.2, dir1.2],
                  [(fs.oft 1).index, r.2, ga.2, gb.2], r.1.ldisk.cache.getD 0 0))
      = some ([[0, 10, 0, 0], [1, 11, 0, 0]], [[[97]], [[97], [98]]], [1, 0, 1, 1], 3968) := by
  decide!

/-- C24 (counterexample): the file `a` is created and opened in slot 1 and 100
characters `x` are written (blocks 10 and 11).  After `lseek(1, 0)` ten
characters `y` are written into block 10; then the slot seeks to position 64,
in block 11, and is closed.  Block 10 on disk holds the ten `y` (followed by
54 `x`), before `close` and after it. -/
theorem written_bytes_survive_seek :
    ((run [Op.create [97], Op.open [97], Op.write 1 (List.replicate 100 120), Op.lseek 1 0,
        Op.write 1 (List.replicate 10 121), Op.lseek 1 64] FileSystem.fresh).bind fun fs =>
      (fs.close 1).map fun r =>
        ((fs.oft 1).buffer_block, fs.ldisk.read_block 10, r.2, r.1.ldisk.read_block 10))
      = some (11, some (List.replicate 10 121 ++ List.replicate 54 120), 0,
          some (List.replicate 10 121 ++ List.replicate 54 120)) := by
  decide!

/-- C25: a new file is not empty.  The file `a` is created and opened, ten
characters `x` are written and `a` is destroyed; `create("b")` returns 0 and
`open("b")` returns slot 1.  The new file has descriptor 1 and block 10, the
block of `a`, and `read(1, out, 10)` on it returns 10 and appends the ten
characters `x` of the destroyed file to the empty `out`. -/
theorem new_file_reads_old_bytes :
    ((run [Op.create [97], Op.open [97], Op.write 1 (List.replicate 10 120), Op.destroy [97]]
        FileSystem.fresh).bind fun fs =>
      (fs.create [98]).bind fun c =>
        (c.1.open [98]).bind fun o =>
          (o.1.read o.2 [] 10).map fun r =>
            (c.2, o.2, o.1.ldisk.get_descriptor 1, r.2.1, r.2.2))
      = some (0, 1, [1, 10, 0, 0], List.replicate 10 120, 10) := by
  decide!

/-! ## Claims that fail once an entry is misread or a position is negative -/

/-- C1 (failing input): the round trip fails for a file that was just created
and opened.  After `create("x")`, `create("y")`, `destroy("x")` and
`create("pq")` the directory block starts with `pq12`: the new file has
descriptor 1 (`[1, 10, 0, 0]`), and its entry `pq1` is followed by the digit of
the entry of `y`.  `open("pq")` returns slot 1 with `buffer_index` 0, but
`get_desc_index` reads the index 21, so the slot holds descriptor 21 and
`buffer_block` 0.  `write(1, data)` with ten characters `z` returns 10,
`lseek(1, 0)` returns 10 and leaves the position at 10, and `read(1, out, 10)`
returns 10 and appends nothing to the empty `out`.  The components of the
result are the first six characters of the directory block, descriptor 1, the
integers (value of `open`, then index, `buffer_block` and `buffer_index` of
slot 1, value of `write`, value of `lseek`, position after `lseek`, value of
`read`) and the characters that `read` appended. -/
theorem round_trip_fails_after_misread_entry :
    ((run [Op.create [120], Op.create [121], Op.destroy [120], Op.create [112, 113]]
        FileSystem.fresh).bind fun fs =>
      (fs.open [112, 113]).bind fun o =>
        (o.1.write o.2 (List.replicate 10 122)).bind fun w =>
          (w.1.lseek 1 0).bind fun l =>
            (l.1.read 1 [] 10).bind fun r =>
              (fs.ldisk.read_block 7).map fun dir =>
                (dir.take 6, fs.ldisk.get_descriptor 1,
                  [o.2, (o.1.oft 1).index, ((o.1.oft 1).buffer_block : Int),
                    (o.1.oft 1).buffer_index, w.2, l.2, (l.1.oft 1).buffer_index, r.2.2],
                  r.2.1))
      = some ([112, 113, 49, 50, 0, 0], [1, 10, 0, 0], [1, 21, 0, 0, 10, 10, 10, 10], []) := by
  decide!

/-- C8 (failing input): a write before the start of the buffer.  After
`create("a")`, `create("b")` and `open("a")` the descriptors 1 and 2 read
`[1, 10, 0, 0]` and `[1, 11, 0, 0]`.  `lseek(1, -456)` is accepted: it returns
-456 and stores -456 in `buffer_index`.  `write(1, data)` with the one
character 11 then executes `r_w[-456] = 11`, a store outside the buffer, for
which there is no result here (nor for `read`); neither `lseek` nor `write`
tests the position against 0.  The components of the result are the value of
`lseek`, the position after it, the two descriptors, and whether `write` and
`read` have a result. -/
theorem write_before_buffer_start :
    ((run [Op.create [97], Op.create [98], Op.open [97]] FileSystem.fresh).bind fun fs =>
      (fs.lseek 1 (-456)).map fun l =>
        ([l.2, (l.1.oft 1).buffer_index],
          [l.1.ldisk.get_descriptor 1, l.1.ldisk.get_descriptor 2],
          [(l.1.write 1 [11]).isSome, (l.1.read 1 [] 1).isSome]))
      = some ([-456, -456], [[1, 10, 0, 0], [1, 11, 0, 0]], [false, false]) := by
  decide!
